import Mathlib

/-!
# Font cache of `jive_font.c`

A shallow embedding of the reference-counted font cache of
`src/squeezeplay/src/ui/jive_font.c`.

The C module keeps a process-wide singly linked list `fonts` of `JiveFont`
objects that live on the C heap.  The embedding keeps the pointers: a heap maps
addresses to `JiveFont` records, the record holds the address of the next
node, and every operation is a function from the state before the call to the
state after it (or to the way the call fails to return).

The collaborators that are not part of the module (the allocator, the file
lookup and SDL_ttf) answer through an `Env` record that is an argument of every
call, so that their answers may change from one call to the next.
-/

namespace JiveFontModel

/-! ## Data model -/

/-- A C pointer; address `0` is `NULL`. -/
abbrev Ptr := Nat

/-- The null pointer. -/
def NULL : Ptr := 0

/-- Number of values of the `Uint32` reference counter. -/
def UINT32_MOD : Nat := 4294967296

/-- The functions a `JiveFont` dispatches to; `null` is the value `calloc`
leaves in a function pointer. -/
inductive FnPtr where
  | null
  | width_ttf_font
  | draw_ttf_font
  | destroy_ttf_font
deriving DecidableEq, Repr

/-- The marker `static const char *JIVE_FONT_MAGIC = "Font"`; `none` stands for
the null pointer that `calloc` leaves in the `magic` field. -/
def JIVE_FONT_MAGIC : Option String := some "Font"

/-- Modelled from the spec: `struct jive_font` is declared in `jive.h`, which is
not among the sources.  The fields are the ones `jive_font.c` reads and writes;
`refcount` is the unsigned integer of the specification, taken as SDL's
`Uint32` (arithmetic modulo `UINT32_MOD`), `size` the `Uint16` point size, and
`height`, `capheight`, `ascend` the C `int` metrics. -/
structure JiveFont where
  refcount : Nat
  name : Option String
  size : Nat
  draw : FnPtr
  width : FnPtr
  destroy : FnPtr
  ttf : Ptr
  height : Int
  capheight : Int
  ascend : Int
  next : Ptr
  magic : Option String
deriving DecidableEq, Repr

/-- The object `calloc(sizeof(JiveFont), 1)` returns: every field zero. -/
def JiveFont.zero : JiveFont :=
  { refcount := 0, name := none, size := 0, draw := FnPtr.null,
    width := FnPtr.null, destroy := FnPtr.null, ttf := NULL, height := 0,
    capheight := 0, ascend := 0, next := NULL, magic := none }

/-- The allocated `JiveFont` objects, by address. -/
abbrev Heap := List (Ptr × JiveFont)

/-- Dereference: the object stored at `p`, if `p` is allocated. -/
def hread : Heap → Ptr → Option JiveFont
  | [], _ => none
  | (q, f) :: t, p => if q = p then some f else hread t p

/-- Release the object at `p` (`free`). -/
def hfree : Heap → Ptr → Heap
  | [], _ => []
  | (q, f) :: t, p => if q = p then hfree t p else (q, f) :: hfree t p

/-- Store `f` at address `p`. -/
def hwrite (h : Heap) (p : Ptr) (f : JiveFont) : Heap :=
  (p, f) :: hfree h p

/-- The process-wide state the module works on: the static `fonts`, the
`JiveFont` objects on the heap, and the part of SDL_ttf the module drives
(whether the library is initialised, and which `TTF_Font` objects are open). -/
structure State where
  fonts : Ptr
  heap : Heap
  ttfInit : Bool
  ttfOpen : List Ptr
deriving DecidableEq, Repr

/-- The state at program start: `fonts = NULL`, SDL_ttf not initialised. -/
def State.init : State :=
  { fonts := NULL, heap := [], ttfInit := false, ttfOpen := [] }

/-- What the collaborators answer during one call.
* `TTF_Init`: whether `TTF_Init()` succeeds (returns `0` rather than `-1`);
* `calloc`: the address `calloc` returns (`NULL` when out of memory);
* `squeezeplay_find_file`: the full path of a font file, if it is found;
* `TTF_OpenFont`: the `TTF_Font` opened for a path and size (`NULL` on error);
* `TTF_FontAscent`, `TTF_FontDescent`: the font metrics;
* `TTF_GlyphMetrics`: `(miny, maxy)` of a glyph when the call returns `0`. -/
structure Env where
  TTF_Init : Bool
  calloc : Ptr
  squeezeplay_find_file : String → Option String
  TTF_OpenFont : String → Nat → Ptr
  TTF_FontAscent : Ptr → Int
  TTF_FontDescent : Ptr → Int
  TTF_GlyphMetrics : Ptr → Char → Option (Int × Int)

/-- The ways a call does not return to its caller. -/
inductive Fault where
  /-- The call ended the process with `exit(code)`. -/
  | exit (code : Int)
  /-- An `assert` failed. -/
  | assertion
  /-- A pointer that is null or not allocated was dereferenced. -/
  | segv
  /-- A loop over the list never reaches `NULL`. -/
  | diverge
deriving DecidableEq, Repr

/-! ## Operations -/

/-- The value a C `int` expression holds when its exact value is `x`: the
32-bit two's-complement representative of `x`.  Signed overflow is undefined in
C; the wrapped value is what the compiled `+` and `-` leave.  For `x` between
`-2147483648` and `2147483647` the value is `x` itself. -/
def wrapInt (x : Int) : Int := (x + 2147483648) % 4294967296 - 2147483648

/-- The value of a `Uint32` after `++`: the largest value `UINT32_MOD - 1`
wraps to `0`. -/
def incr32 (n : Nat) : Nat := if n + 1 = UINT32_MOD then 0 else n + 1

/-- The value of a `Uint32` after `--`: `0` wraps to the largest value
`UINT32_MOD - 1`. -/
def decr32 (n : Nat) : Nat := if n = 0 then UINT32_MOD - 1 else n - 1

/-- The `JiveFont` with its reference count replaced by `r refcount`. -/
def JiveFont.mapRefcount (r : Nat → Nat) (f : JiveFont) : JiveFont :=
  { f with refcount := r f.refcount }

/-- The effect of `refcount++` on a `JiveFont`. -/
def JiveFont.incr (f : JiveFont) : JiveFont := f.mapRefcount incr32

/-- The effect of `--refcount` on a `JiveFont`. -/
def JiveFont.decr (f : JiveFont) : JiveFont := f.mapRefcount decr32

/-- The test `ptr->size == size && strcmp(ptr->name, name) == 0`; `none` when
`strcmp` is handed a null `name`. -/
def keyMatch (f : JiveFont) (name : String) (size : Nat) : Option Bool :=
  if f.size = size then
    match f.name with
    | none => none
    | some nm => some (decide (nm = name))
  else some false

/-- The `while (ptr)` loop at the head of `jive_font_load`: on a match the
reference count is incremented and the node returned, `none` when the loop
falls through.  A heap of `n` objects holds a list of at most `n` nodes, so a
loop that is still running after `n + 1` tests is in a cycle. -/
def loadScan (name : String) (size : Nat) (h : Heap) :
    Nat → Ptr → Except Fault (Option (Ptr × Heap))
  | 0, _ => Except.error Fault.diverge
  | n + 1, ptr =>
    if ptr = NULL then Except.ok none
    else
      match hread h ptr with
      | none => Except.error Fault.segv
      | some f =>
        match keyMatch f name size with
        | none => Except.error Fault.segv
        | some true =>
          Except.ok (some (ptr, hwrite h ptr f.incr))
        | some false => loadScan name size h n f.next

/-- The function `load_ttf_font(font, name, size)`: returns `0` when the file is
not found or SDL_ttf cannot open it, else fills in the metrics and the dispatch
entries and returns `1`.  The height is the C `int` expression
`font->capheight - descent + 1`, a subtraction and then an addition. -/
def load_ttf_font (env : Env) (s : State) (font : Ptr) (name : String)
    (size : Nat) : Except Fault (Int × State) :=
  match env.squeezeplay_find_file name with
  | none => Except.ok (0, s)
  | some fullpath =>
    match hread s.heap font with
    | none => Except.error Fault.segv
    | some f =>
      let ttf := env.TTF_OpenFont fullpath size
      if ttf = NULL then
        Except.ok (0, { s with heap := hwrite s.heap font { f with ttf := ttf } })
      else
        let ascend := env.TTF_FontAscent ttf
        let capheight :=
          match env.TTF_GlyphMetrics ttf 'H' with
          | some (_, maxy) => maxy
          | none => ascend
        let descent :=
          match env.TTF_GlyphMetrics ttf 'g' with
          | some (miny, _) => miny
          | none => env.TTF_FontDescent ttf
        Except.ok (1,
          { s with
            heap := hwrite s.heap font
              { f with
                ttf := ttf, ascend := ascend, capheight := capheight,
                height := wrapInt (wrapInt (capheight - descent) + 1),
                width := FnPtr.width_ttf_font, draw := FnPtr.draw_ttf_font,
                destroy := FnPtr.destroy_ttf_font },
            ttfOpen := ttf :: s.ttfOpen })

/-- The function `jive_font_load(name, size)`; the result is the returned
pointer (`NULL` on failure) and the state after the call. -/
def jive_font_load (env : Env) (s : State) (name : String) (size : Nat) :
    Except Fault (Ptr × State) :=
  match loadScan name size s.heap (s.heap.length + 1) s.fonts with
  | Except.error e => Except.error e
  | Except.ok (some (ptr, h)) => Except.ok (ptr, { s with heap := h })
  | Except.ok none =>
    if s.ttfInit = false ∧ env.TTF_Init = false then Except.error (Fault.exit (-1))
    else
      let s1 : State := { s with ttfInit := true }
      let ptr := env.calloc
      let s2 : State :=
        if ptr = NULL then s1 else { s1 with heap := hwrite s1.heap ptr JiveFont.zero }
      match load_ttf_font env s2 ptr name size with
      | Except.error e => Except.error e
      | Except.ok (r, s3) =>
        if r = 0 then Except.ok (NULL, { s3 with heap := hfree s3.heap ptr })
        else
          match hread s3.heap ptr with
          | none => Except.error Fault.segv
          | some f =>
            Except.ok (ptr,
              { s3 with
                heap := hwrite s3.heap ptr
                  { f with
                    refcount := 1, name := some name, size := size,
                    next := s3.fonts, magic := JIVE_FONT_MAGIC },
                fonts := ptr })

/-- The function `jive_font_ref(font)`. -/
def jive_font_ref (s : State) (font : Ptr) : Except Fault (Ptr × State) :=
  if font = NULL then Except.ok (font, s)
  else
    match hread s.heap font with
    | none => Except.error Fault.segv
    | some f =>
      if f.magic = JIVE_FONT_MAGIC then
        Except.ok (font, { s with heap := hwrite s.heap font f.incr })
      else Except.error Fault.assertion

/-- The `while (ptr)` loop of `jive_font_free` that looks for the node whose
`next` is `font` and makes it skip `font`. -/
def unlinkScan (font : Ptr) (h : Heap) : Nat → Ptr → Except Fault Heap
  | 0, _ => Except.error Fault.diverge
  | n + 1, ptr =>
    if ptr = NULL then Except.ok h
    else
      match hread h ptr with
      | none => Except.error Fault.segv
      | some node =>
        if node.next = font then
          match hread h font with
          | none => Except.error Fault.segv
          | some f => Except.ok (hwrite h ptr { node with next := f.next })
        else unlinkScan font h n node.next

/-- The function `destroy_ttf_font(font)`: closes the `TTF_Font` and clears the
field. -/
def destroy_ttf_font (s : State) (font : Ptr) : Except Fault State :=
  match hread s.heap font with
  | none => Except.error Fault.segv
  | some f =>
    if f.ttf ≠ NULL then
      Except.ok
        { s with
          ttfOpen := s.ttfOpen.erase f.ttf,
          heap := hwrite s.heap font { f with ttf := NULL } }
    else Except.ok s

/-- The function `jive_font_free(font)`. -/
def jive_font_free (s : State) (font : Ptr) : Except Fault (Unit × State) :=
  if font = NULL then Except.error Fault.assertion
  else
    match hread s.heap font with
    | none => Except.error Fault.segv
    | some f =>
      if f.magic = JIVE_FONT_MAGIC then
        let h1 := hwrite s.heap font f.decr
        if f.decr.refcount > 0 then Except.ok ((), { s with heap := h1 })
        else
          let unlinked : Except Fault State :=
            if font = s.fonts then Except.ok { s with heap := h1, fonts := f.next }
            else
              match unlinkScan font h1 (h1.length + 1) s.fonts with
              | Except.error e => Except.error e
              | Except.ok h2 => Except.ok { s with heap := h2 }
          match unlinked with
          | Except.error e => Except.error e
          | Except.ok s2 =>
            match hread s2.heap font with
            | none => Except.error Fault.segv
            | some f2 =>
              match f2.destroy with
              | FnPtr.destroy_ttf_font =>
                match destroy_ttf_font s2 font with
                | Except.error e => Except.error e
                | Except.ok s3 =>
                  let s4 : State := { s3 with heap := hfree s3.heap font }
                  if s4.fonts = NULL ∧ s4.ttfInit = true then
                    Except.ok ((), { s4 with ttfInit := false })
                  else Except.ok ((), s4)
              | _ => Except.error Fault.segv
      else Except.error Fault.assertion

/-! ## Measuring and drawing -/

/-- The string a character buffer holds: the bytes before the first NUL (the
end of the list counts as a terminator). -/
def cstr : List Nat → List Nat
  | [] => []
  | c :: cs => if c = 0 then [] else c :: cstr cs

/-- The C function `strlen`. -/
def strlen (buf : List Nat) : Nat := (cstr buf).length

/-- The `n` bytes `strncpy(dest, src, n)` writes to `dest`: the bytes of `src`
up to its terminator, then NUL bytes. -/
def strncpy : List Nat → Nat → List Nat
  | _, 0 => []
  | [], n + 1 => List.replicate (n + 1) 0
  | c :: cs, n + 1 => if c = 0 then List.replicate (n + 1) 0 else c :: strncpy cs n

/-- The buffer `tmp` after `strncpy(tmp, str, len); *(tmp + len) = 0`. -/
def truncated (str : List Nat) (len : Nat) : List Nat := strncpy str len ++ [0]

/-- The fields of `SDL_Color` that `draw_ttf_font` sets. -/
structure SDL_Color where
  r : Nat
  g : Nat
  b : Nat
deriving DecidableEq, Repr

/-- Number of values of a `size_t`, taken as 64 bits wide. -/
def SIZE_MOD : Nat := 18446744073709551616

/-- What the C library, SDL_ttf and the surface module answer when text is
measured or drawn.
* `malloc`: whether `malloc(n)` returns a block (of `n` bytes) rather than `NULL`;
* `TTF_SizeUTF8`: `(w, h)` when the call returns `0`, `none` when it fails and
  leaves `w` and `h` unwritten;
* `w_indeterminate`: the value the local `w` of `width_ttf_font` holds while it
  has not been written;
* `TTF_RenderUTF8_Blended`: the `SDL_Surface` rendered (`NULL` on error);
* `jive_surface_new_SDLSurface`: the `JiveSurface` wrapped around an
  `SDL_Surface` pointer. -/
structure Render where
  malloc : Nat → Bool
  TTF_SizeUTF8 : Ptr → List Nat → Option (Int × Int)
  w_indeterminate : Int
  TTF_RenderUTF8_Blended : Ptr → List Nat → SDL_Color → Ptr
  jive_surface_new_SDLSurface : Ptr → Ptr

/-- The lines `tmp = malloc(len + 1); strncpy(tmp, str, len); *(tmp + len) = '\0'`
of `jive_font_nwidth` and `jive_font_ndraw_text`: the contents of `tmp`.  The
sum `len + 1` is a `size_t`, so for the largest `len` the block asked for has 0
bytes; writing through `NULL` or past the end of the block is a fault. -/
def tmpCopy (rnd : Render) (str : List Nat) (len : Nat) : Except Fault (List Nat) :=
  let size := if len + 1 = SIZE_MOD then 0 else len + 1
  if rnd.malloc size = false then Except.error Fault.segv
  else if size < len + 1 then Except.error Fault.segv
  else Except.ok (truncated str len)

/-- The function `width_ttf_font(font, str)`; `str = none` is the null pointer. -/
def width_ttf_font (rnd : Render) (s : State) (font : Ptr) (str : Option (List Nat)) :
    Except Fault Int :=
  match str with
  | none => Except.ok 0
  | some buf =>
    match hread s.heap font with
    | none => Except.error Fault.segv
    | some f =>
      match rnd.TTF_SizeUTF8 f.ttf (cstr buf) with
      | some (w, _) => Except.ok w
      | none => Except.ok rnd.w_indeterminate

/-- The colour `draw_ttf_font` hands to SDL_ttf for a packed `Uint32` colour. -/
def unpackColor (color : Nat) : SDL_Color :=
  { r := (color >>> 24) &&& 0xFF, g := (color >>> 16) &&& 0xFF, b := (color >>> 8) &&& 0xFF }

/-- The function `draw_ttf_font(font, color, str)`. -/
def draw_ttf_font (rnd : Render) (s : State) (font : Ptr) (color : Nat) (str : List Nat) :
    Except Fault Ptr :=
  match hread s.heap font with
  | none => Except.error Fault.segv
  | some f => Except.ok (rnd.TTF_RenderUTF8_Blended f.ttf (cstr str) (unpackColor color))

/-- The check `assert(font && font->magic == JIVE_FONT_MAGIC)` followed by a
read of the object. -/
def checked (s : State) (font : Ptr) : Except Fault JiveFont :=
  if font = NULL then Except.error Fault.assertion
  else
    match hread s.heap font with
    | none => Except.error Fault.segv
    | some f => if f.magic = JIVE_FONT_MAGIC then Except.ok f else Except.error Fault.assertion

/-- The function `jive_font_width(font, str)`. -/
def jive_font_width (rnd : Render) (s : State) (font : Ptr) (str : Option (List Nat)) :
    Except Fault Int :=
  match checked s font with
  | Except.error e => Except.error e
  | Except.ok f =>
    match f.width with
    | FnPtr.width_ttf_font => width_ttf_font rnd s font str
    | _ => Except.error Fault.segv

/-- The function `jive_font_nwidth(font, str, len)`: the assert, the early
return for `len <= 0`, the copy into `tmp` (a null `str` handed to `strncpy` is
a fault), then the dispatch to `font->width` on `tmp`. -/
def jive_font_nwidth (rnd : Render) (s : State) (font : Ptr) (str : Option (List Nat))
    (len : Nat) : Except Fault Int :=
  match checked s font with
  | Except.error e => Except.error e
  | Except.ok f =>
    if len ≤ 0 then Except.ok 0
    else
      match str with
      | none => Except.error Fault.segv
      | some buf =>
        match tmpCopy rnd buf len with
        | Except.error e => Except.error e
        | Except.ok tmp =>
          match f.width with
          | FnPtr.width_ttf_font => width_ttf_font rnd s font (some tmp)
          | _ => Except.error Fault.segv

/-- The function `jive_font_capheight(font)`; the state is returned to show
that the call leaves it alone. -/
def jive_font_capheight (s : State) (font : Ptr) : Except Fault (Int × State) :=
  match checked s font with
  | Except.error e => Except.error e
  | Except.ok f => Except.ok (f.capheight, s)

/-- The function `jive_font_height(font)`. -/
def jive_font_height (s : State) (font : Ptr) : Except Fault (Int × State) :=
  match checked s font with
  | Except.error e => Except.error e
  | Except.ok f => Except.ok (f.height, s)

/-- The function `jive_font_ascend(font)`. -/
def jive_font_ascend (s : State) (font : Ptr) : Except Fault (Int × State) :=
  match checked s font with
  | Except.error e => Except.error e
  | Except.ok f => Except.ok (f.ascend, s)

/-- The function `jive_font_offset(font)`: the C `int` difference
`font->ascend - font->capheight`. -/
def jive_font_offset (s : State) (font : Ptr) : Except Fault (Int × State) :=
  match checked s font with
  | Except.error e => Except.error e
  | Except.ok f => Except.ok (wrapInt (f.ascend - f.capheight), s)

/-- The function `jive_font_draw_text(font, color, str)`. -/
def jive_font_draw_text (rnd : Render) (s : State) (font : Ptr) (color : Nat)
    (str : Option (List Nat)) : Except Fault Ptr :=
  match checked s font with
  | Except.error e => Except.error e
  | Except.ok f =>
    match str with
    | none => Except.ok (rnd.jive_surface_new_SDLSurface NULL)
    | some buf =>
      match f.draw with
      | FnPtr.draw_ttf_font =>
        match draw_ttf_font rnd s font color buf with
        | Except.error e => Except.error e
        | Except.ok srf => Except.ok (rnd.jive_surface_new_SDLSurface srf)
      | _ => Except.error Fault.segv

/-- The function `jive_font_ndraw_text(font, color, str, len)`: the copy into
`tmp` (a null `str` handed to `strncpy` is a fault), without a test of `len`
and before any assert, then `jive_font_draw_text` on `tmp`. -/
def jive_font_ndraw_text (rnd : Render) (s : State) (font : Ptr) (color : Nat)
    (str : Option (List Nat)) (len : Nat) : Except Fault Ptr :=
  match str with
  | none => Except.error Fault.segv
  | some buf =>
    match tmpCopy rnd buf len with
    | Except.error e => Except.error e
    | Except.ok tmp => jive_font_draw_text rnd s font color (some tmp)

/-! ## The cache list -/

/-- The nodes met when following `next` from `p`, with their contents, for at
most the given number of steps. -/
def walk (h : Heap) : Nat → Ptr → List (Ptr × JiveFont)
  | 0, _ => []
  | n + 1, p =>
    if p = NULL then []
    else
      match hread h p with
      | none => []
      | some f => (p, f) :: walk h n f.next

/-- A handle as the cache list shows it: its address and its fields.  The link
field is cleared, because the position in the list stands for it. -/
def view (e : Ptr × JiveFont) : Ptr × JiveFont := (e.1, { e.2 with next := NULL })

/-- The cache list: the handles reachable from `fonts`, in list order, each
with the contents of its `JiveFont`. -/
def cache (s : State) : List (Ptr × JiveFont) :=
  (walk s.heap (s.heap.length + 1) s.fonts).map view

/-- The key `(name, size)` of a handle. -/
def key (e : Ptr × JiveFont) : Option String × Nat := (e.2.name, e.2.size)

/-- The list `xs` is the chain of nodes that starts at `p` and ends at `NULL`. -/
def IsList (h : Heap) : Ptr → List (Ptr × JiveFont) → Prop
  | p, [] => p = NULL
  | p, e :: es => p ≠ NULL ∧ e.1 = p ∧ hread h p = some e.2 ∧ IsList h e.2.next es

/-- What `jive_font_load` leaves in a handle it hands out: a name, the marker,
an open `TTF_Font` and the three dispatch entries. -/
def Valid (f : JiveFont) : Prop :=
  f.name ≠ none ∧ f.magic = JIVE_FONT_MAGIC ∧ f.ttf ≠ NULL ∧
  f.width = FnPtr.width_ttf_font ∧ f.draw = FnPtr.draw_ttf_font ∧
  f.destroy = FnPtr.destroy_ttf_font

instance (f : JiveFont) : Decidable (Valid f) := by
  unfold Valid; infer_instance

/-- The state invariant of the cache: `fonts` heads a `NULL`-terminated list
of valid handles with pairwise different keys, the open `TTF_Font` objects are
exactly the ones the handles own, and SDL_ttf is initialised while the list is
not empty. -/
def Inv (s : State) : Prop :=
  (∃ xs, IsList s.heap s.fonts xs) ∧
  (∀ e ∈ cache s, Valid e.2) ∧
  ((cache s).map key).Nodup ∧
  s.ttfOpen = (cache s).map (fun e => e.2.ttf) ∧
  s.ttfOpen.Nodup ∧
  (cache s ≠ [] → s.ttfInit = true)

/-- What the allocators may answer in state `s`: `calloc` returns a block that
is not null and not in use, and `TTF_OpenFont` never returns a `TTF_Font` that
is already open. -/
def AllocOK (env : Env) (s : State) : Prop :=
  env.calloc ≠ NULL ∧ hread s.heap env.calloc = none ∧
  ∀ path size, env.TTF_OpenFont path size ∉ s.ttfOpen

/-- The states the module can be in: the initial state and every state a call
of `jive_font_load`, `jive_font_ref` or `jive_font_free` returns to, the last
two made on a handle that is in the cache. -/
inductive Reachable : State → Prop
  | init : Reachable State.init
  | load (s s1 : State) (env : Env) (name : String) (size : Nat) (r : Ptr) :
      Reachable s → AllocOK env s →
      jive_font_load env s name size = Except.ok (r, s1) → Reachable s1
  | ref (s s1 : State) (font r : Ptr) :
      Reachable s → font ∈ (cache s).map Prod.fst →
      jive_font_ref s font = Except.ok (r, s1) → Reachable s1
  | free (s s1 : State) (font : Ptr) :
      Reachable s → font ∈ (cache s).map Prod.fst →
      jive_font_free s font = Except.ok ((), s1) → Reachable s1

/-- Apply `g` to the handle at address `a`, leave the other handles alone. -/
def onHandle (a : Ptr) (g : JiveFont → JiveFont) (e : Ptr × JiveFont) : Ptr × JiveFont :=
  if e.1 = a then (e.1, g e.2) else e

/-- The test of the scan of `jive_font_load`, on a handle of the list. -/
def isKey (name : String) (size : Nat) (e : Ptr × JiveFont) : Bool :=
  decide (e.2.name = some name ∧ e.2.size = size)

/-- The `JiveFont` a successful `jive_font_load` builds for a new key: the
metrics and dispatch entries of `load_ttf_font`, then the fields set by
`jive_font_load` itself. -/
def newFont (env : Env) (fullpath name : String) (size : Nat) (next : Ptr) : JiveFont :=
  let ttf := env.TTF_OpenFont fullpath size
  let ascend := env.TTF_FontAscent ttf
  let capheight :=
    match env.TTF_GlyphMetrics ttf 'H' with
    | some (_, maxy) => maxy
    | none => ascend
  let descent :=
    match env.TTF_GlyphMetrics ttf 'g' with
    | some (miny, _) => miny
    | none => env.TTF_FontDescent ttf
  { refcount := 1, name := some name, size := size, draw := FnPtr.draw_ttf_font,
    width := FnPtr.width_ttf_font, destroy := FnPtr.destroy_ttf_font, ttf := ttf,
    height := wrapInt (wrapInt (capheight - descent) + 1), capheight := capheight,
    ascend := ascend,
    next := next, magic := JIVE_FONT_MAGIC }

/-! ## Sequences of calls -/

/-- One more reference to the handle `font` that holds the key `(name, size)`:
`some env` stands for the call `jive_font_load(name, size)` with the
collaborators answering as `env`, `none` for the call `jive_font_ref(font)`. -/
def retainOne (name : String) (size : Nat) (font : Ptr) (s : State) :
    Option Env → Except Fault (Ptr × State)
  | some env => jive_font_load env s name size
  | none => jive_font_ref s font

/-- A sequence of calls of `jive_font_load(name, size)` and `jive_font_ref(font)`,
run one after the other. -/
def retain (name : String) (size : Nat) (font : Ptr) :
    List (Option Env) → State → Except Fault State
  | [], s => Except.ok s
  | op :: ops, s =>
    match retainOne name size font s op with
    | Except.error e => Except.error e
    | Except.ok (_, s1) => retain name size font ops s1

/-- The call `jive_font_free(font)` made `n` times in a row. -/
def release (font : Ptr) : Nat → State → Except Fault State
  | 0, s => Except.ok s
  | n + 1, s =>
    match jive_font_free s font with
    | Except.error e => Except.error e
    | Except.ok (_, s1) => release font n s1

/-- The states reachable by sequences of calls in which no reference count
wraps: as `Reachable`, but `jive_font_load` and `jive_font_ref` are not applied
to a handle whose count already is `UINT32_MOD - 1`. -/
inductive ReachableNoWrap : State → Prop
  | init : ReachableNoWrap State.init
  | load (s s1 : State) (env : Env) (name : String) (size : Nat) (r : Ptr) :
      ReachableNoWrap s → AllocOK env s →
      (∀ e ∈ cache s, key e = (some name, size) → e.2.refcount ≠ UINT32_MOD - 1) →
      jive_font_load env s name size = Except.ok (r, s1) → ReachableNoWrap s1
  | ref (s s1 : State) (font r : Ptr) :
      ReachableNoWrap s → font ∈ (cache s).map Prod.fst →
      (∀ e ∈ cache s, e.1 = font → e.2.refcount ≠ UINT32_MOD - 1) →
      jive_font_ref s font = Except.ok (r, s1) → ReachableNoWrap s1
  | free (s s1 : State) (font : Ptr) :
      ReachableNoWrap s → font ∈ (cache s).map Prod.fst →
      jive_font_free s font = Except.ok ((), s1) → ReachableNoWrap s1

/-! ## Concrete collaborators and states -/

/-- Collaborators that find every font except `Nope.ttf`, open every file
except `/fonts/Bad.ttf`, allocate at `c` and open the `TTF_Font` at `t`. -/
def exEnv (c t : Ptr) : Env :=
  { TTF_Init := true,
    calloc := c,
    squeezeplay_find_file := fun n => if n = "Nope.ttf" then none else some ("/fonts/" ++ n),
    TTF_OpenFont := fun path _ => if path = "/fonts/Bad.ttf" then NULL else t,
    TTF_FontAscent := fun _ => 10,
    TTF_FontDescent := fun _ => -3,
    TTF_GlyphMetrics := fun _ ch => if ch = 'H' then some (0, 8) else none }

/-- The handle `exEnv` produces for `Arial.ttf`. -/
def exFont (size refcount ttf next : Nat) : JiveFont :=
  { refcount := refcount, name := some "Arial.ttf", size := size,
    draw := FnPtr.draw_ttf_font, width := FnPtr.width_ttf_font,
    destroy := FnPtr.destroy_ttf_font, ttf := ttf, height := 12, capheight := 8,
    ascend := 10, next := next, magic := JIVE_FONT_MAGIC }

/-- The state with one handle for `("Arial.ttf", 12)` at address `1`, holding
`refcount` references. -/
def exOne (refcount : Nat) : State :=
  { fonts := 1, heap := [(1, exFont 12 refcount 112 0)], ttfInit := true, ttfOpen := [112] }

/-- The state after `("Arial.ttf", 12)` and then `("Arial.ttf", 14)` were loaded. -/
def exTwo : State :=
  { fonts := 2, heap := [(2, exFont 14 1 114 1), (1, exFont 12 1 112 0)], ttfInit := true,
    ttfOpen := [114, 112] }

/-- A C library whose `malloc` succeeds and a renderer that measures five
pixels a byte and draws every text but the empty one. -/
def exRender : Render :=
  { malloc := fun _ => true,
    TTF_SizeUTF8 := fun _ str => some (5 * str.length, 12),
    w_indeterminate := 7,
    TTF_RenderUTF8_Blended := fun ttf str _ => if str = [] then NULL else ttf + 1000,
    jive_surface_new_SDLSurface := fun srf => srf + 5000 }

/-! ## The heap -/

theorem hread_hfree (h : Heap) (p q : Ptr) :
    hread (hfree h p) q = if q = p then none else hread h q := by
  induction h with
  | nil => simp [hread, hfree]
  | cons e t ih =>
    obtain ⟨a, f⟩ := e
    by_cases hap : a = p
    · by_cases hq : q = p
      · subst hq; simpa [hfree, hap] using ih
      · have hq2 : ¬ p = q := fun x => hq x.symm
        simp [hfree, hap, ih, hq, hread, hq2]
    · by_cases haq : a = q
      · have hq : ¬ q = p := fun x => hap (haq.trans x)
        simp [hfree, hap, hread, haq, hq]
      · simp [hfree, hap, hread, haq, ih]

theorem hread_hwrite (h : Heap) (p q : Ptr) (f : JiveFont) :
    hread (hwrite h p f) q = if q = p then some f else hread h q := by
  by_cases hq : q = p
  · simp [hwrite, hread, hq]
  · have hq2 : ¬ p = q := fun x => hq x.symm
    simp [hwrite, hread, hq, hq2, hread_hfree]

theorem hread_hwrite_same (h : Heap) (p : Ptr) (f : JiveFont) :
    hread (hwrite h p f) p = some f := by
  simp [hread_hwrite]

theorem hread_hwrite_ne (h : Heap) (p q : Ptr) (f : JiveFont) (hq : q ≠ p) :
    hread (hwrite h p f) q = hread h q := by
  simp [hread_hwrite, hq]

theorem hread_mem_keys (h : Heap) (p : Ptr) (f : JiveFont) (hp : hread h p = some f) :
    p ∈ h.map Prod.fst := by
  induction h with
  | nil => simp [hread] at hp
  | cons e t ih =>
    obtain ⟨a, g⟩ := e
    by_cases hap : a = p
    · simp [hap]
    · simp [hread, hap] at hp
      simp [ih hp]

theorem hfree_fresh (h : Heap) (p : Ptr) (hp : hread h p = none) : hfree h p = h := by
  induction h with
  | nil => simp [hfree]
  | cons e t ih =>
    obtain ⟨a, g⟩ := e
    by_cases hap : a = p
    · simp [hread, hap] at hp
    · simp [hread, hap] at hp
      simp [hfree, hap, ih hp]

theorem hfree_hfree (h : Heap) (p : Ptr) : hfree (hfree h p) p = hfree h p :=
  hfree_fresh _ _ (by simp [hread_hfree])

theorem hfree_hwrite (h : Heap) (p : Ptr) (f : JiveFont) :
    hfree (hwrite h p f) p = hfree h p := by
  simp [hwrite, hfree, hfree_hfree]

/-! ## Lists on the heap -/

theorem IsList_det (h : Heap) (xs : List (Ptr × JiveFont)) :
    ∀ (ys : List (Ptr × JiveFont)) (p : Ptr), IsList h p xs → IsList h p ys → xs = ys := by
  induction xs with
  | nil =>
    intro ys p hx hy
    cases ys with
    | nil => rfl
    | cons e es =>
      simp only [IsList] at hx hy
      exact absurd hx hy.1
  | cons e es ih =>
    intro ys p hx hy
    cases ys with
    | nil =>
      simp only [IsList] at hx hy
      exact absurd hy hx.1
    | cons e2 es2 =>
      simp only [IsList] at hx hy
      obtain ⟨_, h1, h2, h3⟩ := hx
      obtain ⟨_, k1, k2, k3⟩ := hy
      have h4 : e.2 = e2.2 := by
        rw [h2] at k2
        exact Option.some.inj k2
      have he : e = e2 := Prod.ext (h1.trans k1.symm) h4
      subst he
      rw [ih es2 _ h3 k3]

theorem IsList_suffix (h : Heap) (xs : List (Ptr × JiveFont)) :
    ∀ (p : Ptr) (e : Ptr × JiveFont), IsList h p xs → e ∈ xs →
      ∃ ys, IsList h e.1 ys ∧ ys.length ≤ xs.length := by
  induction xs with
  | nil => intro p e _ he; simp at he
  | cons a es ih =>
    intro p e hx he
    rcases List.mem_cons.mp he with rfl | hmem
    · refine ⟨e :: es, ?_, le_refl _⟩
      simp only [IsList] at hx
      obtain ⟨h0, h1, h2, h3⟩ := hx
      subst h1
      exact ⟨h0, rfl, h2, h3⟩
    · simp only [IsList] at hx
      obtain ⟨ys, hy, hlen⟩ := ih _ e hx.2.2.2 hmem
      exact ⟨ys, hy, by simp; omega⟩

theorem IsList_nodup (h : Heap) (xs : List (Ptr × JiveFont)) :
    ∀ (p : Ptr), IsList h p xs → (xs.map Prod.fst).Nodup := by
  induction xs with
  | nil => intro p _; simp
  | cons a es ih =>
    intro p hx
    have hx2 := hx
    simp only [IsList] at hx2
    obtain ⟨h0, h1, h2, h3⟩ := hx2
    simp only [List.map_cons, List.nodup_cons]
    refine ⟨?_, ih _ h3⟩
    intro hmem
    obtain ⟨e, he, hfst⟩ := List.mem_map.mp hmem
    obtain ⟨ys, hy, hlen⟩ := IsList_suffix h es _ e h3 he
    rw [hfst, h1] at hy
    have := IsList_det h _ _ _ hx hy
    rw [← this] at hlen
    simp at hlen

theorem IsList_mem_read (h : Heap) (xs : List (Ptr × JiveFont)) :
    ∀ (p : Ptr) (e : Ptr × JiveFont), IsList h p xs → e ∈ xs →
      hread h e.1 = some e.2 ∧ e.1 ≠ NULL := by
  induction xs with
  | nil => intro p e _ he; simp at he
  | cons a es ih =>
    intro p e hx he
    simp only [IsList] at hx
    obtain ⟨h0, h1, h2, h3⟩ := hx
    rcases List.mem_cons.mp he with rfl | hmem
    · subst h1
      exact ⟨h2, h0⟩
    · exact ih _ e h3 hmem

theorem IsList_length_le (h : Heap) (xs : List (Ptr × JiveFont)) (p : Ptr)
    (hx : IsList h p xs) : xs.length ≤ h.length := by
  have hnd := IsList_nodup h xs p hx
  have hsub : xs.map Prod.fst ⊆ h.map Prod.fst := by
    intro a ha
    obtain ⟨e, he, hfst⟩ := List.mem_map.mp ha
    have := (IsList_mem_read h xs p e hx he).1
    rw [hfst] at this
    exact hread_mem_keys h a _ this
  have := (List.subperm_of_subset hnd hsub).length_le
  simpa using this

theorem walk_eq (h : Heap) (xs : List (Ptr × JiveFont)) :
    ∀ (p : Ptr) (n : Nat), IsList h p xs → xs.length < n → walk h n p = xs := by
  induction xs with
  | nil =>
    intro p n hx hn
    simp only [IsList] at hx
    cases n with
    | zero => simp at hn
    | succ n => simp [walk, hx]
  | cons a es ih =>
    intro p n hx hn
    simp only [IsList] at hx
    obtain ⟨h0, h1, h2, h3⟩ := hx
    cases n with
    | zero => simp at hn
    | succ n =>
      have hlen : es.length < n := by simpa using hn
      simp only [walk, h0, if_false, h2, ih _ n h3 hlen]
      rw [← h1]

theorem cache_eq (s : State) (xs : List (Ptr × JiveFont))
    (hx : IsList s.heap s.fonts xs) : cache s = xs.map view := by
  unfold cache
  rw [walk_eq s.heap xs s.fonts _ hx]
  have := IsList_length_le _ _ _ hx
  omega

theorem hwrite_hwrite (h : Heap) (p : Ptr) (a b : JiveFont) :
    hwrite (hwrite h p a) p b = hwrite h p b := by
  simp [hwrite, hfree, hfree_hfree]

theorem IsList_hwrite_notin (h : Heap) (a : Ptr) (g : JiveFont) (xs : List (Ptr × JiveFont)) :
    ∀ (p : Ptr), IsList h p xs → a ∉ xs.map Prod.fst → IsList (hwrite h a g) p xs := by
  induction xs with
  | nil => intro p hx _; exact hx
  | cons e es ih =>
    intro p hx ha
    simp only [IsList] at hx ⊢
    obtain ⟨h0, h1, h2, h3⟩ := hx
    simp only [List.map_cons, List.mem_cons, not_or] at ha
    have hpa : p ≠ a := fun x => ha.1 (x.symm.trans h1.symm)
    exact ⟨h0, h1, by rw [hread_hwrite_ne _ _ _ _ hpa]; exact h2, ih _ h3 ha.2⟩

theorem IsList_hfree_notin (h : Heap) (a : Ptr) (xs : List (Ptr × JiveFont)) :
    ∀ (p : Ptr), IsList h p xs → a ∉ xs.map Prod.fst → IsList (hfree h a) p xs := by
  induction xs with
  | nil => intro p hx _; exact hx
  | cons e es ih =>
    intro p hx ha
    simp only [IsList] at hx ⊢
    obtain ⟨h0, h1, h2, h3⟩ := hx
    simp only [List.map_cons, List.mem_cons, not_or] at ha
    have hpa : p ≠ a := fun x => ha.1 (x.symm.trans h1.symm)
    exact ⟨h0, h1, by rw [hread_hfree]; simp [hpa, h2], ih _ h3 ha.2⟩

theorem IsList_hwrite_upd (h : Heap) (a : Ptr) (f : JiveFont) (g : JiveFont → JiveFont)
    (hr : hread h a = some f) (hn : ∀ x, (g x).next = x.next) (xs : List (Ptr × JiveFont)) :
    ∀ (p : Ptr), IsList h p xs → IsList (hwrite h a (g f)) p (xs.map (onHandle a g)) := by
  induction xs with
  | nil => intro p hx; exact hx
  | cons e es ih =>
    intro p hx
    simp only [IsList] at hx
    obtain ⟨h0, h1, h2, h3⟩ := hx
    simp only [List.map_cons, IsList]
    by_cases hpa : e.1 = a
    · have hef : e.2 = f := by
        rw [← h1, hpa, hr] at h2
        exact (Option.some.inj h2).symm
      refine ⟨h0, by simp only [onHandle, hpa, if_true]; exact hpa.symm.trans h1, ?_, ?_⟩
      · rw [← h1, hpa]
        simp [onHandle, hpa, hread_hwrite, hef]
      · simp only [onHandle, hpa, if_true, hn]
        exact ih _ h3
    · have hpa2 : p ≠ a := fun x => hpa (h1.trans x)
      refine ⟨h0, by simp only [onHandle, hpa, if_false]; exact h1, ?_, ?_⟩
      · simp [onHandle, hpa, hread_hwrite, hpa2, h2]
      · simp only [onHandle, hpa, if_false]
        exact ih _ h3

theorem keyMatch_eq (f : JiveFont) (name : String) (size : Nat) (hn : f.name ≠ none) :
    keyMatch f name size = some (decide (f.name = some name ∧ f.size = size)) := by
  unfold keyMatch
  cases hname : f.name with
  | none => exact absurd hname hn
  | some nm =>
    by_cases hs : f.size = size
    · simp [hs]
    · simp [hs]

theorem loadScan_eq (name : String) (size : Nat) (h : Heap) (xs : List (Ptr × JiveFont)) :
    ∀ (p : Ptr) (n : Nat), IsList h p xs → xs.length < n → (∀ e ∈ xs, e.2.name ≠ none) →
      loadScan name size h n p =
        Except.ok ((xs.find? (isKey name size)).map (fun e => (e.1, hwrite h e.1 e.2.incr))) := by
  induction xs with
  | nil =>
    intro p n hx hn _
    simp only [IsList] at hx
    cases n with
    | zero => simp at hn
    | succ n => simp [loadScan, hx]
  | cons e es ih =>
    intro p n hx hn hnames
    simp only [IsList] at hx
    obtain ⟨h0, h1, h2, h3⟩ := hx
    cases n with
    | zero => simp at hn
    | succ n =>
      have hlen : es.length < n := by simpa using hn
      have hne : e.2.name ≠ none := hnames e (List.mem_cons_self _ _)
      simp only [loadScan, h0, if_false, h2, keyMatch_eq _ name size hne]
      by_cases hk : e.2.name = some name ∧ e.2.size = size
      · simp [hk, isKey, h1]
      · have hk2 : isKey name size e = false := by simp [isKey, hk]
        simp only [hk, decide_False]
        rw [ih _ n h3 hlen (fun x hx => hnames x (List.mem_cons_of_mem _ hx))]
        simp [List.find?, hk2]

/-! ## What each call does on a well-formed cache -/

theorem load_hit (env : Env) (s : State) (name : String) (size : Nat)
    (xs : List (Ptr × JiveFont)) (e : Ptr × JiveFont)
    (hx : IsList s.heap s.fonts xs) (hnames : ∀ x ∈ xs, x.2.name ≠ none)
    (hf : xs.find? (isKey name size) = some e) :
    jive_font_load env s name size =
      Except.ok (e.1, { s with heap := hwrite s.heap e.1 e.2.incr }) := by
  have hlen := IsList_length_le _ _ _ hx
  unfold jive_font_load
  rw [loadScan_eq name size s.heap xs s.fonts _ hx (by omega) hnames, hf]
  rfl

theorem load_miss_exit (env : Env) (s : State) (name : String) (size : Nat)
    (xs : List (Ptr × JiveFont))
    (hx : IsList s.heap s.fonts xs) (hnames : ∀ x ∈ xs, x.2.name ≠ none)
    (hf : xs.find? (isKey name size) = none)
    (hi : s.ttfInit = false) (ht : env.TTF_Init = false) :
    jive_font_load env s name size = Except.error (Fault.exit (-1)) := by
  have hlen := IsList_length_le _ _ _ hx
  unfold jive_font_load
  rw [loadScan_eq name size s.heap xs s.fonts _ hx (by omega) hnames, hf]
  simp [hi, ht]

theorem load_miss_notfound (env : Env) (s : State) (name : String) (size : Nat)
    (xs : List (Ptr × JiveFont))
    (hx : IsList s.heap s.fonts xs) (hnames : ∀ x ∈ xs, x.2.name ≠ none)
    (hf : xs.find? (isKey name size) = none)
    (hi : s.ttfInit = true ∨ env.TTF_Init = true)
    (hc : env.calloc ≠ NULL) (hfresh : hread s.heap env.calloc = none)
    (hfind : env.squeezeplay_find_file name = none) :
    jive_font_load env s name size = Except.ok (NULL, { s with ttfInit := true }) := by
  have hlen := IsList_length_le _ _ _ hx
  have hi2 : ¬ (s.ttfInit = false ∧ env.TTF_Init = false) := by
    rcases hi with h | h <;> simp [h]
  unfold jive_font_load
  rw [loadScan_eq name size s.heap xs s.fonts _ hx (by omega) hnames, hf]
  simp [hi2, hc, load_ttf_font, hfind, hfree_hwrite, hfree_fresh _ _ hfresh]

theorem load_miss_openfail (env : Env) (s : State) (name : String) (size : Nat)
    (xs : List (Ptr × JiveFont)) (path : String)
    (hx : IsList s.heap s.fonts xs) (hnames : ∀ x ∈ xs, x.2.name ≠ none)
    (hf : xs.find? (isKey name size) = none)
    (hi : s.ttfInit = true ∨ env.TTF_Init = true)
    (hc : env.calloc ≠ NULL) (hfresh : hread s.heap env.calloc = none)
    (hfind : env.squeezeplay_find_file name = some path)
    (hopen : env.TTF_OpenFont path size = NULL) :
    jive_font_load env s name size = Except.ok (NULL, { s with ttfInit := true }) := by
  have hlen := IsList_length_le _ _ _ hx
  have hi2 : ¬ (s.ttfInit = false ∧ env.TTF_Init = false) := by
    rcases hi with h | h <;> simp [h]
  unfold jive_font_load
  rw [loadScan_eq name size s.heap xs s.fonts _ hx (by omega) hnames, hf]
  simp [hi2, hc, load_ttf_font, hfind, hopen, hread_hwrite, hfree_hwrite,
    hfree_fresh _ _ hfresh]

theorem load_miss_ok (env : Env) (s : State) (name : String) (size : Nat)
    (xs : List (Ptr × JiveFont)) (path : String)
    (hx : IsList s.heap s.fonts xs) (hnames : ∀ x ∈ xs, x.2.name ≠ none)
    (hf : xs.find? (isKey name size) = none)
    (hi : s.ttfInit = true ∨ env.TTF_Init = true)
    (hc : env.calloc ≠ NULL)
    (hfind : env.squeezeplay_find_file name = some path)
    (hopen : env.TTF_OpenFont path size ≠ NULL) :
    jive_font_load env s name size =
      Except.ok (env.calloc,
        { fonts := env.calloc,
          heap := hwrite s.heap env.calloc (newFont env path name size s.fonts),
          ttfInit := true,
          ttfOpen := env.TTF_OpenFont path size :: s.ttfOpen }) := by
  have hlen := IsList_length_le _ _ _ hx
  have hi2 : ¬ (s.ttfInit = false ∧ env.TTF_Init = false) := by
    rcases hi with h | h <;> simp [h]
  unfold jive_font_load
  rw [loadScan_eq name size s.heap xs s.fonts _ hx (by omega) hnames, hf]
  simp [hi2, hc, load_ttf_font, hfind, hopen, hread_hwrite, hwrite_hwrite, newFont,
    JiveFont.zero]

theorem ref_eq (s : State) (font : Ptr) (f : JiveFont)
    (h0 : font ≠ NULL) (hr : hread s.heap font = some f) (hm : f.magic = JIVE_FONT_MAGIC) :
    jive_font_ref s font = Except.ok (font, { s with heap := hwrite s.heap font f.incr }) := by
  simp [jive_font_ref, h0, hr, hm]

theorem free_keep (s : State) (font : Ptr) (f : JiveFont)
    (h0 : font ≠ NULL) (hr : hread s.heap font = some f) (hm : f.magic = JIVE_FONT_MAGIC)
    (hrc : f.decr.refcount > 0) :
    jive_font_free s font = Except.ok ((), { s with heap := hwrite s.heap font f.decr }) := by
  simp [jive_font_free, h0, hr, hm, hrc]

theorem view_fst (e : Ptr × JiveFont) : (view e).1 = e.1 := rfl

theorem map_fst_of_view {xs ys : List (Ptr × JiveFont)} (h : xs.map view = ys.map view) :
    xs.map Prod.fst = ys.map Prod.fst := by
  have := congrArg (List.map Prod.fst) h
  simpa [List.map_map, Function.comp_def, view_fst] using this

theorem filter_ne_self (font : Ptr) (xs : List (Ptr × JiveFont))
    (h : font ∉ xs.map Prod.fst) : xs.filter (fun e => decide (e.1 ≠ font)) = xs := by
  rw [List.filter_eq_self]
  intro e he
  have : e.1 ≠ font := fun x => h (List.mem_map.mpr ⟨e, he, x⟩)
  simpa using this

theorem filter_onHandle (font : Ptr) (g : JiveFont → JiveFont) (xs : List (Ptr × JiveFont)) :
    (xs.map (onHandle font g)).filter (fun e => decide (e.1 ≠ font)) =
      xs.filter (fun e => decide (e.1 ≠ font)) := by
  induction xs with
  | nil => rfl
  | cons e es ih =>
    by_cases he : e.1 = font
    · simp only [List.map_cons, List.filter, onHandle, he, if_true]
      simpa using ih
    · simp only [List.map_cons, List.filter, onHandle, he, if_false]
      have : decide (e.1 ≠ font) = true := by simpa using he
      simp only [this, ih]

theorem unlinkScan_spec (font : Ptr) (f : JiveFont) (h : Heap) (xs : List (Ptr × JiveFont)) :
    ∀ (p : Ptr) (n : Nat), IsList h p xs → xs.length < n → p ≠ font →
      font ∈ xs.map Prod.fst → hread h font = some f →
      ∃ h2 ys, unlinkScan font h n p = Except.ok h2 ∧ IsList h2 p ys ∧
        ys.map view = (xs.filter (fun e => decide (e.1 ≠ font))).map view ∧
        hread h2 font = some f ∧
        ∀ q, q ∉ xs.map Prod.fst → hread h2 q = hread h q := by
  induction xs with
  | nil => intro p n _ _ _ hm _; simp at hm
  | cons e es ih =>
    intro p n hx hn hpf hm hrf
    have hnd := IsList_nodup _ _ _ hx
    simp only [IsList] at hx
    obtain ⟨h0, h1, h2, h3⟩ := hx
    have hef : e.1 ≠ font := h1 ▸ hpf
    have hm2 : font ∈ es.map Prod.fst := by
      simp only [List.map_cons, List.mem_cons] at hm
      rcases hm with hm | hm
      · exact absurd hm.symm hef
      · exact hm
    simp only [List.map_cons, List.nodup_cons] at hnd
    cases n with
    | zero => simp at hn
    | succ n =>
      have hlen : es.length < n := by simpa using hn
      simp only [unlinkScan, h0, if_false, h2]
      by_cases hnext : e.2.next = font
      · -- the node after `e` is `font`
        cases es with
        | nil => simp at hm2
        | cons e2 es2 =>
          simp only [IsList] at h3
          obtain ⟨k0, k1, k2, k3⟩ := h3
          have he2 : e2.1 = font := k1.trans hnext
          have hf2 : e2.2 = f := by
            rw [hnext, hrf] at k2
            exact (Option.some.inj k2).symm
          simp only [List.map_cons, List.nodup_cons, List.mem_cons, not_or] at hnd
          obtain ⟨⟨_, hp2⟩, hfont2, _⟩ := hnd
          rw [he2] at hfont2
          simp only [hnext, if_true, hrf]
          refine ⟨_, (p, { e.2 with next := f.next }) :: es2, rfl, ?_, ?_, ?_, ?_⟩
          · simp only [IsList]
            refine ⟨h0, trivial, hread_hwrite_same _ _ _, ?_⟩
            rw [hf2] at k3
            exact IsList_hwrite_notin _ _ _ _ _ k3 (h1 ▸ hp2)
          · have : decide (e.1 ≠ font) = true := by simpa using hef
            have h5 : decide (e2.1 ≠ font) = false := by simp [he2]
            simp only [List.filter, this, h5, filter_ne_self font es2 hfont2, List.map_cons]
            congr 1
            simp [view, h1]
          · rw [hread_hwrite_ne _ _ _ _ (fun x => hpf x.symm)]
            exact hrf
          · intro q hq
            simp only [List.map_cons, List.mem_cons, not_or] at hq
            rw [hread_hwrite_ne _ _ _ _ (fun x => hq.1 (x.trans h1.symm))]
      · simp only [hnext, if_false]
        obtain ⟨h2', ys, hu, hy, hv, hr2, hfr⟩ := ih _ n h3 hlen hnext hm2 hrf
        refine ⟨h2', e :: ys, hu, ?_, ?_, hr2, ?_⟩
        · simp only [IsList]
          refine ⟨h0, h1, ?_, hy⟩
          rw [hfr p (h1 ▸ hnd.1)]
          exact h2
        · have : decide (e.1 ≠ font) = true := by simpa using hef
          simp only [List.filter, this, List.map_cons, hv]
        · intro q hq
          simp only [List.map_cons, List.mem_cons, not_or] at hq
          exact hfr q hq.2

theorem free_drop (s : State) (font : Ptr) (f : JiveFont) (xs : List (Ptr × JiveFont))
    (hx : IsList s.heap s.fonts xs) (hmem : (font, f) ∈ xs)
    (hm : f.magic = JIVE_FONT_MAGIC) (hd : f.destroy = FnPtr.destroy_ttf_font)
    (ht : f.ttf ≠ NULL) (hrc : f.decr.refcount = 0) :
    ∃ s1 ys, jive_font_free s font = Except.ok ((), s1) ∧
      IsList s1.heap s1.fonts ys ∧
      ys.map view = (xs.filter (fun e => decide (e.1 ≠ font))).map view ∧
      hread s1.heap font = none ∧
      s1.ttfOpen = s.ttfOpen.erase f.ttf ∧
      s1.ttfInit = (if s1.fonts = NULL then false else s.ttfInit) := by
  obtain ⟨hr, h0⟩ := IsList_mem_read _ _ _ _ hx hmem
  simp only at hr h0
  have hnd := IsList_nodup _ _ _ hx
  have hrc2 : ¬ f.decr.refcount > 0 := by rw [hrc]; exact Nat.lt_irrefl 0
  have hdt : f.decr.ttf = f.ttf := rfl
  have hdd : f.decr.destroy = f.destroy := rfl
  -- the list after the decrement
  have hx1 := IsList_hwrite_upd s.heap font f JiveFont.decr hr (fun _ => rfl) xs _ hx
  by_cases hhead : font = s.fonts
  · -- `font` is the head of the list
    cases xs with
    | nil => simp at hmem
    | cons e es =>
      simp only [IsList] at hx
      obtain ⟨_, k1, k2, k3⟩ := hx
      have hef : e = (font, f) := by
        apply Prod.ext
        · exact k1.trans hhead.symm
        · rw [← hhead, hr] at k2
          exact (Option.some.inj k2).symm
      subst hef
      simp only [List.map_cons, List.nodup_cons] at hnd
      have hes : IsList s.heap f.next es := k3
      refine ⟨{ fonts := f.next,
                heap := hfree (hwrite (hwrite s.heap font f.decr) font
                  { f.decr with ttf := NULL }) font,
                ttfInit := if f.next = NULL then false else s.ttfInit,
                ttfOpen := s.ttfOpen.erase f.ttf }, es, ?_, ?_, ?_, ?_, rfl, rfl⟩
      · simp only [jive_font_free, h0, if_false, hr, hm, if_true, hrc2, hhead.symm,
          hread_hwrite_same, hdd, hd, destroy_ttf_font, hdt, ht, ne_eq, not_false_eq_true]
        by_cases hn : f.next = NULL
        · cases hi : s.ttfInit <;> simp [hn, hi]
        · simp [hn]
      · simp only [hwrite_hwrite, hfree_hwrite]
        exact IsList_hfree_notin _ _ _ _ hes hnd.1
      · have : decide (font ≠ font) = false := by simp
        simp only [List.filter, this, filter_ne_self font es hnd.1]
      · simp [hread_hfree]
  · -- `font` sits further down the list
    have hmf : font ∈ (xs.map (onHandle font JiveFont.decr)).map Prod.fst := by
      refine List.mem_map.mpr ⟨(font, f.decr), List.mem_map.mpr ⟨(font, f), hmem, ?_⟩, rfl⟩
      simp [onHandle]
    have hlen := IsList_length_le _ _ _ hx1
    obtain ⟨h2, ys, hu, hy, hv, hr2, _⟩ :=
      unlinkScan_spec font f.decr (hwrite s.heap font f.decr) _ s.fonts
        ((hwrite s.heap font f.decr).length + 1) hx1 (by omega)
        (fun x => hhead x.symm) hmf (hread_hwrite_same _ _ _)
    rw [filter_onHandle] at hv
    have hfy : font ∉ ys.map Prod.fst := by
      rw [map_fst_of_view hv]
      intro hc
      obtain ⟨e, he, hfst⟩ := List.mem_map.mp hc
      have := (List.mem_filter.mp he).2
      simp [hfst] at this
    refine ⟨{ fonts := s.fonts,
              heap := hfree (hwrite h2 font { f.decr with ttf := NULL }) font,
              ttfInit := if s.fonts = NULL then false else s.ttfInit,
              ttfOpen := s.ttfOpen.erase f.ttf }, ys, ?_, ?_, hv, ?_, rfl, rfl⟩
    · simp only [jive_font_free, h0, if_false, hr, hm, if_true, hrc2, hhead, hu,
        hr2, hdd, hd, destroy_ttf_font, hdt, ht, ne_eq, not_false_eq_true]
      by_cases hn : s.fonts = NULL
      · cases hi : s.ttfInit <;> simp [hn, hi]
      · simp [hn]
    · simp only [hfree_hwrite]
      exact IsList_hfree_notin _ _ _ _ hy hfy
    · simp [hread_hfree]

/-! ## From the heap to the cache list -/

theorem view_onHandle (a : Ptr) (r : Nat → Nat) (e : Ptr × JiveFont) :
    view (onHandle a (JiveFont.mapRefcount r) e) = onHandle a (JiveFont.mapRefcount r) (view e) := by
  by_cases he : e.1 = a
  · simp only [onHandle, he, if_true, view]
    rfl
  · simp only [onHandle, he, if_false, view]

theorem map_view_onHandle (a : Ptr) (r : Nat → Nat) (xs : List (Ptr × JiveFont)) :
    (xs.map (onHandle a (JiveFont.mapRefcount r))).map view =
      (xs.map view).map (onHandle a (JiveFont.mapRefcount r)) := by
  simp only [List.map_map]
  apply List.map_congr_left
  intro e _
  exact view_onHandle a r e

theorem key_onHandle (a : Ptr) (r : Nat → Nat) (e : Ptr × JiveFont) :
    key (onHandle a (JiveFont.mapRefcount r) e) = key e := by
  by_cases he : e.1 = a
  · simp only [onHandle, he, if_true]
    rfl
  · simp only [onHandle, he, if_false]

theorem fst_onHandle (a : Ptr) (g : JiveFont → JiveFont) (e : Ptr × JiveFont) :
    (onHandle a g e).1 = e.1 := by
  by_cases he : e.1 = a
  · simp only [onHandle, he, if_true]
  · simp only [onHandle, he, if_false]

theorem ttf_onHandle (a : Ptr) (r : Nat → Nat) (e : Ptr × JiveFont) :
    (onHandle a (JiveFont.mapRefcount r) e).2.ttf = e.2.ttf := by
  by_cases he : e.1 = a
  · simp only [onHandle, he, if_true]
    rfl
  · simp only [onHandle, he, if_false]

theorem valid_onHandle (a : Ptr) (r : Nat → Nat) (e : Ptr × JiveFont)
    (hv : Valid e.2) : Valid (onHandle a (JiveFont.mapRefcount r) e).2 := by
  by_cases he : e.1 = a
  · simp only [onHandle, he, if_true]
    exact hv
  · simp only [onHandle, he, if_false]
    exact hv

theorem key_view (e : Ptr × JiveFont) : key (view e) = key e := rfl

theorem isKey_view (name : String) (size : Nat) (e : Ptr × JiveFont) :
    isKey name size (view e) = isKey name size e := rfl

theorem isKey_iff (name : String) (size : Nat) (e : Ptr × JiveFont) :
    isKey name size e = true ↔ key e = (some name, size) := by
  simp [isKey, key, Prod.ext_iff]

theorem cache_update (s : State) (a : Ptr) (f : JiveFont) (r : Nat → Nat)
    (xs : List (Ptr × JiveFont)) (hx : IsList s.heap s.fonts xs)
    (hr : hread s.heap a = some f) :
    IsList (hwrite s.heap a (f.mapRefcount r)) s.fonts
      (xs.map (onHandle a (JiveFont.mapRefcount r))) ∧
    cache { s with heap := hwrite s.heap a (f.mapRefcount r) } =
      (cache s).map (onHandle a (JiveFont.mapRefcount r)) := by
  have h1 := IsList_hwrite_upd s.heap a f (JiveFont.mapRefcount r) hr (fun _ => rfl) xs _ hx
  refine ⟨h1, ?_⟩
  rw [cache_eq { s with heap := hwrite s.heap a (f.mapRefcount r) } _ h1, cache_eq s xs hx,
    map_view_onHandle a r]

theorem mem_cache (s : State) (xs : List (Ptr × JiveFont)) (hx : IsList s.heap s.fonts xs)
    (e : Ptr × JiveFont) (he : e ∈ cache s) :
    ∃ x ∈ xs, view x = e ∧ hread s.heap e.1 = some x.2 ∧ e.1 ≠ NULL := by
  rw [cache_eq s xs hx] at he
  obtain ⟨x, hxm, hxe⟩ := List.mem_map.mp he
  obtain ⟨h1, h2⟩ := IsList_mem_read _ _ _ _ hx hxm
  refine ⟨x, hxm, hxe, ?_, ?_⟩
  · rw [← hxe]; exact h1
  · rw [← hxe]; exact h2

theorem mem_cache_fst (s : State) (xs : List (Ptr × JiveFont))
    (hx : IsList s.heap s.fonts xs) (font : Ptr) (hf : font ∈ (cache s).map Prod.fst) :
    ∃ f, (font, f) ∈ xs ∧ hread s.heap font = some f ∧ font ≠ NULL ∧
      view (font, f) ∈ cache s := by
  obtain ⟨e, he, hfst⟩ := List.mem_map.mp hf
  obtain ⟨x, hxm, hxe, hr, h0⟩ := mem_cache s xs hx e he
  have hx1 : x.1 = font := by rw [← hfst, ← hxe]; rfl
  have hxx : x = (font, x.2) := Prod.ext hx1 rfl
  refine ⟨x.2, ?_, ?_, ?_, ?_⟩
  · rw [← hxx]; exact hxm
  · rw [← hfst]; exact hr
  · rw [← hfst]; exact h0
  · rw [← hxx, hxe]; exact he

theorem cache_nodup_fst (s : State) (xs : List (Ptr × JiveFont))
    (hx : IsList s.heap s.fonts xs) : ((cache s).map Prod.fst).Nodup := by
  rw [cache_eq s xs hx]
  have := IsList_nodup _ _ _ hx
  simpa [List.map_map, Function.comp_def, view_fst] using this

theorem find_isKey_view (name : String) (size : Nat) (xs : List (Ptr × JiveFont)) :
    (xs.map view).find? (isKey name size) = (xs.find? (isKey name size)).map view := by
  induction xs with
  | nil => rfl
  | cons e es ih =>
    by_cases hk : isKey name size e = true
    · simp [List.find?, hk, isKey_view]
    · have hk2 : isKey name size e = false := by simpa using hk
      simp [List.find?, hk2, isKey_view, ih]

/-! ## The invariant is kept by every transition -/

theorem Inv_update (s : State) (a : Ptr) (f : JiveFont) (r : Nat → Nat)
    (hi : Inv s) (hr : hread s.heap a = some f) :
    Inv { s with heap := hwrite s.heap a (f.mapRefcount r) } ∧
    cache { s with heap := hwrite s.heap a (f.mapRefcount r) } =
      (cache s).map (onHandle a (JiveFont.mapRefcount r)) := by
  obtain ⟨⟨xs, hx⟩, hval, hkeys, hopen, hnd, hinit⟩ := hi
  obtain ⟨h1, hc⟩ := cache_update s a f r xs hx hr
  refine ⟨⟨⟨_, h1⟩, ?_, ?_, ?_, hnd, ?_⟩, hc⟩
  · intro e he
    rw [hc] at he
    obtain ⟨x, hxm, hxe⟩ := List.mem_map.mp he
    rw [← hxe]
    exact valid_onHandle a r x (hval x hxm)
  · rw [hc, List.map_map]
    have : (key ∘ onHandle a (JiveFont.mapRefcount r)) = key :=
      funext (fun e => key_onHandle a r e)
    rw [this]
    exact hkeys
  · rw [hc, List.map_map]
    have : ((fun e : Ptr × JiveFont => e.2.ttf) ∘ onHandle a (JiveFont.mapRefcount r)) =
        fun e => e.2.ttf := funext (fun e => ttf_onHandle a r e)
    rw [this]
    exact hopen
  · intro hne
    apply hinit
    intro h0
    apply hne
    rw [hc, h0]
    rfl

theorem Inv_ttfInit (s : State) (hi : Inv s) :
    Inv { s with ttfInit := true } ∧ cache { s with ttfInit := true } = cache s := by
  obtain ⟨⟨xs, hx⟩, hval, hkeys, hopen, hnd, _⟩ := hi
  exact ⟨⟨⟨xs, hx⟩, hval, hkeys, hopen, hnd, fun _ => rfl⟩, rfl⟩

theorem find_none_key (name : String) (size : Nat) (l : List (Ptr × JiveFont))
    (h : l.find? (isKey name size) = none) : (some name, size) ∉ l.map key := by
  intro hm
  obtain ⟨e, he, hk⟩ := List.mem_map.mp hm
  have := List.find?_eq_none.mp h e he
  exact this ((isKey_iff name size e).mpr hk)

theorem Inv_push (s : State) (c t : Ptr) (nf : JiveFont) (name : String) (size : Nat)
    (hi : Inv s) (hc : c ≠ NULL) (hfresh : hread s.heap c = none)
    (hnext : nf.next = s.fonts) (hv : Valid nf) (ht : nf.ttf = t) (hto : t ∉ s.ttfOpen)
    (hk : key (c, nf) = (some name, size))
    (hmiss : (some name, size) ∉ (cache s).map key) :
    Inv (State.mk c (hwrite s.heap c nf) true (t :: s.ttfOpen)) ∧
    cache (State.mk c (hwrite s.heap c nf) true (t :: s.ttfOpen)) = view (c, nf) :: cache s := by
  obtain ⟨⟨xs, hx⟩, hval, hkeys, hopen, hnd, _⟩ := hi
  have hcx : c ∉ xs.map Prod.fst := by
    intro hm
    obtain ⟨e, he, hfst⟩ := List.mem_map.mp hm
    have := (IsList_mem_read _ _ _ _ hx he).1
    rw [hfst, hfresh] at this
    exact Option.noConfusion this
  have h1 : IsList (hwrite s.heap c nf) c ((c, nf) :: xs) := by
    simp only [IsList]
    refine ⟨hc, trivial, hread_hwrite_same _ _ _, ?_⟩
    rw [hnext]
    exact IsList_hwrite_notin _ _ _ _ _ hx hcx
  have hcache : cache (State.mk c (hwrite s.heap c nf) true (t :: s.ttfOpen)) =
      view (c, nf) :: cache s := by
    rw [cache_eq _ _ h1, cache_eq s xs hx]
    rfl
  refine ⟨⟨⟨_, h1⟩, ?_, ?_, ?_, ?_, fun _ => rfl⟩, hcache⟩
  · intro e he
    rw [hcache] at he
    rcases List.mem_cons.mp he with rfl | he
    · exact hv
    · exact hval e he
  · rw [hcache, List.map_cons, List.nodup_cons]
    refine ⟨?_, hkeys⟩
    rw [key_view, hk]
    exact hmiss
  · rw [hcache, List.map_cons, ← hopen]
    simp [view, ht]
  · exact List.nodup_cons.mpr ⟨hto, hnd⟩

theorem filter_map_view (font : Ptr) (xs : List (Ptr × JiveFont)) :
    (xs.filter (fun e => decide (e.1 ≠ font))).map view =
      (xs.map view).filter (fun e => decide (e.1 ≠ font)) := by
  induction xs with
  | nil => rfl
  | cons e es ih =>
    by_cases he : e.1 = font
    · have h1 : decide (e.1 ≠ font) = false := by simp [he]
      have h2 : decide ((view e).1 ≠ font) = false := by simp [view_fst, he]
      simp only [List.map_cons, List.filter, h1, h2, ih]
    · have h1 : decide (e.1 ≠ font) = true := by simpa using he
      have h2 : decide ((view e).1 ≠ font) = true := by simpa [view_fst] using he
      simp only [List.map_cons, List.filter, h1, h2, ih]

theorem erase_ttf (font : Ptr) (f : JiveFont) (l : List (Ptr × JiveFont)) :
    (font, f) ∈ l → (l.map Prod.fst).Nodup → (l.map (fun e => e.2.ttf)).Nodup →
    (l.map (fun e => e.2.ttf)).erase f.ttf =
      (l.filter (fun e => decide (e.1 ≠ font))).map (fun e => e.2.ttf) := by
  induction l with
  | nil => intro h; simp at h
  | cons e es ih =>
    intro hm hn1 hn2
    simp only [List.map_cons, List.nodup_cons] at hn1 hn2
    by_cases he : e.1 = font
    · have hee : e = (font, f) := by
        rcases List.mem_cons.mp hm with h | h
        · exact h.symm
        · exfalso
          apply hn1.1
          rw [he]
          exact List.mem_map.mpr ⟨(font, f), h, rfl⟩
      subst hee
      have h1 : decide (font ≠ font) = false := by simp
      simp only [List.map_cons, List.filter, h1]
      rw [List.erase_cons_head, filter_ne_self font es hn1.1]
    · have hm2 : (font, f) ∈ es := by
        rcases List.mem_cons.mp hm with h | h
        · exact absurd (by rw [← h]) he
        · exact h
      have hne : e.2.ttf ≠ f.ttf := by
        intro hc
        apply hn2.1
        rw [hc]
        exact List.mem_map.mpr ⟨(font, f), hm2, rfl⟩
      have h1 : decide (e.1 ≠ font) = true := by simpa using he
      simp only [List.map_cons, List.filter, h1]
      rw [List.erase_cons_tail (by simpa using hne), ih hm2 hn1.2 hn2.2]

/-! ## The calls on a state that satisfies the invariant -/

theorem Inv_names (s : State) (hi : Inv s) (xs : List (Ptr × JiveFont))
    (hx : IsList s.heap s.fonts xs) : ∀ x ∈ xs, x.2.name ≠ none := by
  intro x hxm
  have hv : Valid (view x).2 := by
    apply hi.2.1
    rw [cache_eq s xs hx]
    exact List.mem_map.mpr ⟨x, hxm, rfl⟩
  exact hv.1

theorem key_inj (l : List (Ptr × JiveFont)) (hn : (l.map key).Nodup)
    (a b : Ptr × JiveFont) (ha : a ∈ l) (hb : b ∈ l) (hk : key a = key b) : a = b :=
  List.inj_on_of_nodup_map hn ha hb hk

theorem fonts_null_iff (s : State) (xs : List (Ptr × JiveFont))
    (hx : IsList s.heap s.fonts xs) : s.fonts = NULL ↔ cache s = [] := by
  rw [cache_eq s xs hx]
  cases xs with
  | nil => simpa [IsList] using hx
  | cons e es =>
    simp only [IsList] at hx
    simp [hx.1]

/-- A load of a key that is in the cache: the call returns the handle that
holds the key and increments its reference count, whatever the collaborators
would answer. -/
theorem load_hit_inv (env : Env) (s : State) (name : String) (size : Nat)
    (e : Ptr × JiveFont) (hi : Inv s) (he : e ∈ cache s) (hk : key e = (some name, size)) :
    ∃ f, hread s.heap e.1 = some f ∧ view (e.1, f) = e ∧
      jive_font_load env s name size =
        Except.ok (e.1, { s with heap := hwrite s.heap e.1 f.incr }) := by
  obtain ⟨xs, hx⟩ := hi.1
  have hnames := Inv_names s hi xs hx
  obtain ⟨x, hxm, hxe, hr, _⟩ := mem_cache s xs hx e he
  have hkx : isKey name size x = true := by
    rw [← isKey_view, hxe]
    exact (isKey_iff name size e).mpr hk
  cases hfind : xs.find? (isKey name size) with
  | none =>
    have := List.find?_eq_none.mp hfind x hxm
    exact absurd hkx this
  | some x0 =>
    have hx0m : x0 ∈ xs := List.mem_of_find?_eq_some hfind
    have hx0k : isKey name size x0 = true := List.find?_some hfind
    have hv0 : view x0 ∈ cache s := by
      rw [cache_eq s xs hx]
      exact List.mem_map.mpr ⟨x0, hx0m, rfl⟩
    have h1 : view x0 = e := by
      apply key_inj (cache s) hi.2.2.1 _ _ hv0 he
      rw [key_view, hk]
      exact (isKey_iff name size x0).mp hx0k
    have h2 : x0.1 = e.1 := by rw [← h1]; rfl
    have h3 := (IsList_mem_read _ _ _ _ hx hx0m).1
    refine ⟨x0.2, ?_, ?_, ?_⟩
    · rw [← h2]; exact h3
    · rw [← h2]; exact h1
    · rw [← h2]
      exact load_hit env s name size xs x0 hx hnames hfind

theorem find_none_of_miss (s : State) (name : String) (size : Nat)
    (xs : List (Ptr × JiveFont)) (hx : IsList s.heap s.fonts xs)
    (hmiss : (some name, size) ∉ (cache s).map key) :
    xs.find? (isKey name size) = none := by
  apply List.find?_eq_none.mpr
  intro x hxm hk
  apply hmiss
  rw [cache_eq s xs hx]
  refine List.mem_map.mpr ⟨view x, List.mem_map.mpr ⟨x, hxm, rfl⟩, ?_⟩
  rw [key_view]
  exact (isKey_iff name size x).mp hk

theorem valid_newFont (env : Env) (path name : String) (size : Nat) (next : Ptr)
    (hopen : env.TTF_OpenFont path size ≠ NULL) :
    Valid (newFont env path name size next) := by
  refine ⟨?_, rfl, hopen, rfl, rfl, rfl⟩
  simp [newFont]

/-- A load of a key that is not in the cache, when the collaborators succeed:
the new handle is put in front of the list. -/
theorem load_miss_ok_inv (env : Env) (s : State) (name : String) (size : Nat) (path : String)
    (hi : Inv s) (ha : AllocOK env s)
    (hmiss : (some name, size) ∉ (cache s).map key)
    (hinit : s.ttfInit = true ∨ env.TTF_Init = true)
    (hfind : env.squeezeplay_find_file name = some path)
    (hopen : env.TTF_OpenFont path size ≠ NULL) :
    ∃ s1, jive_font_load env s name size = Except.ok (env.calloc, s1) ∧ Inv s1 ∧
      cache s1 = view (env.calloc, newFont env path name size s.fonts) :: cache s ∧
      s1.ttfInit = true ∧ s1.ttfOpen = env.TTF_OpenFont path size :: s.ttfOpen := by
  obtain ⟨xs, hx⟩ := hi.1
  have hnames := Inv_names s hi xs hx
  have hf := find_none_of_miss s name size xs hx hmiss
  obtain ⟨hc, hfresh, hto⟩ := ha
  have h1 := load_miss_ok env s name size xs path hx hnames hf hinit hc hfind hopen
  obtain ⟨h2, h3⟩ := Inv_push s env.calloc (env.TTF_OpenFont path size)
    (newFont env path name size s.fonts) name size hi hc hfresh rfl
    (valid_newFont env path name size s.fonts hopen) rfl (hto path size) rfl hmiss
  exact ⟨_, h1, h2, h3, rfl, rfl⟩

/-- A load of a key that is not in the cache, when the file is not found or
SDL_ttf cannot open it: `NULL` is returned and only `TTF_WasInit` may change. -/
theorem load_miss_fail_inv (env : Env) (s : State) (name : String) (size : Nat)
    (hi : Inv s) (ha : AllocOK env s)
    (hmiss : (some name, size) ∉ (cache s).map key)
    (hinit : s.ttfInit = true ∨ env.TTF_Init = true)
    (hfail : env.squeezeplay_find_file name = none ∨
      ∃ path, env.squeezeplay_find_file name = some path ∧ env.TTF_OpenFont path size = NULL) :
    jive_font_load env s name size = Except.ok (NULL, { s with ttfInit := true }) := by
  obtain ⟨xs, hx⟩ := hi.1
  have hnames := Inv_names s hi xs hx
  have hf := find_none_of_miss s name size xs hx hmiss
  obtain ⟨hc, hfresh, _⟩ := ha
  rcases hfail with h | ⟨path, h, ho⟩
  · exact load_miss_notfound env s name size xs hx hnames hf hinit hc hfresh h
  · exact load_miss_openfail env s name size xs path hx hnames hf hinit hc hfresh h ho

theorem load_miss_exit_inv (env : Env) (s : State) (name : String) (size : Nat)
    (hi : Inv s) (hmiss : (some name, size) ∉ (cache s).map key)
    (h1 : s.ttfInit = false) (h2 : env.TTF_Init = false) :
    jive_font_load env s name size = Except.error (Fault.exit (-1)) := by
  obtain ⟨xs, hx⟩ := hi.1
  exact load_miss_exit env s name size xs hx (Inv_names s hi xs hx)
    (find_none_of_miss s name size xs hx hmiss) h1 h2

theorem Inv_load (env : Env) (s s1 : State) (name : String) (size : Nat) (r : Ptr)
    (hi : Inv s) (ha : AllocOK env s)
    (h : jive_font_load env s name size = Except.ok (r, s1)) : Inv s1 := by
  by_cases hm : (some name, size) ∈ (cache s).map key
  · obtain ⟨e, he, hk⟩ := List.mem_map.mp hm
    obtain ⟨f, hr, _, hl⟩ := load_hit_inv env s name size e hi he hk
    rw [hl] at h
    injection h with h
    injection h with _ h
    rw [← h]
    exact (Inv_update s e.1 f incr32 hi hr).1
  · by_cases hinit : s.ttfInit = true ∨ env.TTF_Init = true
    · cases hfind : env.squeezeplay_find_file name with
      | none =>
        rw [load_miss_fail_inv env s name size hi ha hm hinit (Or.inl hfind)] at h
        injection h with h
        injection h with _ h
        rw [← h]
        exact (Inv_ttfInit s hi).1
      | some path =>
        by_cases hopen : env.TTF_OpenFont path size = NULL
        · rw [load_miss_fail_inv env s name size hi ha hm hinit
            (Or.inr ⟨path, hfind, hopen⟩)] at h
          injection h with h
          injection h with _ h
          rw [← h]
          exact (Inv_ttfInit s hi).1
        · obtain ⟨s2, hl, hi2, _⟩ :=
            load_miss_ok_inv env s name size path hi ha hm hinit hfind hopen
          rw [hl] at h
          injection h with h
          injection h with _ h
          rw [← h]
          exact hi2
    · have h1 : s.ttfInit = false := by
        cases hs : s.ttfInit
        · rfl
        · exact absurd (Or.inl hs) hinit
      have h2 : env.TTF_Init = false := by
        cases hs : env.TTF_Init
        · rfl
        · exact absurd (Or.inr hs) hinit
      rw [load_miss_exit_inv env s name size hi hm h1 h2] at h
      injection h

/-- The call `jive_font_ref` on a handle of the cache. -/
theorem ref_inv (s : State) (font : Ptr) (hi : Inv s)
    (hf : font ∈ (cache s).map Prod.fst) :
    ∃ f, hread s.heap font = some f ∧ view (font, f) ∈ cache s ∧
      jive_font_ref s font = Except.ok (font, { s with heap := hwrite s.heap font f.incr }) := by
  obtain ⟨xs, hx⟩ := hi.1
  obtain ⟨f, _, hr, h0, hv⟩ := mem_cache_fst s xs hx font hf
  have hval : Valid f := hi.2.1 _ hv
  exact ⟨f, hr, hv, ref_eq s font f h0 hr hval.2.1⟩

theorem Inv_ref (s s1 : State) (font r : Ptr) (hi : Inv s)
    (hf : font ∈ (cache s).map Prod.fst)
    (h : jive_font_ref s font = Except.ok (r, s1)) : Inv s1 := by
  obtain ⟨f, hr, _, hl⟩ := ref_inv s font hi hf
  rw [hl] at h
  injection h with h
  injection h with _ h
  rw [← h]
  exact (Inv_update s font f incr32 hi hr).1

/-- The call `jive_font_free` on a handle of the cache whose reference count
stays above zero: only the count changes. -/
theorem free_keep_inv (s : State) (font : Ptr) (f : JiveFont) (hi : Inv s)
    (hv : view (font, f) ∈ cache s) (hr : hread s.heap font = some f)
    (hrc : decr32 f.refcount > 0) :
    jive_font_free s font = Except.ok ((), { s with heap := hwrite s.heap font f.decr }) := by
  obtain ⟨xs, hx⟩ := hi.1
  obtain ⟨_, _, _, _, h0⟩ := mem_cache s xs hx _ hv
  have hval : Valid f := hi.2.1 _ hv
  exact free_keep s font f h0 hr hval.2.1 hrc

/-- The call `jive_font_free` on a handle of the cache whose reference count
drops to zero: the handle leaves the list, its `TTF_Font` is closed and its
memory released, and SDL_ttf is shut down when the list is left empty. -/
theorem free_drop_inv (s : State) (font : Ptr) (f : JiveFont) (hi : Inv s)
    (hv : view (font, f) ∈ cache s) (hr : hread s.heap font = some f)
    (hrc : decr32 f.refcount = 0) :
    ∃ s1, jive_font_free s font = Except.ok ((), s1) ∧ Inv s1 ∧
      cache s1 = (cache s).filter (fun e => decide (e.1 ≠ font)) ∧
      hread s1.heap font = none ∧
      s1.ttfOpen = s.ttfOpen.erase f.ttf ∧
      s1.ttfInit = (if cache s1 = [] then false else s.ttfInit) := by
  obtain ⟨⟨xs, hx⟩, hval, hkeys, hopen, hnd, hinit⟩ := hi
  have hvf : Valid f := hval _ hv
  have hmem : (font, f) ∈ xs := by
    obtain ⟨x, hxm, hxe, hrx, _⟩ := mem_cache s xs hx _ hv
    have h1 : x.1 = font := congrArg Prod.fst hxe
    have h2 : x.2 = f := by
      have : hread s.heap font = some x.2 := hrx
      rw [hr] at this
      exact (Option.some.inj this).symm
    have : x = (font, f) := Prod.ext h1 h2
    rw [← this]
    exact hxm
  obtain ⟨s1, ys, hfree, hy, hyv, hgone, hto, hti⟩ :=
    free_drop s font f xs hx hmem hvf.2.1 hvf.2.2.2.2.2 hvf.2.2.1 hrc
  have hc1 : cache s1 = (cache s).filter (fun e => decide (e.1 ≠ font)) := by
    rw [cache_eq s1 ys hy, hyv, filter_map_view, cache_eq s xs hx]
  have hsub : (cache s1).Sublist (cache s) := by
    rw [hc1]
    exact List.filter_sublist _
  have hnull := fonts_null_iff s1 ys hy
  have hti2 : s1.ttfInit = (if cache s1 = [] then false else s.ttfInit) := by
    rw [hti]
    by_cases hn : s1.fonts = NULL
    · simp [hn, hnull.mp hn]
    · have : ¬ cache s1 = [] := fun hc => hn (hnull.mpr hc)
      simp [hn, this]
  refine ⟨s1, hfree, ⟨⟨ys, hy⟩, ?_, ?_, ?_, ?_, ?_⟩, hc1, hgone, hto, hti2⟩
  · intro e he
    exact hval e (hsub.subset he)
  · exact hkeys.sublist (hsub.map key)
  · rw [hto, hopen, hc1]
    have hfst := cache_nodup_fst s xs hx
    have := erase_ttf font (view (font, f)).2 (cache s) hv hfst (hopen ▸ hnd)
    exact this
  · rw [hto]
    exact hnd.erase _
  · intro hne
    rw [hti2]
    simp only [hne, if_false]
    apply hinit
    intro h0
    apply hne
    rw [hc1, h0]
    rfl

theorem Inv_free (s s1 : State) (font : Ptr) (hi : Inv s)
    (hf : font ∈ (cache s).map Prod.fst)
    (h : jive_font_free s font = Except.ok ((), s1)) : Inv s1 := by
  obtain ⟨xs, hx⟩ := hi.1
  obtain ⟨f, _, hr, _, hv⟩ := mem_cache_fst s xs hx font hf
  by_cases hrc : decr32 f.refcount > 0
  · rw [free_keep_inv s font f hi hv hr hrc] at h
    injection h with h
    injection h with _ h
    rw [← h]
    exact (Inv_update s font f decr32 hi hr).1
  · have h0 : decr32 f.refcount = 0 := Nat.eq_zero_of_not_pos hrc
    obtain ⟨s2, hl, hi2, _⟩ := free_drop_inv s font f hi hv hr h0
    rw [hl] at h
    injection h with h
    injection h with _ h
    rw [← h]
    exact hi2

theorem Inv_init : Inv State.init := by
  refine ⟨⟨[], rfl⟩, ?_, ?_, rfl, List.nodup_nil, ?_⟩
  · intro e he
    simp [cache, walk, State.init] at he
  · simp [cache, walk, State.init]
  · intro h
    simp [cache, walk, State.init] at h

/-- Every reachable state satisfies the invariant. -/
theorem Reachable_Inv (s : State) (h : Reachable s) : Inv s := by
  induction h with
  | init => exact Inv_init
  | load s s1 env name size r _ ha hl ih => exact Inv_load env s s1 name size r ih ha hl
  | ref s s1 font r _ hf hl ih => exact Inv_ref s s1 font r ih hf hl
  | free s s1 font _ hf hl ih => exact Inv_free s s1 font ih hf hl

/-! ## The concrete states are reachable -/

theorem exOne_load :
    jive_font_load (exEnv 1 112) State.init "Arial.ttf" 12 = Except.ok (1, exOne 1) := by rfl

theorem exTwo_load :
    jive_font_load (exEnv 2 114) (exOne 1) "Arial.ttf" 14 = Except.ok (2, exTwo) := by rfl

theorem exEnv_alloc_init : AllocOK (exEnv 1 112) State.init :=
  ⟨by decide, rfl, fun _ _ => by simp [State.init]⟩

theorem exEnv_alloc_one : AllocOK (exEnv 2 114) (exOne 1) := by
  refine ⟨by decide, rfl, fun path size => ?_⟩
  by_cases h : path = "/fonts/Bad.ttf"
  · simp [exEnv, exOne, h, NULL]
  · simp [exEnv, exOne, h]

theorem exOne_reachable : Reachable (exOne 1) :=
  Reachable.load _ _ _ _ _ _ Reachable.init exEnv_alloc_init exOne_load

theorem exTwo_reachable : Reachable exTwo :=
  Reachable.load _ _ _ _ _ _ exOne_reachable exEnv_alloc_one exTwo_load

theorem exOne_cache (n : Nat) : cache (exOne n) = [(1, exFont 12 n 112 0)] := by rfl

theorem exTwo_cache : cache exTwo = [(2, exFont 14 1 114 0), (1, exFont 12 1 112 0)] := by rfl

/-! ## Counting references up to the wrap -/

theorem incr32_lt (n : Nat) (h : n + 1 < UINT32_MOD) : incr32 n = n + 1 := by
  unfold incr32
  rw [if_neg (Nat.ne_of_lt h)]

theorem incr32_max : incr32 (UINT32_MOD - 1) = 0 := by decide

theorem decr32_pos (n : Nat) (h : 0 < n) : decr32 n = n - 1 := by
  unfold decr32
  rw [if_neg (Nat.pos_iff_ne_zero.mp h)]

theorem decr32_zero : decr32 0 = UINT32_MOD - 1 := by decide

theorem incr32_iter (k : Nat) : ∀ n, n + k < UINT32_MOD → incr32^[k] n = n + k := by
  induction k with
  | zero => intro n _; rfl
  | succ k ih =>
    intro n h
    rw [Function.iterate_succ_apply', ih n (by omega), incr32_lt _ (by omega)]
    omega

theorem incr32_iter_max : incr32^[4294967294] 1 = 4294967295 :=
  incr32_iter 4294967294 1 (by decide)

theorem incr32_iter_wrap : incr32^[4294967295] 1 = 0 := by
  show incr32^[4294967294 + 1] 1 = 0
  rw [Function.iterate_succ_apply', incr32_iter_max]
  decide

theorem exOne_ref (n : Nat) :
    jive_font_ref (exOne n) 1 = Except.ok (1, exOne (incr32 n)) := by rfl

theorem exOne_iter_reachable (k : Nat) : Reachable (exOne (incr32^[k] 1)) := by
  induction k with
  | zero => exact exOne_reachable
  | succ k ih =>
    rw [Function.iterate_succ_apply']
    refine Reachable.ref _ _ 1 1 ih ?_ (exOne_ref _)
    rw [exOne_cache]
    exact List.mem_cons_self _ _

theorem exOne_max_reachable : Reachable (exOne 4294967295) := by
  have h := exOne_iter_reachable 4294967294
  rw [incr32_iter_max] at h
  exact h

theorem exOne_zero_reachable : Reachable (exOne 0) := by
  have h := exOne_iter_reachable 4294967295
  rw [incr32_iter_wrap] at h
  exact h

/-! ## Claims -/

theorem checked_ok (s : State) (font : Ptr) (f : JiveFont) (h0 : font ≠ NULL)
    (hr : hread s.heap font = some f) (hm : f.magic = JIVE_FONT_MAGIC) :
    checked s font = Except.ok f := by
  simp [checked, h0, hr, hm]

theorem not_mem_nil_key (k : Option String × Nat) :
    k ∉ (cache State.init).map key := by
  simp [cache, walk, State.init]

theorem wrapInt_of_range (x : Int) (h1 : -2147483648 ≤ x) (h2 : x ≤ 2147483647) :
    wrapInt x = x := by
  unfold wrapInt
  omega

theorem wrapInt_height (a b : Int) (hlo : -2147483648 ≤ a - b)
    (hhi : a - b + 1 ≤ 2147483647) : wrapInt (wrapInt (a - b) + 1) = a - b + 1 := by
  rw [wrapInt_of_range (a - b) hlo (by omega), wrapInt_of_range (a - b + 1) (by omega) hhi]

/-- C11: a handle created by a successful `jive_font_load` has `ascend` equal to
the font ascent SDL_ttf reports and `capheight` equal to the `maxy` of the glyph
`H` when SDL_ttf reports metrics for it and to `ascend` otherwise; with
`descent` the `miny` of the glyph `g` when SDL_ttf reports it and the font
descent otherwise, and the C `int` computation `capheight - descent + 1` within
the range of `int`, `height` equals `capheight - descent + 1`. -/
theorem load_vertical_metrics (env : Env) (s : State) (name : String) (size : Nat)
    (path : String) (cap desc : Int) (hi : Inv s) (ha : AllocOK env s)
    (hmiss : (some name, size) ∉ (cache s).map key)
    (hinit : s.ttfInit = true ∨ env.TTF_Init = true)
    (hfind : env.squeezeplay_find_file name = some path)
    (hopen : env.TTF_OpenFont path size ≠ NULL)
    (hcap : cap =
      (match env.TTF_GlyphMetrics (env.TTF_OpenFont path size) 'H' with
        | some (_, maxy) => maxy
        | none => env.TTF_FontAscent (env.TTF_OpenFont path size)))
    (hdesc : desc =
      (match env.TTF_GlyphMetrics (env.TTF_OpenFont path size) 'g' with
        | some (miny, _) => miny
        | none => env.TTF_FontDescent (env.TTF_OpenFont path size)))
    (hlo : -2147483648 ≤ cap - desc) (hhi : cap - desc + 1 ≤ 2147483647) :
    ∃ s1 f, jive_font_load env s name size = Except.ok (env.calloc, s1) ∧
      hread s1.heap env.calloc = some f ∧
      f.ttf = env.TTF_OpenFont path size ∧
      f.ascend = env.TTF_FontAscent f.ttf ∧
      f.capheight =
        (match env.TTF_GlyphMetrics f.ttf 'H' with
          | some (_, maxy) => maxy
          | none => f.ascend) ∧
      f.capheight = cap ∧
      f.height = f.capheight - desc + 1 := by
  obtain ⟨xs, hx⟩ := hi.1
  have h1 := load_miss_ok env s name size xs path hx (Inv_names s hi xs hx)
    (find_none_of_miss s name size xs hx hmiss) hinit ha.1 hfind hopen
  have hc : (newFont env path name size s.fonts).capheight = cap := hcap.symm
  have hh : (newFont env path name size s.fonts).height =
      wrapInt (wrapInt (cap - desc) + 1) := by
    rw [hcap, hdesc]
    rfl
  refine ⟨_, newFont env path name size s.fonts, h1, hread_hwrite_same _ _ _,
    rfl, rfl, rfl, hc, ?_⟩
  rw [hh, hc]
  exact wrapInt_height cap desc hlo hhi

theorem load_vertical_metrics_witness :
    ∃ s1 f, jive_font_load (exEnv 1 112) State.init "Arial.ttf" 12 =
        Except.ok ((exEnv 1 112).calloc, s1) ∧
      hread s1.heap (exEnv 1 112).calloc = some f ∧
      f.ttf = (exEnv 1 112).TTF_OpenFont "/fonts/Arial.ttf" 12 ∧
      f.ascend = (exEnv 1 112).TTF_FontAscent f.ttf ∧
      f.capheight =
        (match (exEnv 1 112).TTF_GlyphMetrics f.ttf 'H' with
          | some (_, maxy) => maxy
          | none => f.ascend) ∧
      f.capheight = 8 ∧
      f.height = f.capheight - (-3) + 1 :=
  load_vertical_metrics (exEnv 1 112) State.init "Arial.ttf" 12 "/fonts/Arial.ttf" 8 (-3)
    Inv_init exEnv_alloc_init (not_mem_nil_key _) (Or.inr rfl) (by rfl) (by decide)
    (by rfl) (by rfl) (by decide) (by decide)

/-- C12: for a valid handle whose difference `ascend - capheight` is within the
range of the C `int` it is computed in, `jive_font_offset` returns
`ascend - capheight`, where `ascend` and `capheight` are the values
`jive_font_ascend` and `jive_font_capheight` return, and the four accessors
leave the state (the handle and the cache) as it was. -/
theorem accessors_read_only (s : State) (font : Ptr) (f : JiveFont) (h0 : font ≠ NULL)
    (hr : hread s.heap font = some f) (hm : f.magic = JIVE_FONT_MAGIC)
    (hlo : -2147483648 ≤ f.ascend - f.capheight)
    (hhi : f.ascend - f.capheight ≤ 2147483647) :
    jive_font_capheight s font = Except.ok (f.capheight, s) ∧
    jive_font_height s font = Except.ok (f.height, s) ∧
    jive_font_ascend s font = Except.ok (f.ascend, s) ∧
    jive_font_offset s font = Except.ok (f.ascend - f.capheight, s) := by
  have hc := checked_ok s font f h0 hr hm
  simp [jive_font_capheight, jive_font_height, jive_font_ascend, jive_font_offset, hc,
    wrapInt_of_range _ hlo hhi]

theorem accessors_read_only_witness :
    jive_font_capheight exTwo 2 = Except.ok (8, exTwo) ∧
    jive_font_height exTwo 2 = Except.ok (12, exTwo) ∧
    jive_font_ascend exTwo 2 = Except.ok (10, exTwo) ∧
    jive_font_offset exTwo 2 = Except.ok (10 - 8, exTwo) :=
  accessors_read_only exTwo 2 (exFont 14 1 114 1) (by decide) rfl rfl (by decide) (by decide)

theorem exTwo_valid : Valid (exFont 14 1 114 1) := by decide

/-- C13: for a valid handle `jive_font_width(font, NULL)` returns `0`, by the
guard of `width_ttf_font`, whatever SDL_ttf would answer; and
`jive_font_width(font, "")` returns `0` with an SDL_ttf whose `TTF_SizeUTF8`
measures the text without glyphs as 0 wide. -/
theorem width_null_and_empty (rnd : Render) (s : State) (font : Ptr) (f : JiveFont)
    (buf : List Nat) (h : Int) (h0 : font ≠ NULL) (hr : hread s.heap font = some f)
    (hv : Valid f) (hbuf : cstr buf = [])
    (hsize : rnd.TTF_SizeUTF8 f.ttf [] = some (0, h)) :
    (∀ rnd2, jive_font_width rnd2 s font none = Except.ok 0) ∧
    jive_font_width rnd s font (some buf) = Except.ok 0 := by
  have hc := checked_ok s font f h0 hr hv.2.1
  have hw : f.width = FnPtr.width_ttf_font := hv.2.2.2.1
  constructor
  · intro rnd2
    simp [jive_font_width, hc, hw, width_ttf_font]
  · simp only [jive_font_width, hc, hw, width_ttf_font, hr, hbuf, hsize]

theorem width_null_and_empty_witness :
    (∀ rnd2, jive_font_width rnd2 exTwo 2 none = Except.ok 0) ∧
    jive_font_width exRender exTwo 2 (some [0]) = Except.ok 0 :=
  width_null_and_empty exRender exTwo 2 (exFont 14 1 114 1) [0] 12 (by decide) rfl
    exTwo_valid rfl rfl

/-- C14: for a valid handle and every colour,
`jive_font_draw_text(font, color, NULL)` returns the surface wrapper applied to
`NULL` whatever SDL_ttf would answer; and `jive_font_draw_text(font, color, "")`
returns the wrapper applied to `NULL` with an SDL_ttf whose
`TTF_RenderUTF8_Blended` renders no surface for the text without glyphs. -/
theorem draw_null_and_empty (rnd : Render) (s : State) (font : Ptr) (f : JiveFont)
    (color : Nat) (buf : List Nat) (h0 : font ≠ NULL) (hr : hread s.heap font = some f)
    (hv : Valid f) (hbuf : cstr buf = [])
    (hrender : ∀ c, rnd.TTF_RenderUTF8_Blended f.ttf [] c = NULL) :
    (∀ rnd2, jive_font_draw_text rnd2 s font color none =
      Except.ok (rnd2.jive_surface_new_SDLSurface NULL)) ∧
    jive_font_draw_text rnd s font color (some buf) =
      Except.ok (rnd.jive_surface_new_SDLSurface NULL) := by
  have hc := checked_ok s font f h0 hr hv.2.1
  have hd : f.draw = FnPtr.draw_ttf_font := hv.2.2.2.2.1
  constructor
  · intro rnd2
    simp [jive_font_draw_text, hc]
  · simp [jive_font_draw_text, hc, hd, draw_ttf_font, hr, hbuf, hrender]

theorem draw_null_and_empty_witness :
    (∀ rnd2, jive_font_draw_text rnd2 exTwo 2 0xFF0000FF none =
      Except.ok (rnd2.jive_surface_new_SDLSurface NULL)) ∧
    jive_font_draw_text exRender exTwo 2 0xFF0000FF (some [0]) =
      Except.ok (exRender.jive_surface_new_SDLSurface NULL) :=
  draw_null_and_empty exRender exTwo 2 (exFont 14 1 114 1) 0xFF0000FF [0] (by decide) rfl
    exTwo_valid rfl (fun _ => rfl)

theorem fst_inj (l : List (Ptr × JiveFont)) (hn : (l.map Prod.fst).Nodup)
    (a b : Ptr × JiveFont) (ha : a ∈ l) (hb : b ∈ l) (hk : a.1 = b.1) : a = b :=
  List.inj_on_of_nodup_map hn ha hb hk

theorem map_incr_eq (l : List (Ptr × JiveFont)) (hn : (l.map Prod.fst).Nodup)
    (e : Ptr × JiveFont) (he : e ∈ l) (hrc : e.2.refcount + 1 < UINT32_MOD) :
    l.map (onHandle e.1 JiveFont.incr) =
      l.map (fun x => if x.1 = e.1
        then (x.1, { x.2 with refcount := x.2.refcount + 1 }) else x) := by
  apply List.map_congr_left
  intro x hx
  by_cases h : x.1 = e.1
  · have hxe : x = e := fst_inj l hn x e hx he h
    subst hxe
    simp only [onHandle, if_true]
    show (x.1, { x.2 with refcount := incr32 x.2.refcount }) = _
    rw [incr32_lt _ hrc]
  · simp only [onHandle, h, if_false]

theorem Inv_nodup_fst (s : State) (hi : Inv s) : ((cache s).map Prod.fst).Nodup := by
  obtain ⟨xs, hx⟩ := hi.1
  exact cache_nodup_fst s xs hx

/-- C15 (amended): for a handle `h` of the cache whose reference count is below
`UINT32_MOD - 1`, `jive_font_ref(h)` returns `h`, adds exactly one to the
count of `h`, and leaves the order of the list, every other handle, every
other field of `h`, `fonts` and the state of SDL_ttf as they were. -/
theorem ref_increments (s : State) (e : Ptr × JiveFont) (hi : Inv s) (he : e ∈ cache s)
    (hrc : e.2.refcount + 1 < UINT32_MOD) :
    ∃ s1, jive_font_ref s e.1 = Except.ok (e.1, s1) ∧
      cache s1 = (cache s).map (fun x => if x.1 = e.1
        then (x.1, { x.2 with refcount := x.2.refcount + 1 }) else x) ∧
      s1.fonts = s.fonts ∧ s1.ttfInit = s.ttfInit ∧ s1.ttfOpen = s.ttfOpen := by
  have hf : e.1 ∈ (cache s).map Prod.fst := List.mem_map.mpr ⟨e, he, rfl⟩
  obtain ⟨f, hr, _, hl⟩ := ref_inv s e.1 hi hf
  refine ⟨_, hl, ?_, rfl, rfl, rfl⟩
  exact (Inv_update s e.1 f incr32 hi hr).2.trans
    (map_incr_eq (cache s) (Inv_nodup_fst s hi) e he hrc)

theorem ref_increments_witness :
    ∃ s1, jive_font_ref exTwo 1 = Except.ok (1, s1) ∧
      cache s1 = (cache exTwo).map (fun x => if x.1 = 1
        then (x.1, { x.2 with refcount := x.2.refcount + 1 }) else x) ∧
      s1.fonts = exTwo.fonts ∧ s1.ttfInit = exTwo.ttfInit ∧ s1.ttfOpen = exTwo.ttfOpen :=
  ref_increments exTwo (1, exFont 12 1 112 0) (Reachable_Inv _ exTwo_reachable)
    (by rw [exTwo_cache]; exact List.mem_cons_of_mem _ (List.mem_cons_self _ _))
    (by decide)

/-- C15 (counterexample): the state `exOne 4294967295` is reachable, its handle
at address `1` is in the cache with reference count `4294967295`, and
`jive_font_ref` on it leaves the count at `0`, not at `4294967296`. -/
theorem ref_wraps_at_max :
    Reachable (exOne 4294967295) ∧
    cache (exOne 4294967295) = [(1, exFont 12 4294967295 112 0)] ∧
    jive_font_ref (exOne 4294967295) 1 = Except.ok (1, exOne 0) ∧
    cache (exOne 0) = [(1, exFont 12 0 112 0)] :=
  ⟨exOne_max_reachable, rfl, rfl, rfl⟩

theorem unpackColor_shift (c : Nat) :
    unpackColor c =
      { r := ((c >>> 8) >>> 16) &&& 0xFF, g := ((c >>> 8) >>> 8) &&& 0xFF,
        b := (c >>> 8) &&& 0xFF } := by
  unfold unpackColor
  rw [← Nat.shiftRight_add c 8 16, ← Nat.shiftRight_add c 8 8]

/-- C16: for a colour `c` the colour handed to `TTF_RenderUTF8_Blended` has
`r = (c >> 24) & 0xFF`, `g = (c >> 16) & 0xFF` and `b = (c >> 8) & 0xFF`;
two colours that agree above their lowest byte are unpacked to the same
colour, and `jive_font_draw_text` returns the same for both. -/
theorem color_unpacking (rnd : Render) (s : State) (font : Ptr) (f : JiveFont)
    (c1 c2 : Nat) (str : List Nat) (hr : hread s.heap font = some f) :
    draw_ttf_font rnd s font c1 str =
      Except.ok (rnd.TTF_RenderUTF8_Blended f.ttf (cstr str)
        { r := (c1 >>> 24) &&& 0xFF, g := (c1 >>> 16) &&& 0xFF, b := (c1 >>> 8) &&& 0xFF }) ∧
    (c1 >>> 8 = c2 >>> 8 →
      unpackColor c1 = unpackColor c2 ∧
      ∀ text, jive_font_draw_text rnd s font c1 text =
        jive_font_draw_text rnd s font c2 text) := by
  constructor
  · simp [draw_ttf_font, hr, unpackColor]
  · intro h
    have hu : unpackColor c1 = unpackColor c2 := by
      rw [unpackColor_shift c1, unpackColor_shift c2, h]
    refine ⟨hu, fun text => ?_⟩
    simp only [jive_font_draw_text, draw_ttf_font, hu]

theorem color_unpacking_witness :
    draw_ttf_font exRender exTwo 2 0x11223344 [72, 105, 0] =
      Except.ok (exRender.TTF_RenderUTF8_Blended (exFont 14 1 114 1).ttf (cstr [72, 105, 0])
        { r := (0x11223344 >>> 24) &&& 0xFF, g := (0x11223344 >>> 16) &&& 0xFF,
          b := (0x11223344 >>> 8) &&& 0xFF }) ∧
    unpackColor 0x11223344 = unpackColor 0x112233FF ∧
    ∀ text, jive_font_draw_text exRender exTwo 2 0x11223344 text =
      jive_font_draw_text exRender exTwo 2 0x112233FF text :=
  ⟨(color_unpacking exRender exTwo 2 (exFont 14 1 114 1) 0x11223344 0x112233FF
      [72, 105, 0] rfl).1,
    (color_unpacking exRender exTwo 2 (exFont 14 1 114 1) 0x11223344 0x112233FF
      [72, 105, 0] rfl).2 (by decide)⟩

theorem unpackColor_example :
    unpackColor 0x11223344 = { r := 0x11, g := 0x22, b := 0x33 } := by decide

/-! ### Truncated strings -/

theorem cstr_replicate_zero (n : Nat) (l : List Nat) :
    cstr (List.replicate n 0 ++ 0 :: l) = [] := by
  cases n with
  | zero => simp [cstr]
  | succ n => simp [List.replicate, cstr]

theorem cstr_truncated (buf : List Nat) : ∀ len, cstr (truncated buf len) = (cstr buf).take len := by
  induction buf with
  | nil =>
    intro len
    cases len with
    | zero => simp [truncated, strncpy, cstr]
    | succ n =>
      simp only [truncated, strncpy, cstr, List.take_nil]
      exact cstr_replicate_zero (n + 1) []
  | cons c cs ih =>
    intro len
    cases len with
    | zero => simp [truncated, strncpy, cstr]
    | succ n =>
      by_cases hc : c = 0
      · simp only [truncated, strncpy, hc, if_true, cstr, List.take_nil]
      · have := ih n
        simp only [truncated] at this
        simp only [truncated, strncpy, hc, if_false, cstr, List.cons_append, List.take_succ_cons,
          this]

theorem cstr_no_zero (buf : List Nat) : ∀ x ∈ cstr buf, x ≠ 0 := by
  induction buf with
  | nil => intro x hx; simp [cstr] at hx
  | cons c cs ih =>
    intro x hx
    by_cases hc : c = 0
    · simp [cstr, hc] at hx
    · simp only [cstr, hc, if_false, List.mem_cons] at hx
      rcases hx with rfl | hx
      · exact hc
      · exact ih x hx

theorem cstr_of_no_zero (l : List Nat) (h : ∀ x ∈ l, x ≠ 0) : cstr l = l := by
  induction l with
  | nil => rfl
  | cons c cs ih =>
    have hc : c ≠ 0 := h c (List.mem_cons_self _ _)
    simp only [cstr, hc, if_false]
    rw [ih (fun x hx => h x (List.mem_cons_of_mem _ hx))]

theorem cstr_take (buf : List Nat) (n : Nat) :
    cstr ((cstr buf).take n) = (cstr buf).take n :=
  cstr_of_no_zero _ (fun x hx => cstr_no_zero buf x (List.mem_of_mem_take hx))

theorem take_min_strlen (buf : List Nat) (len : Nat) :
    (cstr buf).take (min len (strlen buf)) = (cstr buf).take len := by
  unfold strlen
  rw [← List.take_take, List.take_length]

theorem take_of_strlen_le (buf : List Nat) (len : Nat) (h : strlen buf ≤ len) :
    (cstr buf).take len = cstr buf :=
  List.take_of_length_le h

theorem width_congr (rnd : Render) (s : State) (font : Ptr) (b1 b2 : List Nat)
    (h : cstr b1 = cstr b2) :
    jive_font_width rnd s font (some b1) = jive_font_width rnd s font (some b2) := by
  simp only [jive_font_width, width_ttf_font, h]

theorem draw_congr (rnd : Render) (s : State) (font : Ptr) (color : Nat) (b1 b2 : List Nat)
    (h : cstr b1 = cstr b2) :
    jive_font_draw_text rnd s font color (some b1) =
      jive_font_draw_text rnd s font color (some b2) := by
  simp only [jive_font_draw_text, draw_ttf_font, h]

theorem tmpCopy_ok_of_ne (rnd : Render) (buf : List Nat) (len : Nat)
    (h1 : ¬ len + 1 = SIZE_MOD) (hm : rnd.malloc (len + 1) = true) :
    tmpCopy rnd buf len = Except.ok (truncated buf len) := by
  simp only [tmpCopy, h1, if_false, hm, Nat.lt_irrefl]
  rfl

theorem tmpCopy_ok (rnd : Render) (buf : List Nat) (len : Nat) (hlen : len + 1 < SIZE_MOD)
    (hm : rnd.malloc (len + 1) = true) :
    tmpCopy rnd buf len = Except.ok (truncated buf len) :=
  tmpCopy_ok_of_ne rnd buf len (Nat.ne_of_lt hlen) hm

theorem tmpCopy_overrun (rnd : Render) (buf : List Nat) (len : Nat)
    (hlen : len + 1 = SIZE_MOD) : tmpCopy rnd buf len = Except.error Fault.segv := by
  simp only [tmpCopy, hlen, if_true]
  cases rnd.malloc 0 with
  | false => rfl
  | true =>
    have : 0 < SIZE_MOD := by decide
    simp [this]

theorem tmpCopy_cases (rnd : Render) (buf : List Nat) (len : Nat) :
    tmpCopy rnd buf len = Except.error Fault.segv ∨
    tmpCopy rnd buf len = Except.ok (truncated buf len) := by
  by_cases h1 : len + 1 = SIZE_MOD
  · exact Or.inl (tmpCopy_overrun rnd buf len h1)
  · cases hm : rnd.malloc (len + 1) with
    | false =>
      left
      simp only [tmpCopy, h1, if_false, hm, if_true]
    | true => exact Or.inr (tmpCopy_ok_of_ne rnd buf len h1 hm)

theorem nwidth_copy (rnd : Render) (s : State) (font : Ptr) (f : JiveFont)
    (buf : List Nat) (len : Nat) (hc : checked s font = Except.ok f) (hpos : 0 < len)
    (hlen : len + 1 < SIZE_MOD) (hm : rnd.malloc (len + 1) = true) :
    jive_font_nwidth rnd s font (some buf) len =
      jive_font_width rnd s font (some (truncated buf len)) := by
  have hl : ¬ len ≤ 0 := by omega
  simp only [jive_font_nwidth, jive_font_width, hc, hl, if_false,
    tmpCopy_ok rnd buf len hlen hm]

theorem ndraw_copy (rnd : Render) (s : State) (font : Ptr) (color : Nat)
    (buf : List Nat) (len : Nat) (hlen : len + 1 < SIZE_MOD)
    (hm : rnd.malloc (len + 1) = true) :
    jive_font_ndraw_text rnd s font color (some buf) len =
      jive_font_draw_text rnd s font color (some (truncated buf len)) := by
  simp only [jive_font_ndraw_text, tmpCopy_ok rnd buf len hlen hm]

/-- C17 (amended): for a valid handle, a byte string `s` and a length `len`
below the largest `size_t`, with the block of `len + 1` bytes allocated when
`len > 0`: `jive_font_nwidth(h, s, 0)` returns `0` whatever the collaborators
would answer; for `len > 0` the call returns what `jive_font_width` returns for
the first `min(len, strlen(s))` bytes of `s`; and whenever `len >= strlen(s)` it
returns what `jive_font_width` returns for `s` itself (at `len = 0`, where `s`
is empty, with an SDL_ttf that measures the text without glyphs as 0 wide).
The cut is made in the byte string. -/
theorem nwidth_truncates (rnd : Render) (s : State) (font : Ptr) (f : JiveFont)
    (buf : List Nat) (len : Nat) (h : Int) (h0 : font ≠ NULL)
    (hr : hread s.heap font = some f) (hv : Valid f)
    (hlen : len + 1 < SIZE_MOD) (hm : 0 < len → rnd.malloc (len + 1) = true)
    (hsize : rnd.TTF_SizeUTF8 f.ttf [] = some (0, h)) :
    (∀ rnd2, jive_font_nwidth rnd2 s font (some buf) 0 = Except.ok 0) ∧
    (0 < len →
      jive_font_nwidth rnd s font (some buf) len =
        jive_font_width rnd s font (some ((cstr buf).take (min len (strlen buf))))) ∧
    (strlen buf ≤ len →
      jive_font_nwidth rnd s font (some buf) len = jive_font_width rnd s font (some buf)) := by
  have hc := checked_ok s font f h0 hr hv.2.1
  have hw : f.width = FnPtr.width_ttf_font := hv.2.2.2.1
  have hzero : ∀ rnd2, jive_font_nwidth rnd2 s font (some buf) 0 = Except.ok 0 := by
    intro rnd2
    simp [jive_font_nwidth, hc]
  refine ⟨hzero, ?_, ?_⟩
  · intro hpos
    rw [nwidth_copy rnd s font f buf len hc hpos hlen (hm hpos)]
    apply width_congr
    rw [cstr_truncated, cstr_take, take_min_strlen]
  · intro hle
    by_cases hpos : 0 < len
    · rw [nwidth_copy rnd s font f buf len hc hpos hlen (hm hpos)]
      apply width_congr
      rw [cstr_truncated, take_of_strlen_le buf len hle]
    · have hl0 : len = 0 := by omega
      subst hl0
      have hbuf : cstr buf = [] := List.length_eq_zero.mp (Nat.le_zero.mp hle)
      rw [hzero rnd]
      simp only [jive_font_width, hc, hw, width_ttf_font, hr, hbuf, hsize]

theorem nwidth_truncates_witness :
    (∀ rnd2, jive_font_nwidth rnd2 exTwo 2 (some [195, 169, 33, 0]) 0 = Except.ok 0) ∧
    jive_font_nwidth exRender exTwo 2 (some [195, 169, 33, 0]) 1 =
      jive_font_width exRender exTwo 2
        (some ((cstr [195, 169, 33, 0]).take (min 1 (strlen [195, 169, 33, 0])))) ∧
    jive_font_nwidth exRender exTwo 2 (some [195, 169, 33, 0]) 5 =
      jive_font_width exRender exTwo 2 (some [195, 169, 33, 0]) ∧
    jive_font_nwidth exRender exTwo 2 (some [0]) 0 =
      jive_font_width exRender exTwo 2 (some [0]) :=
  ⟨(nwidth_truncates exRender exTwo 2 (exFont 14 1 114 1) [195, 169, 33, 0] 1 12
      (by decide) rfl exTwo_valid (by decide) (fun _ => rfl) rfl).1,
    (nwidth_truncates exRender exTwo 2 (exFont 14 1 114 1) [195, 169, 33, 0] 1 12
      (by decide) rfl exTwo_valid (by decide) (fun _ => rfl) rfl).2.1 (by decide),
    (nwidth_truncates exRender exTwo 2 (exFont 14 1 114 1) [195, 169, 33, 0] 5 12
      (by decide) rfl exTwo_valid (by decide) (fun _ => rfl) rfl).2.2 (by decide),
    (nwidth_truncates exRender exTwo 2 (exFont 14 1 114 1) [0] 0 12
      (by decide) rfl exTwo_valid (by decide) (fun _ => rfl) rfl).2.2 (by decide)⟩

/-- C17 (as stated) fails at the largest `size_t`: on the valid handle at
address `2` of `exTwo` and the string `"Hi"`, with `len = 18446744073709551615`
the sum `len + 1` is `0`, `strncpy` writes past the block of 0 bytes and the
call faults, while `len >= strlen(s)` and `jive_font_width` returns `10`. -/
theorem nwidth_overruns_at_size_max :
    checked exTwo 2 = Except.ok (exFont 14 1 114 1) ∧
    strlen [72, 105, 0] ≤ 18446744073709551615 ∧
    jive_font_nwidth exRender exTwo 2 (some [72, 105, 0]) 18446744073709551615 =
      Except.error Fault.segv ∧
    jive_font_width exRender exTwo 2 (some [72, 105, 0]) = Except.ok 10 := by
  refine ⟨rfl, by decide, ?_, rfl⟩
  have hc : checked exTwo 2 = Except.ok (exFont 14 1 114 1) := rfl
  have hl : ¬ (18446744073709551615 : Nat) ≤ 0 := by decide
  simp only [jive_font_nwidth, hc, hl, if_false,
    tmpCopy_overrun exRender [72, 105, 0] 18446744073709551615 (by decide)]

theorem nwidth_splits_character :
    jive_font_nwidth exRender exTwo 2 (some [195, 169, 33, 0]) 1 =
      jive_font_width exRender exTwo 2 (some [195]) ∧
    jive_font_nwidth exRender exTwo 2 (some [195, 169, 33, 0]) 1 = Except.ok 5 ∧
    jive_font_width exRender exTwo 2 (some [195, 169, 33, 0]) = Except.ok 15 :=
  ⟨rfl, rfl, rfl⟩

/-- C18 (amended): for a length `len` below the largest `size_t` and with the
block of `len + 1` bytes allocated, `jive_font_ndraw_text(h, c, s, len)` returns
what `jive_font_draw_text` returns for the first `min(len, strlen(s))` bytes of
`s`, hence what it returns for `s` itself when `len >= strlen(s)`. -/
theorem ndraw_truncates (rnd : Render) (s : State) (font : Ptr) (color : Nat)
    (buf : List Nat) (len : Nat) (hlen : len + 1 < SIZE_MOD)
    (hm : rnd.malloc (len + 1) = true) :
    jive_font_ndraw_text rnd s font color (some buf) len =
      jive_font_draw_text rnd s font color
        (some ((cstr buf).take (min len (strlen buf)))) ∧
    (strlen buf ≤ len →
      jive_font_ndraw_text rnd s font color (some buf) len =
        jive_font_draw_text rnd s font color (some buf)) := by
  have hmain := ndraw_copy rnd s font color buf len hlen hm
  refine ⟨?_, ?_⟩
  · rw [hmain]
    apply draw_congr
    rw [cstr_truncated, cstr_take, take_min_strlen]
  · intro hle
    rw [hmain]
    apply draw_congr
    rw [cstr_truncated, take_of_strlen_le buf len hle]

theorem ndraw_truncates_witness :
    jive_font_ndraw_text exRender exTwo 2 0xFF0000FF (some [72, 105, 0]) 5 =
      jive_font_draw_text exRender exTwo 2 0xFF0000FF
        (some ((cstr [72, 105, 0]).take (min 5 (strlen [72, 105, 0])))) ∧
    jive_font_ndraw_text exRender exTwo 2 0xFF0000FF (some [72, 105, 0]) 5 =
      jive_font_draw_text exRender exTwo 2 0xFF0000FF (some [72, 105, 0]) :=
  ⟨(ndraw_truncates exRender exTwo 2 0xFF0000FF [72, 105, 0] 5 (by decide) rfl).1,
    (ndraw_truncates exRender exTwo 2 0xFF0000FF [72, 105, 0] 5 (by decide) rfl).2
      (by decide)⟩

/-- C18 (as stated) fails at the largest `size_t`: on the valid handle at
address `2` of `exTwo` and the string `"Hi"`, with `len = 18446744073709551615`
the block `malloc(len + 1)` has 0 bytes, `strncpy` writes past it and the call
faults, while `len >= strlen(s)` and `jive_font_draw_text` returns a surface. -/
theorem ndraw_overruns_at_size_max :
    checked exTwo 2 = Except.ok (exFont 14 1 114 1) ∧
    strlen [72, 105, 0] ≤ 18446744073709551615 ∧
    jive_font_ndraw_text exRender exTwo 2 0xFF0000FF (some [72, 105, 0])
      18446744073709551615 = Except.error Fault.segv ∧
    jive_font_draw_text exRender exTwo 2 0xFF0000FF (some [72, 105, 0]) =
      Except.ok 6114 := by
  refine ⟨rfl, by decide, ?_, rfl⟩
  simp only [jive_font_ndraw_text,
    tmpCopy_overrun exRender [72, 105, 0] 18446744073709551615 (by decide)]

theorem cached_read (s : State) (hi : Inv s) (e : Ptr × JiveFont) (he : e ∈ cache s) :
    ∃ f, hread s.heap e.1 = some f ∧ view (e.1, f) = e ∧ e.1 ≠ NULL ∧ Valid f := by
  obtain ⟨xs, hx⟩ := hi.1
  obtain ⟨x, _, hxe, hr, h0⟩ := mem_cache s xs hx e he
  have h1 : x.1 = e.1 := by rw [← hxe]; rfl
  have h2 : view (e.1, x.2) = e := by
    rw [← h1]
    exact hxe
  refine ⟨x.2, hr, h2, h0, ?_⟩
  have := hi.2.1 e he
  rw [← h2] at this
  exact this

theorem decr32_incr32 (n : Nat) : decr32 (incr32 n) = n := by
  unfold incr32 decr32
  by_cases h : n + 1 = UINT32_MOD
  · simp only [h, if_true]
    omega
  · simp only [h, if_false]
    simp

theorem free_total (s : State) (hi : Inv s) (e : Ptr × JiveFont) (he : e ∈ cache s) :
    ∃ s1, jive_font_free s e.1 = Except.ok ((), s1) := by
  obtain ⟨f, hr, hv, _, _⟩ := cached_read s hi e he
  have hv2 : view (e.1, f) ∈ cache s := by rw [hv]; exact he
  by_cases hrc : decr32 f.refcount > 0
  · exact ⟨_, free_keep_inv s e.1 f hi hv2 hr hrc⟩
  · obtain ⟨s1, h1, _⟩ := free_drop_inv s e.1 f hi hv2 hr (Nat.eq_zero_of_not_pos hrc)
    exact ⟨s1, h1⟩

/-- C19: in every reachable state every handle of the cache list is not null
and carries the marker `JIVE_FONT_MAGIC`, an open `TTF_Font` and the three
dispatch entries, so that the assert at the head of every accessor and mutator
holds: none of them ends in a failed assertion on a handle of the cache, and
each returns (the two bounded calls when their temporary block is allocated and
`len + 1` is a `size_t`). -/
theorem cached_handles_valid (s : State) (h : Reachable s) (e : Ptr × JiveFont)
    (he : e ∈ cache s) :
    e.1 ≠ NULL ∧ e.2.magic = JIVE_FONT_MAGIC ∧ e.2.ttf ≠ NULL ∧
    e.2.width = FnPtr.width_ttf_font ∧ e.2.draw = FnPtr.draw_ttf_font ∧
    e.2.destroy = FnPtr.destroy_ttf_font ∧
    (∃ f, checked s e.1 = Except.ok f ∧ view (e.1, f) = e) ∧
    jive_font_capheight s e.1 = Except.ok (e.2.capheight, s) ∧
    jive_font_height s e.1 = Except.ok (e.2.height, s) ∧
    jive_font_ascend s e.1 = Except.ok (e.2.ascend, s) ∧
    jive_font_offset s e.1 = Except.ok (wrapInt (e.2.ascend - e.2.capheight), s) ∧
    (∀ rnd str, ∃ w, jive_font_width rnd s e.1 str = Except.ok w) ∧
    (∀ rnd str len, jive_font_nwidth rnd s e.1 str len ≠ Except.error Fault.assertion) ∧
    (∀ rnd buf len, len + 1 < SIZE_MOD → rnd.malloc (len + 1) = true →
      ∃ w, jive_font_nwidth rnd s e.1 (some buf) len = Except.ok w) ∧
    (∀ rnd color str, ∃ srf, jive_font_draw_text rnd s e.1 color str = Except.ok srf) ∧
    (∀ rnd color str len,
      jive_font_ndraw_text rnd s e.1 color str len ≠ Except.error Fault.assertion) ∧
    (∀ rnd color buf len, len + 1 < SIZE_MOD → rnd.malloc (len + 1) = true →
      ∃ srf, jive_font_ndraw_text rnd s e.1 color (some buf) len = Except.ok srf) ∧
    (∃ s1, jive_font_ref s e.1 = Except.ok (e.1, s1)) ∧
    (∃ s1, jive_font_free s e.1 = Except.ok ((), s1)) := by
  have hi := Reachable_Inv s h
  obtain ⟨f, hr, hv, h0, hval⟩ := cached_read s hi e he
  have hve := hi.2.1 e he
  have hc := checked_ok s e.1 f h0 hr hval.2.1
  have hw : f.width = FnPtr.width_ttf_font := hval.2.2.2.1
  have hd : f.draw = FnPtr.draw_ttf_font := hval.2.2.2.2.1
  have hcap : f.capheight = e.2.capheight := by rw [← hv]; rfl
  have hhei : f.height = e.2.height := by rw [← hv]; rfl
  have hasc : f.ascend = e.2.ascend := by rw [← hv]; rfl
  have hdraw : ∀ (rnd : Render) (color : Nat) (str : Option (List Nat)),
      ∃ srf, jive_font_draw_text rnd s e.1 color str = Except.ok srf := by
    intro rnd color str
    cases str with
    | none => exact ⟨rnd.jive_surface_new_SDLSurface NULL, by simp [jive_font_draw_text, hc]⟩
    | some buf =>
      exact ⟨rnd.jive_surface_new_SDLSurface
        (rnd.TTF_RenderUTF8_Blended f.ttf (cstr buf) (unpackColor color)),
        by simp [jive_font_draw_text, hc, hd, draw_ttf_font, hr]⟩
  have hwidth : ∀ (rnd : Render) (str : Option (List Nat)),
      ∃ w, jive_font_width rnd s e.1 str = Except.ok w := by
    intro rnd str
    cases str with
    | none => exact ⟨0, by simp [jive_font_width, hc, hw, width_ttf_font]⟩
    | some buf =>
      cases hsz : rnd.TTF_SizeUTF8 f.ttf (cstr buf) with
      | none => exact ⟨rnd.w_indeterminate, by simp only [jive_font_width, hc, hw, width_ttf_font, hr, hsz]⟩
      | some p => exact ⟨p.1, by simp only [jive_font_width, hc, hw, width_ttf_font, hr, hsz]⟩
  have hnw : ∀ (rnd : Render) (buf : List Nat) (len : Nat),
      (∃ w, jive_font_nwidth rnd s e.1 (some buf) len = Except.ok w) ∨
      (jive_font_nwidth rnd s e.1 (some buf) len = Except.error Fault.segv ∧
        tmpCopy rnd buf len = Except.error Fault.segv) := by
    intro rnd buf len
    by_cases hl : len ≤ 0
    · exact Or.inl ⟨0, by simp [jive_font_nwidth, hc, hl]⟩
    · rcases tmpCopy_cases rnd buf len with ht | ht
      · right
        refine ⟨?_, ht⟩
        simp only [jive_font_nwidth, hc, hl, if_false, ht]
      · left
        obtain ⟨w, hw2⟩ := hwidth rnd (some (truncated buf len))
        refine ⟨w, ?_⟩
        rw [← hw2]
        simp only [jive_font_nwidth, jive_font_width, hc, hl, if_false, ht]
  have hnd : ∀ (rnd : Render) (color : Nat) (buf : List Nat) (len : Nat),
      (∃ srf, jive_font_ndraw_text rnd s e.1 color (some buf) len = Except.ok srf) ∨
      (jive_font_ndraw_text rnd s e.1 color (some buf) len = Except.error Fault.segv ∧
        tmpCopy rnd buf len = Except.error Fault.segv) := by
    intro rnd color buf len
    rcases tmpCopy_cases rnd buf len with ht | ht
    · right
      refine ⟨?_, ht⟩
      simp only [jive_font_ndraw_text, ht]
    · left
      obtain ⟨srf, hs⟩ := hdraw rnd color (some (truncated buf len))
      refine ⟨srf, ?_⟩
      rw [← hs]
      simp only [jive_font_ndraw_text, ht]
  refine ⟨h0, hve.2.1, hve.2.2.1, hve.2.2.2.1, hve.2.2.2.2.1, hve.2.2.2.2.2, ⟨f, hc, hv⟩,
    ?_, ?_, ?_, ?_, hwidth, ?_, ?_, hdraw, ?_, ?_, ?_, free_total s hi e he⟩
  · simp [jive_font_capheight, hc, hcap]
  · simp [jive_font_height, hc, hhei]
  · simp [jive_font_ascend, hc, hasc]
  · simp [jive_font_offset, hc, hcap, hasc]
  · intro rnd str len
    cases str with
    | none =>
      by_cases hl : len ≤ 0
      · simp [jive_font_nwidth, hc, hl]
      · simp [jive_font_nwidth, hc, hl]
    | some buf =>
      rcases hnw rnd buf len with ⟨w, hw2⟩ | ⟨hw2, _⟩
      · rw [hw2]; intro hx; cases hx
      · rw [hw2]; intro hx; cases hx
  · intro rnd buf len hlen hm
    rcases hnw rnd buf len with hw2 | ⟨_, ht⟩
    · exact hw2
    · rw [tmpCopy_ok rnd buf len hlen hm] at ht
      cases ht
  · intro rnd color str len
    cases str with
    | none => simp [jive_font_ndraw_text]
    | some buf =>
      rcases hnd rnd color buf len with ⟨w, hw2⟩ | ⟨hw2, _⟩
      · rw [hw2]; intro hx; cases hx
      · rw [hw2]; intro hx; cases hx
  · intro rnd color buf len hlen hm
    rcases hnd rnd color buf len with hw2 | ⟨_, ht⟩
    · exact hw2
    · rw [tmpCopy_ok rnd buf len hlen hm] at ht
      cases ht
  · obtain ⟨f2, _, _, hl⟩ := ref_inv s e.1 hi (List.mem_map.mpr ⟨e, he, rfl⟩)
    exact ⟨_, hl⟩

theorem cached_handles_valid_witness :
    (1 : Ptr) ≠ NULL ∧ (exFont 12 1 112 0).magic = JIVE_FONT_MAGIC ∧
    (exFont 12 1 112 0).ttf ≠ NULL ∧
    (exFont 12 1 112 0).width = FnPtr.width_ttf_font ∧
    (exFont 12 1 112 0).draw = FnPtr.draw_ttf_font ∧
    (exFont 12 1 112 0).destroy = FnPtr.destroy_ttf_font ∧
    (∃ f, checked exTwo 1 = Except.ok f ∧ view (1, f) = (1, exFont 12 1 112 0)) ∧
    jive_font_capheight exTwo 1 = Except.ok ((exFont 12 1 112 0).capheight, exTwo) ∧
    jive_font_height exTwo 1 = Except.ok ((exFont 12 1 112 0).height, exTwo) ∧
    jive_font_ascend exTwo 1 = Except.ok ((exFont 12 1 112 0).ascend, exTwo) ∧
    jive_font_offset exTwo 1 =
      Except.ok (wrapInt ((exFont 12 1 112 0).ascend - (exFont 12 1 112 0).capheight),
        exTwo) ∧
    (∀ rnd str, ∃ w, jive_font_width rnd exTwo 1 str = Except.ok w) ∧
    (∀ rnd str len, jive_font_nwidth rnd exTwo 1 str len ≠ Except.error Fault.assertion) ∧
    (∀ rnd buf len, len + 1 < SIZE_MOD → rnd.malloc (len + 1) = true →
      ∃ w, jive_font_nwidth rnd exTwo 1 (some buf) len = Except.ok w) ∧
    (∀ rnd color str, ∃ srf, jive_font_draw_text rnd exTwo 1 color str = Except.ok srf) ∧
    (∀ rnd color str len,
      jive_font_ndraw_text rnd exTwo 1 color str len ≠ Except.error Fault.assertion) ∧
    (∀ rnd color buf len, len + 1 < SIZE_MOD → rnd.malloc (len + 1) = true →
      ∃ srf, jive_font_ndraw_text rnd exTwo 1 color (some buf) len = Except.ok srf) ∧
    (∃ s1, jive_font_ref exTwo 1 = Except.ok (1, s1)) ∧
    (∃ s1, jive_font_free exTwo 1 = Except.ok ((), s1)) :=
  cached_handles_valid exTwo exTwo_reachable (1, exFont 12 1 112 0)
    (by rw [exTwo_cache]; exact List.mem_cons_of_mem _ (List.mem_cons_self _ _))

theorem mapRefcount_decr_incr (f : JiveFont) :
    JiveFont.mapRefcount decr32 (JiveFont.mapRefcount incr32 f) = f := by
  cases f
  simp only [JiveFont.mapRefcount, decr32_incr32]

theorem onHandle_decr_incr (a : Ptr) (l : List (Ptr × JiveFont)) :
    (l.map (onHandle a (JiveFont.mapRefcount incr32))).map
      (onHandle a (JiveFont.mapRefcount decr32)) = l := by
  rw [List.map_map]
  conv_rhs => rw [← List.map_id l]
  apply List.map_congr_left
  intro x _
  by_cases h : x.1 = a
  · simp only [Function.comp, onHandle, h, if_true, mapRefcount_decr_incr, id]
    exact Prod.ext h.symm rfl
  · simp only [Function.comp, onHandle, h, if_false, id]

theorem load_free_hit (env : Env) (s : State) (name : String) (size : Nat)
    (e : Ptr × JiveFont) (hi : Inv s) (he : e ∈ cache s)
    (hk : key e = (some name, size)) (hrc : 1 ≤ e.2.refcount) :
    ∃ s1 s2, jive_font_load env s name size = Except.ok (e.1, s1) ∧
      jive_font_free s1 e.1 = Except.ok ((), s2) ∧ cache s2 = cache s ∧
      s2.fonts = s.fonts ∧ s2.ttfInit = s.ttfInit ∧ s2.ttfOpen = s.ttfOpen := by
  obtain ⟨f, hr, hv, hl⟩ := load_hit_inv env s name size e hi he hk
  obtain ⟨hi1, hc1⟩ := Inv_update s e.1 f incr32 hi hr
  have hr1 : hread (hwrite s.heap e.1 f.incr) e.1 = some f.incr := hread_hwrite_same _ _ _
  have hfe : f.refcount = e.2.refcount := by rw [← hv]; rfl
  have hv1 : view (e.1, f.incr) ∈ cache { s with heap := hwrite s.heap e.1 f.incr } := by
    have : cache { s with heap := hwrite s.heap e.1 f.incr } =
        (cache s).map (onHandle e.1 (JiveFont.mapRefcount incr32)) := hc1
    rw [this]
    refine List.mem_map.mpr ⟨e, he, ?_⟩
    have h2 := view_onHandle e.1 incr32 (e.1, f)
    rw [hv] at h2
    rw [← h2]
    simp only [onHandle, if_true]
    rfl
  have hpos : decr32 f.incr.refcount > 0 := by
    have : f.incr.refcount = incr32 f.refcount := rfl
    rw [this, decr32_incr32, hfe]
    exact hrc
  have hfree := free_keep_inv { s with heap := hwrite s.heap e.1 f.incr } e.1 f.incr hi1 hv1
    hr1 hpos
  obtain ⟨_, hc2⟩ := Inv_update { s with heap := hwrite s.heap e.1 f.incr } e.1 f.incr decr32
    hi1 hr1
  refine ⟨_, _, hl, hfree, ?_, rfl, rfl, rfl⟩
  have h3 : cache { s with heap := hwrite (hwrite s.heap e.1 f.incr) e.1 f.incr.decr } =
      (cache { s with heap := hwrite s.heap e.1 f.incr }).map
        (onHandle e.1 (JiveFont.mapRefcount decr32)) := hc2
  have h4 : cache { s with heap := hwrite s.heap e.1 f.incr } =
      (cache s).map (onHandle e.1 (JiveFont.mapRefcount incr32)) := hc1
  rw [h3, h4]
  exact onHandle_decr_incr e.1 (cache s)

theorem load_free_miss (env : Env) (s : State) (name : String) (size : Nat) (path : String)
    (hi : Inv s) (ha : AllocOK env s) (hmiss : (some name, size) ∉ (cache s).map key)
    (hinit : s.ttfInit = true ∨ env.TTF_Init = true)
    (hfind : env.squeezeplay_find_file name = some path)
    (hopen : env.TTF_OpenFont path size ≠ NULL) :
    ∃ s1 s2, jive_font_load env s name size = Except.ok (env.calloc, s1) ∧
      jive_font_free s1 env.calloc = Except.ok ((), s2) ∧ cache s2 = cache s ∧
      s2.ttfOpen = s.ttfOpen := by
  obtain ⟨s1, hl, hi1, hc1, _, ho1⟩ :=
    load_miss_ok_inv env s name size path hi ha hmiss hinit hfind hopen
  have hmem : view (env.calloc, newFont env path name size s.fonts) ∈ cache s1 := by
    rw [hc1]; exact List.mem_cons_self _ _
  obtain ⟨f, hr, hv, _, _⟩ := cached_read s1 hi1 _ hmem
  have hv1 : view (env.calloc, f) ∈ cache s1 := by
    have : (view (env.calloc, newFont env path name size s.fonts)).1 = env.calloc := rfl
    rw [this] at hv
    rw [hv]
    exact hmem
  have hr1 : hread s1.heap env.calloc = some f := hr
  have hv2 : view (env.calloc, f) = view (env.calloc, newFont env path name size s.fonts) := hv
  have hrc : f.refcount = 1 := by
    have h1 : (view (env.calloc, f)).2.refcount = f.refcount := rfl
    rw [← h1, hv2]
    rfl
  have httf : f.ttf = env.TTF_OpenFont path size := by
    have h1 : (view (env.calloc, f)).2.ttf = f.ttf := rfl
    rw [← h1, hv2]
    rfl
  have hz : decr32 f.refcount = 0 := by rw [hrc]; rfl
  obtain ⟨s2, hf2, _, hc2, _, ho2, _⟩ := free_drop_inv s1 env.calloc f hi1 hv1 hr1 hz
  refine ⟨s1, s2, hl, hf2, ?_, ?_⟩
  · rw [hc2, hc1]
    have hnd := Inv_nodup_fst s1 hi1
    rw [hc1] at hnd
    have hnot : env.calloc ∉ (cache s).map Prod.fst := (List.nodup_cons.mp hnd).1
    have h0 : decide ((view (env.calloc, newFont env path name size s.fonts)).1 ≠ env.calloc)
        = false := by
      simp [view]
    rw [List.filter_cons_of_neg (by rw [h0]; simp)]
    apply List.filter_eq_self.mpr
    intro x hx
    have : x.1 ≠ env.calloc := fun h => hnot (List.mem_map.mpr ⟨x, hx, h⟩)
    simpa using this
  · rw [ho2, ho1, httf]
    exact List.erase_cons_head _ _

/-- C20 (amended): for every state that satisfies the invariant of the cache
(in particular no two handles with the same name and size) and in which every
cached handle has a reference count of at least one, a `jive_font_load` that
returns a handle followed by `jive_font_free` of that handle returns, and the
cache list afterwards is the list before the load: on a hit as on a miss. -/
theorem load_free_round_trip (env : Env) (s s1 : State) (name : String) (size : Nat)
    (r : Ptr) (hi : Inv s) (hrc : ∀ e ∈ cache s, 1 ≤ e.2.refcount) (ha : AllocOK env s)
    (hl : jive_font_load env s name size = Except.ok (r, s1)) (hr : r ≠ NULL) :
    ∃ s2, jive_font_free s1 r = Except.ok ((), s2) ∧ cache s2 = cache s ∧
      s2.ttfOpen = s.ttfOpen := by
  by_cases hm : (some name, size) ∈ (cache s).map key
  · obtain ⟨e, he, hk⟩ := List.mem_map.mp hm
    obtain ⟨t1, t2, h1, h2, h3, _, _, h4⟩ :=
      load_free_hit env s name size e hi he hk (hrc e he)
    rw [h1] at hl
    injection hl with hl
    injection hl with hl1 hl2
    subst hl1
    subst hl2
    exact ⟨t2, h2, h3, h4⟩
  · by_cases hinit : s.ttfInit = true ∨ env.TTF_Init = true
    · cases hfind : env.squeezeplay_find_file name with
      | none =>
        rw [load_miss_fail_inv env s name size hi ha hm hinit (Or.inl hfind)] at hl
        injection hl with hl
        injection hl with hl1 _
        exact absurd hl1.symm hr
      | some path =>
        by_cases hopen : env.TTF_OpenFont path size = NULL
        · rw [load_miss_fail_inv env s name size hi ha hm hinit
            (Or.inr ⟨path, hfind, hopen⟩)] at hl
          injection hl with hl
          injection hl with hl1 _
          exact absurd hl1.symm hr
        · obtain ⟨t1, t2, h1, h2, h3, h4⟩ :=
            load_free_miss env s name size path hi ha hm hinit hfind hopen
          rw [h1] at hl
          injection hl with hl
          injection hl with hl1 hl2
          subst hl1
          subst hl2
          exact ⟨t2, h2, h3, h4⟩
    · have h1 : s.ttfInit = false := by
        cases hs : s.ttfInit
        · rfl
        · exact absurd (Or.inl hs) hinit
      have h2 : env.TTF_Init = false := by
        cases hs : env.TTF_Init
        · rfl
        · exact absurd (Or.inr hs) hinit
      rw [load_miss_exit_inv env s name size hi hm h1 h2] at hl
      injection hl

theorem load_free_round_trip_witness :
    ∃ s2, jive_font_free exTwo 2 = Except.ok ((), s2) ∧ cache s2 = cache (exOne 1) ∧
      s2.ttfOpen = (exOne 1).ttfOpen :=
  load_free_round_trip (exEnv 2 114) (exOne 1) exTwo "Arial.ttf" 14 2
    (Reachable_Inv _ exOne_reachable)
    (by intro e he; rw [exOne_cache] at he; rw [List.mem_singleton.mp he]; decide)
    exEnv_alloc_one exTwo_load (by decide)

/-- C20 (as stated) fails: the state `exOne 0`, one cached handle whose `Uint32`
count has wrapped to 0, is reachable and has no duplicate key; a hit of
`jive_font_load` raises the count to 1 and the `jive_font_free` that follows
drops the handle, so the list after the round trip is empty, not the list
before the load. -/
theorem round_trip_drops_zero_count :
    Reachable (exOne 0) ∧ ((cache (exOne 0)).map key).Nodup ∧
    cache (exOne 0) = [(1, exFont 12 0 112 0)] ∧
    jive_font_load (exEnv 2 114) (exOne 0) "Arial.ttf" 12 = Except.ok (1, exOne 1) ∧
    jive_font_free (exOne 1) 1 = Except.ok ((), State.init) ∧
    cache State.init = [] ∧ cache State.init ≠ cache (exOne 0) := by
  refine ⟨exOne_zero_reachable, ?_, rfl, rfl, rfl, rfl, ?_⟩
  · rw [exOne_cache]
    exact List.nodup_singleton _
  · rw [exOne_cache]
    intro h
    have h2 := congrArg List.length h
    exact absurd h2 (by decide)

/-! ## One call, seen on the cache list -/

theorem load_hit_step (env : Env) (s : State) (name : String) (size : Nat)
    (e : Ptr × JiveFont) (hi : Inv s) (he : e ∈ cache s) (hk : key e = (some name, size)) :
    ∃ s1, jive_font_load env s name size = Except.ok (e.1, s1) ∧ Inv s1 ∧
      cache s1 = (cache s).map (onHandle e.1 JiveFont.incr) ∧
      s1.fonts = s.fonts ∧ s1.ttfInit = s.ttfInit ∧ s1.ttfOpen = s.ttfOpen := by
  obtain ⟨f, hr, _, hl⟩ := load_hit_inv env s name size e hi he hk
  obtain ⟨h1, h2⟩ := Inv_update s e.1 f incr32 hi hr
  exact ⟨_, hl, h1, h2, rfl, rfl, rfl⟩

theorem ref_step (s : State) (e : Ptr × JiveFont) (hi : Inv s) (he : e ∈ cache s) :
    ∃ s1, jive_font_ref s e.1 = Except.ok (e.1, s1) ∧ Inv s1 ∧
      cache s1 = (cache s).map (onHandle e.1 JiveFont.incr) ∧
      s1.fonts = s.fonts ∧ s1.ttfInit = s.ttfInit ∧ s1.ttfOpen = s.ttfOpen := by
  obtain ⟨f, hr, _, hl⟩ := ref_inv s e.1 hi (List.mem_map.mpr ⟨e, he, rfl⟩)
  obtain ⟨h1, h2⟩ := Inv_update s e.1 f incr32 hi hr
  exact ⟨_, hl, h1, h2, rfl, rfl, rfl⟩

theorem free_keep_step (s : State) (e : Ptr × JiveFont) (hi : Inv s) (he : e ∈ cache s)
    (hrc : decr32 e.2.refcount > 0) :
    ∃ s1, jive_font_free s e.1 = Except.ok ((), s1) ∧ Inv s1 ∧
      cache s1 = (cache s).map (onHandle e.1 JiveFont.decr) ∧
      s1.fonts = s.fonts ∧ s1.ttfInit = s.ttfInit ∧ s1.ttfOpen = s.ttfOpen := by
  obtain ⟨f, hr, hv, _, _⟩ := cached_read s hi e he
  have hv2 : view (e.1, f) ∈ cache s := by rw [hv]; exact he
  have hfe : f.refcount = e.2.refcount := by rw [← hv]; rfl
  have hl := free_keep_inv s e.1 f hi hv2 hr (by rw [hfe]; exact hrc)
  obtain ⟨h1, h2⟩ := Inv_update s e.1 f decr32 hi hr
  exact ⟨_, hl, h1, h2, rfl, rfl, rfl⟩

theorem free_drop_step (s : State) (e : Ptr × JiveFont) (hi : Inv s) (he : e ∈ cache s)
    (hrc : decr32 e.2.refcount = 0) :
    ∃ s1, jive_font_free s e.1 = Except.ok ((), s1) ∧ Inv s1 ∧
      cache s1 = (cache s).filter (fun x => decide (x.1 ≠ e.1)) ∧
      e.1 ∉ (cache s1).map Prod.fst ∧ hread s1.heap e.1 = none ∧
      s1.ttfOpen = s.ttfOpen.erase e.2.ttf ∧
      s1.ttfInit = (if cache s1 = [] then false else s.ttfInit) := by
  obtain ⟨f, hr, hv, _, _⟩ := cached_read s hi e he
  have hv2 : view (e.1, f) ∈ cache s := by rw [hv]; exact he
  have hfe : f.refcount = e.2.refcount := by rw [← hv]; rfl
  have hft : f.ttf = e.2.ttf := by rw [← hv]; rfl
  obtain ⟨s1, hl, h1, h2, h3, h4, h5⟩ :=
    free_drop_inv s e.1 f hi hv2 hr (by rw [hfe]; exact hrc)
  refine ⟨s1, hl, h1, h2, ?_, h3, ?_, h5⟩
  · rw [h2]
    intro hm
    obtain ⟨x, hx, hx1⟩ := List.mem_map.mp hm
    have := (List.mem_filter.mp hx).2
    simp [hx1] at this
  · rw [h4, hft]

theorem mem_onHandle (a : Ptr) (g : JiveFont → JiveFont) (l : List (Ptr × JiveFont))
    (x : Ptr × JiveFont) (hx : x ∈ l.map (onHandle a g)) :
    (x ∈ l ∧ x.1 ≠ a) ∨ ∃ y ∈ l, y.1 = a ∧ x = (a, g y.2) := by
  obtain ⟨y, hy, hyx⟩ := List.mem_map.mp hx
  by_cases h : y.1 = a
  · right
    refine ⟨y, hy, h, ?_⟩
    rw [← hyx]
    simp only [onHandle, h, if_true]
  · left
    have : onHandle a g y = y := by simp only [onHandle, h, if_false]
    rw [this] at hyx
    rw [← hyx]
    exact ⟨hy, h⟩

theorem onHandle_ne (a : Ptr) (g : JiveFont → JiveFont) (l : List (Ptr × JiveFont))
    (x : Ptr × JiveFont) (hx : x ∈ l) (hne : x.1 ≠ a) : x ∈ l.map (onHandle a g) := by
  refine List.mem_map.mpr ⟨x, hx, ?_⟩
  simp only [onHandle, hne, if_false]

theorem onHandle_fst (a : Ptr) (g : JiveFont → JiveFont) (l : List (Ptr × JiveFont)) :
    (l.map (onHandle a g)).map Prod.fst = l.map Prod.fst := by
  rw [List.map_map]
  apply List.map_congr_left
  intro x _
  by_cases h : x.1 = a
  · simp only [Function.comp, onHandle, h, if_true]
  · simp only [Function.comp, onHandle, h, if_false]

/-- What a returning `jive_font_load` did, by cases: a hit, a failed load of a
new key, or a successful load of a new key. -/
theorem load_cases (env : Env) (s s1 : State) (name : String) (size : Nat) (r : Ptr)
    (hi : Inv s) (ha : AllocOK env s)
    (hl : jive_font_load env s name size = Except.ok (r, s1)) :
    (∃ e ∈ cache s, key e = (some name, size) ∧ r = e.1 ∧
      cache s1 = (cache s).map (onHandle e.1 JiveFont.incr) ∧
      s1.ttfInit = s.ttfInit ∧ s1.ttfOpen = s.ttfOpen) ∨
    ((some name, size) ∉ (cache s).map key ∧ r = NULL ∧ s1 = { s with ttfInit := true } ∧
      cache s1 = cache s ∧
      (env.squeezeplay_find_file name = none ∨
        ∃ path, env.squeezeplay_find_file name = some path ∧
          env.TTF_OpenFont path size = NULL)) ∨
    ((some name, size) ∉ (cache s).map key ∧
      ∃ path, env.squeezeplay_find_file name = some path ∧
        env.TTF_OpenFont path size ≠ NULL ∧ r = env.calloc ∧
        cache s1 = view (env.calloc, newFont env path name size s.fonts) :: cache s ∧
        s1.ttfInit = true ∧ s1.ttfOpen = env.TTF_OpenFont path size :: s.ttfOpen) := by
  by_cases hm : (some name, size) ∈ (cache s).map key
  · obtain ⟨e, he, hk⟩ := List.mem_map.mp hm
    obtain ⟨t, h1, _, h3, _, h5, h6⟩ := load_hit_step env s name size e hi he hk
    rw [h1] at hl
    injection hl with hl
    injection hl with hl1 hl2
    subst hl1
    subst hl2
    exact Or.inl ⟨e, he, hk, rfl, h3, h5, h6⟩
  · by_cases hinit : s.ttfInit = true ∨ env.TTF_Init = true
    · cases hfind : env.squeezeplay_find_file name with
      | none =>
        rw [load_miss_fail_inv env s name size hi ha hm hinit (Or.inl hfind)] at hl
        injection hl with hl
        injection hl with hl1 hl2
        subst hl1
        subst hl2
        exact Or.inr (Or.inl ⟨hm, rfl, rfl, (Inv_ttfInit s hi).2, Or.inl rfl⟩)
      | some path =>
        by_cases hopen : env.TTF_OpenFont path size = NULL
        · rw [load_miss_fail_inv env s name size hi ha hm hinit
            (Or.inr ⟨path, hfind, hopen⟩)] at hl
          injection hl with hl
          injection hl with hl1 hl2
          subst hl1
          subst hl2
          exact Or.inr (Or.inl ⟨hm, rfl, rfl, (Inv_ttfInit s hi).2,
            Or.inr ⟨path, rfl, hopen⟩⟩)
        · obtain ⟨t, h1, _, h3, h4, h5⟩ :=
            load_miss_ok_inv env s name size path hi ha hm hinit hfind hopen
          rw [h1] at hl
          injection hl with hl
          injection hl with hl1 hl2
          subst hl1
          subst hl2
          exact Or.inr (Or.inr ⟨hm, path, rfl, hopen, rfl, h3, h4, h5⟩)
    · have h1 : s.ttfInit = false := by
        cases hs : s.ttfInit
        · rfl
        · exact absurd (Or.inl hs) hinit
      have h2 : env.TTF_Init = false := by
        cases hs : env.TTF_Init
        · rfl
        · exact absurd (Or.inr hs) hinit
      rw [load_miss_exit_inv env s name size hi hm h1 h2] at hl
      injection hl

theorem ref_cases (s s1 : State) (font r : Ptr) (hi : Inv s)
    (hf : font ∈ (cache s).map Prod.fst)
    (hl : jive_font_ref s font = Except.ok (r, s1)) :
    ∃ e ∈ cache s, e.1 = font ∧ r = font ∧
      cache s1 = (cache s).map (onHandle font JiveFont.incr) ∧
      s1.ttfInit = s.ttfInit ∧ s1.ttfOpen = s.ttfOpen := by
  obtain ⟨e, he, hfe⟩ := List.mem_map.mp hf
  subst hfe
  obtain ⟨t, h1, _, h3, _, h5, h6⟩ := ref_step s e hi he
  rw [h1] at hl
  injection hl with hl
  injection hl with hl1 hl2
  subst hl1
  subst hl2
  exact ⟨e, he, rfl, rfl, h3, h5, h6⟩

theorem free_cases (s s1 : State) (font : Ptr) (hi : Inv s)
    (hf : font ∈ (cache s).map Prod.fst)
    (hl : jive_font_free s font = Except.ok ((), s1)) :
    ∃ e ∈ cache s, e.1 = font ∧
      ((decr32 e.2.refcount > 0 ∧ cache s1 = (cache s).map (onHandle font JiveFont.decr) ∧
        s1.ttfInit = s.ttfInit ∧ s1.ttfOpen = s.ttfOpen) ∨
       (decr32 e.2.refcount = 0 ∧
        cache s1 = (cache s).filter (fun x => decide (x.1 ≠ font)) ∧
        font ∉ (cache s1).map Prod.fst ∧ s1.ttfOpen = s.ttfOpen.erase e.2.ttf ∧
        s1.ttfInit = (if cache s1 = [] then false else s.ttfInit))) := by
  obtain ⟨e, he, hfe⟩ := List.mem_map.mp hf
  subst hfe
  by_cases hrc : decr32 e.2.refcount > 0
  · obtain ⟨t, h1, _, h3, _, h5, h6⟩ := free_keep_step s e hi he hrc
    rw [h1] at hl
    injection hl with hl
    injection hl with _ hl2
    subst hl2
    exact ⟨e, he, rfl, Or.inl ⟨hrc, h3, h5, h6⟩⟩
  · have hz : decr32 e.2.refcount = 0 := Nat.eq_zero_of_not_pos hrc
    obtain ⟨t, h1, _, h3, h4, _, h6, h7⟩ := free_drop_step s e hi he hz
    rw [h1] at hl
    injection hl with hl
    injection hl with _ hl2
    subst hl2
    exact ⟨e, he, rfl, Or.inr ⟨hz, h3, h4, h6, h7⟩⟩

theorem filter_key_le_one (l : List (Ptr × JiveFont)) (hn : (l.map key).Nodup)
    (k : Option String × Nat) : (l.filter (fun e => decide (key e = k))).length ≤ 1 := by
  induction l with
  | nil => simp
  | cons a t ih =>
    have hn2 : key a ∉ t.map key ∧ (t.map key).Nodup := List.nodup_cons.mp hn
    by_cases hk : key a = k
    · have h0 : t.filter (fun e => decide (key e = k)) = [] := by
        apply List.filter_eq_nil_iff.mpr
        intro x hx
        simp only [decide_eq_true_eq]
        intro h
        apply hn2.1
        rw [hk, ← h]
        exact List.mem_map_of_mem key hx
      have h1 : List.filter (fun e => decide (key e = k)) (a :: t) =
          a :: List.filter (fun e => decide (key e = k)) t := by
        simp [List.filter_cons, hk]
      rw [h1, h0]
      exact Nat.le_refl 1
    · have h1 : List.filter (fun e => decide (key e = k)) (a :: t) =
          List.filter (fun e => decide (key e = k)) t := by
        simp [List.filter_cons, hk]
      rw [h1]
      exact ih hn2.2

theorem exOne_noWrap : ReachableNoWrap (exOne 1) := by
  refine ReachableNoWrap.load _ _ _ _ _ _ ReachableNoWrap.init exEnv_alloc_init ?_ exOne_load
  intro e he
  have : cache State.init = [] := rfl
  rw [this] at he
  cases he

theorem exTwo_noWrap : ReachableNoWrap exTwo := by
  refine ReachableNoWrap.load _ _ _ _ _ _ exOne_noWrap exEnv_alloc_one ?_ exTwo_load
  intro e he
  rw [exOne_cache] at he
  rw [List.mem_singleton.mp he]
  intro _
  decide

/-- C1: in every state reachable from the initial state by `jive_font_load`,
`jive_font_ref` and `jive_font_free` (the last two on handles of the cache), no
two handles of the cache list have the same name and size; the open `TTF_Font`
objects are the ones of the cached handles, one for each, so at most one is
open for a key. -/
theorem cache_keys_unique (s : State) (h : Reachable s) :
    (∀ a ∈ cache s, ∀ b ∈ cache s, key a = key b → a = b) ∧
    ((cache s).map key).Nodup ∧
    s.ttfOpen = (cache s).map (fun e => e.2.ttf) ∧ s.ttfOpen.Nodup ∧
    (∀ k, ((cache s).filter (fun e => decide (key e = k))).length ≤ 1) := by
  have hi := Reachable_Inv s h
  have hn := hi.2.2.1
  exact ⟨fun a ha b hb hk => key_inj _ hn a b ha hb hk, hn, hi.2.2.2.1, hi.2.2.2.2.1,
    fun k => filter_key_le_one _ hn k⟩

theorem cache_keys_unique_witness :
    (∀ a ∈ cache exTwo, ∀ b ∈ cache exTwo, key a = key b → a = b) ∧
    ((cache exTwo).map key).Nodup ∧
    exTwo.ttfOpen = (cache exTwo).map (fun e => e.2.ttf) ∧ exTwo.ttfOpen.Nodup ∧
    (∀ k, ((cache exTwo).filter (fun e => decide (key e = k))).length ≤ 1) :=
  cache_keys_unique exTwo exTwo_reachable

theorem noWrap_reachable (s : State) (h : ReachableNoWrap s) : Reachable s := by
  induction h with
  | init => exact Reachable.init
  | load s s1 env name size r _ ha _ hl ih => exact Reachable.load s s1 env name size r ih ha hl
  | ref s s1 font r _ hf _ hl ih => exact Reachable.ref s s1 font r ih hf hl
  | free s s1 font _ hf hl ih => exact Reachable.free s s1 font ih hf hl

theorem incr32_pos (n : Nat) (h : n ≠ UINT32_MOD - 1) : 1 ≤ incr32 n := by
  unfold incr32
  have : ¬ n + 1 = UINT32_MOD := by
    intro h2
    apply h
    omega
  rw [if_neg this]
  omega

theorem noWrap_counts (s : State) (h : ReachableNoWrap s) :
    ∀ e ∈ cache s, 1 ≤ e.2.refcount := by
  induction h with
  | init =>
    intro e he
    have : cache State.init = [] := rfl
    rw [this] at he
    cases he
  | load s s1 env name size r hs ha hw hl ih =>
    have hi := Reachable_Inv s (noWrap_reachable s hs)
    intro x hx
    rcases load_cases env s s1 name size r hi ha hl with
      ⟨e, he, hk, _, hc, _, _⟩ | ⟨_, _, _, hc, _⟩ | ⟨_, path, _, _, _, hc, _, _⟩
    · rw [hc] at hx
      rcases mem_onHandle _ _ _ x hx with ⟨h1, _⟩ | ⟨y, hy, hy1, hxy⟩
      · exact ih x h1
      · have hye : y = e := fst_inj _ (Inv_nodup_fst s hi) y e hy he hy1
        rw [hxy, hye]
        exact incr32_pos _ (hw e he hk)
    · rw [hc] at hx
      exact ih x hx
    · rw [hc] at hx
      rcases List.mem_cons.mp hx with h1 | h1
      · rw [h1]
        exact Nat.le_refl 1
      · exact ih x h1
  | ref s s1 font r hs hf hw hl ih =>
    have hi := Reachable_Inv s (noWrap_reachable s hs)
    intro x hx
    obtain ⟨e, he, he1, _, hc, _, _⟩ := ref_cases s s1 font r hi hf hl
    rw [hc] at hx
    rcases mem_onHandle _ _ _ x hx with ⟨h1, _⟩ | ⟨y, hy, hy1, hxy⟩
    · exact ih x h1
    · rw [hxy]
      exact incr32_pos _ (hw y hy hy1)
  | free s s1 font hs hf hl ih =>
    have hi := Reachable_Inv s (noWrap_reachable s hs)
    intro x hx
    obtain ⟨e, he, he1, hc⟩ := free_cases s s1 font hi hf hl
    rcases hc with ⟨hpos, hc, _, _⟩ | ⟨_, hc, _, _, _⟩
    · rw [hc] at hx
      rcases mem_onHandle _ _ _ x hx with ⟨h1, _⟩ | ⟨y, hy, hy1, hxy⟩
      · exact ih x h1
      · have hye : y = e := fst_inj _ (Inv_nodup_fst s hi) y e hy he (hy1.trans he1.symm)
        rw [hxy, hye]
        exact hpos
    · rw [hc] at hx
      exact ih x (List.mem_filter.mp hx).1

/-- C2 (amended): in every state reached from the empty cache by calls of
`jive_font_load`, `jive_font_ref` and `jive_font_free` on cached handles in
which no count is incremented at `UINT32_MOD - 1`, every handle of the cache
list has a reference count of at least one; `jive_font_free` on a cached handle
returns, leaves every count at least one, and a handle whose count reaches 0
in it is not in the list afterwards. -/
theorem refcount_at_least_one (s : State) (h : ReachableNoWrap s) :
    (∀ e ∈ cache s, 1 ≤ e.2.refcount) ∧
    ∀ e ∈ cache s, ∃ s1, jive_font_free s e.1 = Except.ok ((), s1) ∧
      (∀ x ∈ cache s1, 1 ≤ x.2.refcount) ∧
      (decr32 e.2.refcount = 0 → e.1 ∉ (cache s1).map Prod.fst) ∧
      (e.2.refcount = 1 → e.1 ∉ (cache s1).map Prod.fst) := by
  refine ⟨noWrap_counts s h, fun e he => ?_⟩
  have hi := Reachable_Inv s (noWrap_reachable s h)
  obtain ⟨s1, hl⟩ := free_total s hi e he
  have hf : e.1 ∈ (cache s).map Prod.fst := List.mem_map.mpr ⟨e, he, rfl⟩
  have h1 := ReachableNoWrap.free s s1 e.1 h hf hl
  obtain ⟨y, hy, hy1, hc⟩ := free_cases s s1 e.1 hi hf hl
  have hye : y = e := fst_inj _ (Inv_nodup_fst s hi) y e hy he hy1
  rw [hye] at hc
  have hz : decr32 e.2.refcount = 0 → e.1 ∉ (cache s1).map Prod.fst := by
    intro h0
    rcases hc with ⟨hpos, _⟩ | ⟨_, _, hn, _⟩
    · rw [h0] at hpos
      exact absurd hpos (Nat.lt_irrefl 0)
    · exact hn
  refine ⟨s1, hl, noWrap_counts s1 h1, hz, fun h0 => hz ?_⟩
  rw [h0]
  rfl

theorem refcount_at_least_one_witness :
    (∀ e ∈ cache exTwo, 1 ≤ e.2.refcount) ∧
    ∀ e ∈ cache exTwo, ∃ s1, jive_font_free exTwo e.1 = Except.ok ((), s1) ∧
      (∀ x ∈ cache s1, 1 ≤ x.2.refcount) ∧
      (decr32 e.2.refcount = 0 → e.1 ∉ (cache s1).map Prod.fst) ∧
      (e.2.refcount = 1 → e.1 ∉ (cache s1).map Prod.fst) :=
  refcount_at_least_one exTwo exTwo_noWrap

/-- C2 (as stated) fails: the state `exOne 0` is reachable from the empty cache
(one load, then `jive_font_ref` until the `Uint32` count wraps), and its cache
list holds the handle at address `1` with a reference count of 0. -/
theorem refcount_zero_reachable :
    Reachable (exOne 0) ∧ (1, exFont 12 0 112 0) ∈ cache (exOne 0) ∧
    (exFont 12 0 112 0).refcount = 0 ∧
    ¬ (∀ e ∈ cache (exOne 0), 1 ≤ e.2.refcount) := by
  refine ⟨exOne_zero_reachable, ?_, rfl, ?_⟩
  · rw [exOne_cache]
    exact List.mem_singleton.mpr rfl
  · intro h
    have := h (1, exFont 12 0 112 0) (by rw [exOne_cache]; exact List.mem_singleton.mpr rfl)
    exact absurd this (by decide)

theorem exOne_miss_14 : (some "Arial.ttf", 14) ∉ (cache (exOne 1)).map key := by
  rw [exOne_cache]
  decide

theorem exTwo_mem_one : (1, exFont 12 1 112 0) ∈ cache exTwo := by
  rw [exTwo_cache]
  exact List.mem_cons_of_mem _ (List.mem_cons_self _ _)

theorem exTwo_mem_two : (2, exFont 14 1 114 0) ∈ cache exTwo := by
  rw [exTwo_cache]
  exact List.mem_cons_self _ _

/-- C3 (amended): in a state whose cache list holds a handle `h` with the name
and size asked for and a reference count below `UINT32_MOD - 1`,
`jive_font_load` returns `h`, adds exactly one to the count of `h`, leaves the
order of the list, every other handle, every other field of `h` and `fonts` as
they were, and does not touch SDL_ttf or the file lookup: the state of SDL_ttf
is unchanged and the call gives the same whatever the collaborators answer. -/
theorem load_hit_increments (env : Env) (s : State) (name : String) (size : Nat)
    (e : Ptr × JiveFont) (hi : Inv s) (he : e ∈ cache s) (hk : key e = (some name, size))
    (hrc : e.2.refcount + 1 < UINT32_MOD) :
    ∃ s1, jive_font_load env s name size = Except.ok (e.1, s1) ∧
      cache s1 = (cache s).map (fun x => if x.1 = e.1
        then (x.1, { x.2 with refcount := x.2.refcount + 1 }) else x) ∧
      s1.fonts = s.fonts ∧ s1.ttfInit = s.ttfInit ∧ s1.ttfOpen = s.ttfOpen ∧
      ∀ env2, jive_font_load env2 s name size = Except.ok (e.1, s1) := by
  obtain ⟨f, hr, _, hl⟩ := load_hit_inv env s name size e hi he hk
  refine ⟨_, hl, ?_, rfl, rfl, rfl, fun env2 => ?_⟩
  · exact (Inv_update s e.1 f incr32 hi hr).2.trans
      (map_incr_eq (cache s) (Inv_nodup_fst s hi) e he hrc)
  · obtain ⟨f2, hr2, _, hl2⟩ := load_hit_inv env2 s name size e hi he hk
    rw [hr] at hr2
    injection hr2 with hr2
    rw [hl2, hr2]

theorem load_hit_increments_witness :
    ∃ s1, jive_font_load (exEnv 3 116) exTwo "Arial.ttf" 12 = Except.ok (1, s1) ∧
      cache s1 = (cache exTwo).map (fun x => if x.1 = 1
        then (x.1, { x.2 with refcount := x.2.refcount + 1 }) else x) ∧
      s1.fonts = exTwo.fonts ∧ s1.ttfInit = exTwo.ttfInit ∧ s1.ttfOpen = exTwo.ttfOpen ∧
      ∀ env2, jive_font_load env2 exTwo "Arial.ttf" 12 = Except.ok (1, s1) :=
  load_hit_increments (exEnv 3 116) exTwo "Arial.ttf" 12 (1, exFont 12 1 112 0)
    (Reachable_Inv _ exTwo_reachable) exTwo_mem_one rfl (by decide)

/-- C3 (as stated) fails: the state `exOne 4294967295` is reachable, its cache
holds the handle for `("Arial.ttf", 12)` with a count of `4294967295`, and a
hit of `jive_font_load` leaves that count at `0`: the `Uint32` count wrapped
instead of growing by one. -/
theorem load_hit_wraps_at_max :
    Reachable (exOne 4294967295) ∧
    cache (exOne 4294967295) = [(1, exFont 12 4294967295 112 0)] ∧
    key (1, exFont 12 4294967295 112 0) = (some "Arial.ttf", 12) ∧
    jive_font_load (exEnv 2 114) (exOne 4294967295) "Arial.ttf" 12 =
      Except.ok (1, exOne 0) ∧
    cache (exOne 0) = [(1, exFont 12 0 112 0)] ∧
    (exFont 12 0 112 0).refcount ≠ (exFont 12 4294967295 112 0).refcount + 1 :=
  ⟨exOne_max_reachable, rfl, rfl, rfl, rfl, by decide⟩

/-- C4: in a state whose cache list holds no handle for `(name, size)`, when
`squeezeplay_find_file` finds the file and `TTF_OpenFont` opens it,
`jive_font_load` returns a handle that was not in the list, with a reference
count of 1, the name and the size asked for, and the new cache list is that
handle followed by the list as it was. -/
theorem load_miss_prepends (env : Env) (s : State) (name : String) (size : Nat)
    (path : String) (hi : Inv s) (ha : AllocOK env s)
    (hmiss : (some name, size) ∉ (cache s).map key)
    (hinit : s.ttfInit = true ∨ env.TTF_Init = true)
    (hfind : env.squeezeplay_find_file name = some path)
    (hopen : env.TTF_OpenFont path size ≠ NULL) :
    ∃ s1 f, jive_font_load env s name size = Except.ok (env.calloc, s1) ∧
      env.calloc ≠ NULL ∧ env.calloc ∉ (cache s).map Prod.fst ∧
      s1.fonts = env.calloc ∧
      cache s1 = (env.calloc, f) :: cache s ∧
      f.refcount = 1 ∧ f.name = some name ∧ f.size = size ∧
      f.ttf = env.TTF_OpenFont path size ∧
      s1.ttfInit = true ∧ s1.ttfOpen = env.TTF_OpenFont path size :: s.ttfOpen := by
  obtain ⟨xs, hx⟩ := hi.1
  have h1 := load_miss_ok env s name size xs path hx (Inv_names s hi xs hx)
    (find_none_of_miss s name size xs hx hmiss) hinit ha.1 hfind hopen
  obtain ⟨s1, hl, hi1, hc1, h3, h4⟩ :=
    load_miss_ok_inv env s name size path hi ha hmiss hinit hfind hopen
  have hs : s1.fonts = env.calloc := by
    rw [h1] at hl
    injection hl with hl
    injection hl with _ hl
    rw [← hl]
  have hnd := Inv_nodup_fst s1 hi1
  rw [hc1] at hnd
  exact ⟨s1, (view (env.calloc, newFont env path name size s.fonts)).2, hl, ha.1,
    (List.nodup_cons.mp hnd).1, hs, hc1, rfl, rfl, rfl, rfl, h3, h4⟩

theorem load_miss_prepends_witness :
    ∃ s1 f, jive_font_load (exEnv 2 114) (exOne 1) "Arial.ttf" 14 =
        Except.ok ((exEnv 2 114).calloc, s1) ∧
      (exEnv 2 114).calloc ≠ NULL ∧ (exEnv 2 114).calloc ∉ (cache (exOne 1)).map Prod.fst ∧
      s1.fonts = (exEnv 2 114).calloc ∧
      cache s1 = ((exEnv 2 114).calloc, f) :: cache (exOne 1) ∧
      f.refcount = 1 ∧ f.name = some "Arial.ttf" ∧ f.size = 14 ∧
      f.ttf = (exEnv 2 114).TTF_OpenFont "/fonts/Arial.ttf" 14 ∧
      s1.ttfInit = true ∧
      s1.ttfOpen = (exEnv 2 114).TTF_OpenFont "/fonts/Arial.ttf" 14 :: (exOne 1).ttfOpen :=
  load_miss_prepends (exEnv 2 114) (exOne 1) "Arial.ttf" 14 "/fonts/Arial.ttf"
    (Reachable_Inv _ exOne_reachable) exEnv_alloc_one exOne_miss_14 (Or.inl rfl) (by rfl)
    (by decide)

/-- C5: in a state whose cache list holds no handle for `(name, size)`, if
`squeezeplay_find_file` does not find the file or `TTF_OpenFont` fails,
`jive_font_load` returns `NULL`, and `fonts`, the heap of handles (the block of
`calloc` is freed again), the cache list and the open `TTF_Font` objects are
the ones before the call. -/
theorem load_failure_atomic (env : Env) (s : State) (name : String) (size : Nat)
    (hi : Inv s) (ha : AllocOK env s) (hmiss : (some name, size) ∉ (cache s).map key)
    (hinit : s.ttfInit = true ∨ env.TTF_Init = true)
    (hfail : env.squeezeplay_find_file name = none ∨
      ∃ path, env.squeezeplay_find_file name = some path ∧
        env.TTF_OpenFont path size = NULL) :
    ∃ s1, jive_font_load env s name size = Except.ok (NULL, s1) ∧
      cache s1 = cache s ∧ s1.fonts = s.fonts ∧ s1.heap = s.heap ∧
      s1.ttfOpen = s.ttfOpen ∧ hread s1.heap env.calloc = none := by
  refine ⟨{ s with ttfInit := true },
    load_miss_fail_inv env s name size hi ha hmiss hinit hfail,
    (Inv_ttfInit s hi).2, rfl, rfl, rfl, ha.2.1⟩

theorem load_failure_atomic_witness :
    ∃ s1, jive_font_load (exEnv 2 114) (exOne 1) "Nope.ttf" 14 = Except.ok (NULL, s1) ∧
      cache s1 = cache (exOne 1) ∧ s1.fonts = (exOne 1).fonts ∧ s1.heap = (exOne 1).heap ∧
      s1.ttfOpen = (exOne 1).ttfOpen ∧ hread s1.heap (exEnv 2 114).calloc = none :=
  load_failure_atomic (exEnv 2 114) (exOne 1) "Nope.ttf" 14
    (Reachable_Inv _ exOne_reachable) exEnv_alloc_one
    (by rw [exOne_cache]; decide) (Or.inl rfl) (Or.inl (by rfl))

/-! ## Sequences of calls on one handle -/

theorem onHandle_head (c : Ptr) (g : JiveFont) (rest : List (Ptr × JiveFont))
    (r : JiveFont → JiveFont) (hn : (((c, g) :: rest).map Prod.fst).Nodup) :
    ((c, g) :: rest).map (onHandle c r) = (c, r g) :: rest := by
  have hnot : c ∉ rest.map Prod.fst := (List.nodup_cons.mp hn).1
  rw [List.map_cons]
  have h1 : onHandle c r (c, g) = (c, r g) := by simp only [onHandle, if_true]
  rw [h1]
  congr 1
  conv_rhs => rw [← List.map_id rest]
  apply List.map_congr_left
  intro x hx
  have : x.1 ≠ c := fun h => hnot (List.mem_map.mpr ⟨x, hx, h⟩)
  simp only [onHandle, this, if_false, id]

theorem filter_head (c : Ptr) (g : JiveFont) (rest : List (Ptr × JiveFont))
    (hnot : c ∉ rest.map Prod.fst) :
    ((c, g) :: rest).filter (fun x => decide (x.1 ≠ c)) = rest := by
  have h1 : List.filter (fun x : Ptr × JiveFont => decide (x.1 ≠ c)) ((c, g) :: rest) =
      List.filter (fun x => decide (x.1 ≠ c)) rest := by
    simp [List.filter_cons]
  rw [h1]
  apply List.filter_eq_self.mpr
  intro x hx
  have : x.1 ≠ c := fun h => hnot (List.mem_map.mpr ⟨x, hx, h⟩)
  simpa using this

theorem incr_eq (g : JiveFont) (h : g.refcount + 1 < UINT32_MOD) :
    g.incr = { g with refcount := g.refcount + 1 } := by
  cases g
  simp only [JiveFont.incr, JiveFont.mapRefcount]
  rw [incr32_lt _ h]

theorem decr_eq (g : JiveFont) (h : 0 < g.refcount) :
    g.decr = { g with refcount := g.refcount - 1 } := by
  cases g
  simp only [JiveFont.decr, JiveFont.mapRefcount]
  rw [decr32_pos _ h]

theorem retain_spec (name : String) (size : Nat) (c : Ptr) (rest : List (Ptr × JiveFont))
    (ops : List (Option Env)) :
    ∀ (t : State) (g : JiveFont), Inv t → cache t = (c, g) :: rest →
      key (c, g) = (some name, size) → g.refcount + ops.length < UINT32_MOD →
      ∃ t1, retain name size c ops t = Except.ok t1 ∧ Inv t1 ∧
        cache t1 = (c, { g with refcount := g.refcount + ops.length }) :: rest ∧
        t1.ttfOpen = t.ttfOpen ∧ t1.ttfInit = t.ttfInit := by
  induction ops with
  | nil =>
    intro t g hi hc _ _
    exact ⟨t, rfl, hi, by rw [hc]; rfl, rfl, rfl⟩
  | cons op ops ih =>
    intro t g hi hc hk hlt
    have hlen : (op :: ops).length = ops.length + 1 := rfl
    rw [hlen] at hlt
    have he : (c, g) ∈ cache t := by rw [hc]; exact List.mem_cons_self _ _
    have hn := Inv_nodup_fst t hi
    rw [hc] at hn
    have hstep : ∃ t2, retainOne name size c t op = Except.ok (c, t2) ∧ Inv t2 ∧
        cache t2 = (c, { g with refcount := g.refcount + 1 }) :: rest ∧
        t2.ttfOpen = t.ttfOpen ∧ t2.ttfInit = t.ttfInit := by
      cases op with
      | some env =>
        obtain ⟨t2, h1, h2, h3, _, h5, h6⟩ := load_hit_step env t name size (c, g) hi he hk
        refine ⟨t2, h1, h2, ?_, h6, h5⟩
        rw [h3, hc, onHandle_head c g rest _ hn, incr_eq g (by omega)]
      | none =>
        obtain ⟨t2, h1, h2, h3, _, h5, h6⟩ := ref_step t (c, g) hi he
        refine ⟨t2, h1, h2, ?_, h6, h5⟩
        rw [h3, hc, onHandle_head c g rest _ hn, incr_eq g (by omega)]
    obtain ⟨t2, h1, h2, h3, h4, h5⟩ := hstep
    obtain ⟨t3, k1, k2, k3, k4, k5⟩ :=
      ih t2 { g with refcount := g.refcount + 1 } h2 h3 hk
        (by show g.refcount + 1 + ops.length < UINT32_MOD; omega)
    refine ⟨t3, ?_, k2, ?_, k4.trans h4, k5.trans h5⟩
    · simp only [retain, h1]
      exact k1
    · rw [k3, hlen]
      have : g.refcount + 1 + ops.length = g.refcount + (ops.length + 1) := by omega
      show (c, { g with refcount := g.refcount + 1 + ops.length }) :: rest = _
      rw [this]

theorem release_spec (c : Ptr) (rest : List (Ptr × JiveFont)) (n : Nat) :
    ∀ (t : State) (g : JiveFont), Inv t → cache t = (c, g) :: rest →
      n < g.refcount → g.refcount < UINT32_MOD →
      ∃ t1, release c n t = Except.ok t1 ∧ Inv t1 ∧
        cache t1 = (c, { g with refcount := g.refcount - n }) :: rest ∧
        t1.ttfOpen = t.ttfOpen ∧ t1.ttfInit = t.ttfInit := by
  induction n with
  | zero =>
    intro t g hi hc _ _
    exact ⟨t, rfl, hi, by rw [hc]; rfl, rfl, rfl⟩
  | succ n ih =>
    intro t g hi hc hlt hmax
    have he : (c, g) ∈ cache t := by rw [hc]; exact List.mem_cons_self _ _
    have hn := Inv_nodup_fst t hi
    rw [hc] at hn
    have hpos : 0 < g.refcount := by omega
    have hd : decr32 g.refcount > 0 := by
      rw [decr32_pos _ hpos]
      omega
    obtain ⟨t2, h1, h2, h3, _, h5, h6⟩ := free_keep_step t (c, g) hi he hd
    have h3b : cache t2 = (c, { g with refcount := g.refcount - 1 }) :: rest := by
      rw [h3, hc, onHandle_head c g rest _ hn, decr_eq g hpos]
    obtain ⟨t3, k1, k2, k3, k4, k5⟩ :=
      ih t2 { g with refcount := g.refcount - 1 } h2 h3b
        (by show n < g.refcount - 1; omega) (by show g.refcount - 1 < UINT32_MOD; omega)
    refine ⟨t3, ?_, k2, ?_, k4.trans h6, k5.trans h5⟩
    · simp only [release, h1]
      exact k1
    · rw [k3]
      have : g.refcount - 1 - n = g.refcount - (n + 1) := by omega
      show (c, { g with refcount := g.refcount - 1 - n }) :: rest = _
      rw [this]

theorem retain_replicate (k : Nat) :
    ∀ n, retain "Arial.ttf" 12 1 (List.replicate k none) (exOne n) =
      Except.ok (exOne (incr32^[k] n)) := by
  induction k with
  | zero => intro n; rfl
  | succ k ih =>
    intro n
    rw [List.replicate_succ, Function.iterate_succ_apply]
    simp only [retain, retainOne, exOne_ref]
    exact ih (incr32 n)

/-- C6 (amended): for every `N` with `1 ≤ N < UINT32_MOD` and every key absent
from the cache whose first `jive_font_load` succeeds, after `N` calls in all of
`jive_font_load` for the key and `jive_font_ref` on the handle (the list `ops`
holds the `N - 1` calls after the first) the handle heads the cache with a
reference count of `N`; after `N - 1` calls of `jive_font_free` it still heads
the cache, with a count of 1; after the `N`-th the cache list is the list
before the first load and the `TTF_Font` of the handle is open no more. -/
theorem balanced_references (env : Env) (s : State) (name : String) (size : Nat)
    (path : String) (ops : List (Option Env)) (hi : Inv s) (ha : AllocOK env s)
    (hmiss : (some name, size) ∉ (cache s).map key)
    (hinit : s.ttfInit = true ∨ env.TTF_Init = true)
    (hfind : env.squeezeplay_find_file name = some path)
    (hopen : env.TTF_OpenFont path size ≠ NULL)
    (hN : ops.length + 1 < UINT32_MOD) :
    ∃ s1 sN sA sB f,
      jive_font_load env s name size = Except.ok (env.calloc, s1) ∧
      cache s1 = (env.calloc, f) :: cache s ∧ f.refcount = 1 ∧
      retain name size env.calloc ops s1 = Except.ok sN ∧
      cache sN = (env.calloc, { f with refcount := ops.length + 1 }) :: cache s ∧
      release env.calloc ops.length sN = Except.ok sA ∧
      cache sA = (env.calloc, { f with refcount := 1 }) :: cache s ∧
      jive_font_free sA env.calloc = Except.ok ((), sB) ∧
      cache sB = cache s ∧ env.calloc ∉ (cache sB).map Prod.fst ∧
      sB.ttfOpen = s.ttfOpen ∧ f.ttf ∉ sB.ttfOpen := by
  obtain ⟨s1, hl, hi1, hc1, _, ho1⟩ :=
    load_miss_ok_inv env s name size path hi ha hmiss hinit hfind hopen
  have hc1b : cache s1 =
      (env.calloc, (view (env.calloc, newFont env path name size s.fonts)).2) :: cache s := hc1
  have hk : key (env.calloc, (view (env.calloc, newFont env path name size s.fonts)).2) =
      (some name, size) := rfl
  obtain ⟨sN, r1, r2, r3, r4, _⟩ :=
    retain_spec name size env.calloc (cache s) ops s1 _ hi1 hc1b hk
      (by show 1 + ops.length < UINT32_MOD; omega)
  have r3b : cache sN = (env.calloc,
      { (view (env.calloc, newFont env path name size s.fonts)).2 with
        refcount := ops.length + 1 }) :: cache s := by
    rw [r3]
    have : (view (env.calloc, newFont env path name size s.fonts)).2.refcount + ops.length =
        ops.length + 1 := by
      show 1 + ops.length = ops.length + 1
      omega
    rw [this]
  obtain ⟨sA, q1, q2, q3, q4, _⟩ :=
    release_spec env.calloc (cache s) ops.length sN _ r2 r3b
      (by show ops.length < ops.length + 1; omega) hN
  have q3b : cache sA = (env.calloc,
      { (view (env.calloc, newFont env path name size s.fonts)).2 with
        refcount := 1 }) :: cache s := by
    rw [q3]
    have : ops.length + 1 - ops.length = 1 := by omega
    show (env.calloc, { (view (env.calloc, newFont env path name size s.fonts)).2 with
      refcount := ops.length + 1 - ops.length }) :: cache s = _
    rw [this]
  have heA : (env.calloc, { (view (env.calloc, newFont env path name size s.fonts)).2 with
      refcount := 1 }) ∈ cache sA := by rw [q3b]; exact List.mem_cons_self _ _
  obtain ⟨sB, p1, _, p3, p4, _, p6, _⟩ := free_drop_step sA _ q2 heA rfl
  have hnd := Inv_nodup_fst sA q2
  rw [q3b] at hnd
  have hnot : env.calloc ∉ (cache s).map Prod.fst := (List.nodup_cons.mp hnd).1
  have hcB : cache sB = cache s := by
    rw [p3, q3b]
    exact filter_head env.calloc _ (cache s) hnot
  have hoB : sB.ttfOpen = s.ttfOpen := by
    rw [p6, q4, r4, ho1]
    exact List.erase_cons_head _ _
  have hfresh : env.TTF_OpenFont path size ∉ s.ttfOpen := ha.2.2 path size
  refine ⟨s1, sN, sA, sB, _, hl, hc1b, rfl, r1, r3b, q1, q3b, p1, hcB, ?_, hoB, ?_⟩
  · rw [hcB]; exact hnot
  · rw [hoB]; exact hfresh

theorem balanced_references_witness :
    ∃ s1 sN sA sB f,
      jive_font_load (exEnv 2 114) (exOne 1) "Arial.ttf" 14 =
        Except.ok ((exEnv 2 114).calloc, s1) ∧
      cache s1 = ((exEnv 2 114).calloc, f) :: cache (exOne 1) ∧ f.refcount = 1 ∧
      retain "Arial.ttf" 14 (exEnv 2 114).calloc [none, some (exEnv 3 116)] s1 =
        Except.ok sN ∧
      cache sN = ((exEnv 2 114).calloc,
        { f with refcount := [none, some (exEnv 3 116)].length + 1 }) :: cache (exOne 1) ∧
      release (exEnv 2 114).calloc [none, some (exEnv 3 116)].length sN = Except.ok sA ∧
      cache sA = ((exEnv 2 114).calloc, { f with refcount := 1 }) :: cache (exOne 1) ∧
      jive_font_free sA (exEnv 2 114).calloc = Except.ok ((), sB) ∧
      cache sB = cache (exOne 1) ∧ (exEnv 2 114).calloc ∉ (cache sB).map Prod.fst ∧
      sB.ttfOpen = (exOne 1).ttfOpen ∧ f.ttf ∉ sB.ttfOpen :=
  balanced_references (exEnv 2 114) (exOne 1) "Arial.ttf" 14 "/fonts/Arial.ttf"
    [none, some (exEnv 3 116)] (Reachable_Inv _ exOne_reachable) exEnv_alloc_one
    exOne_miss_14 (Or.inl rfl) (by rfl) (by decide) (by decide)

/-- C6 (as stated) fails for `N = 4294967296`: after the first load of
`("Arial.ttf", 12)` into the empty cache and `4294967295` calls of
`jive_font_ref` on the handle, `N` calls in all and no release between them,
the reference count of the handle is `0`, not `N`. -/
theorem balanced_references_wrap :
    jive_font_load (exEnv 1 112) State.init "Arial.ttf" 12 = Except.ok (1, exOne 1) ∧
    (List.replicate 4294967295 (none : Option Env)).length + 1 = 4294967296 ∧
    retain "Arial.ttf" 12 1 (List.replicate 4294967295 none) (exOne 1) =
      Except.ok (exOne 0) ∧
    cache (exOne 0) = [(1, exFont 12 0 112 0)] ∧
    (exFont 12 0 112 0).refcount = 0 := by
  refine ⟨exOne_load, ?_, ?_, rfl, rfl⟩
  · rw [List.length_replicate]
  · have h := retain_replicate 4294967295 1
    rw [incr32_iter_wrap] at h
    exact h

theorem exEnv_alloc_two : AllocOK (exEnv 3 116) exTwo := by
  refine ⟨by decide, rfl, fun path size => ?_⟩
  by_cases h : path = "/fonts/Bad.ttf"
  · simp [exEnv, exTwo, h, NULL]
  · simp [exEnv, exTwo, h]

theorem exTwo_free_two : jive_font_free exTwo 2 = Except.ok ((), exOne 1) := by rfl

theorem exOne_free : jive_font_free (exOne 1) 1 = Except.ok ((), State.init) := by rfl

/-- C7 (the code at the failing input): from the initial state, with SDL_ttf not
initialised and the cache empty, `jive_font_load("Nope.ttf", 10)` initialises
SDL_ttf, fails to find the file and returns `NULL`; the state it leaves is
reachable, its cache list is empty and SDL_ttf is initialised. -/
theorem failed_load_leaves_ttf_initialised :
    State.init.ttfInit = false ∧ cache State.init = [] ∧
    jive_font_load (exEnv 1 112) State.init "Nope.ttf" 10 =
      Except.ok (NULL, { State.init with ttfInit := true }) ∧
    Reachable { State.init with ttfInit := true } ∧
    cache { State.init with ttfInit := true } = [] ∧
    ({ State.init with ttfInit := true } : State).ttfInit = true :=
  ⟨rfl, rfl, rfl,
    Reachable.load State.init _ (exEnv 1 112) "Nope.ttf" 10 NULL Reachable.init
      exEnv_alloc_init rfl,
    rfl, rfl⟩

/-- C8: when the cache holds exactly one handle, with a reference count of 1,
SDL_ttf is initialised and `jive_font_free` on the handle leaves the cache
empty and SDL_ttf shut down; a
`jive_font_load` that succeeds from that state leaves SDL_ttf initialised again
and one handle in the cache; and a `jive_font_free` (here in a state `t`, on
the handle `e2`) that leaves the cache non-empty leaves SDL_ttf initialised. -/
theorem teardown_on_empty (s : State) (e : Ptr × JiveFont) (env : Env) (name : String)
    (size : Nat) (path : String) (t t1 : State) (e2 : Ptr × JiveFont)
    (hi : Inv s) (hc : cache s = [e]) (hrc : e.2.refcount = 1)
    (ha : ∀ s1, jive_font_free s e.1 = Except.ok ((), s1) → AllocOK env s1)
    (hT : env.TTF_Init = true)
    (hfind : env.squeezeplay_find_file name = some path)
    (hopen : env.TTF_OpenFont path size ≠ NULL)
    (hit : Inv t) (he2 : e2 ∈ cache t)
    (hf : jive_font_free t e2.1 = Except.ok ((), t1)) (hne : cache t1 ≠ []) :
    s.ttfInit = true ∧
    (∃ s1 s2, jive_font_free s e.1 = Except.ok ((), s1) ∧ cache s1 = [] ∧
      s1.fonts = NULL ∧ s1.ttfInit = false ∧ s1.ttfOpen = [] ∧
      jive_font_load env s1 name size = Except.ok (env.calloc, s2) ∧
      s2.ttfInit = true ∧ (cache s2).length = 1) ∧
    t.ttfInit = true ∧ t1.ttfInit = true := by
  have he : e ∈ cache s := by rw [hc]; exact List.mem_cons_self _ _
  have hz : decr32 e.2.refcount = 0 := by rw [hrc]; rfl
  obtain ⟨s1, h1, h2, h3, _, _, h6, h7⟩ := free_drop_step s e hi he hz
  have hc1 : cache s1 = [] := by
    rw [h3, hc]
    simp
  have hf1 : s1.fonts = NULL := by
    obtain ⟨xs, hx⟩ := h2.1
    exact (fonts_null_iff s1 xs hx).mpr hc1
  have hin1 : s1.ttfInit = false := by
    rw [h7, if_pos hc1]
  have ho1 : s1.ttfOpen = [] := by
    rw [h2.2.2.2.1, hc1]
    rfl
  have hmiss : (some name, size) ∉ (cache s1).map key := by
    rw [hc1]
    exact List.not_mem_nil _
  obtain ⟨s2, k1, _, k3, k4, _⟩ :=
    load_miss_ok_inv env s1 name size path h2 (ha s1 h1) hmiss (Or.inr hT) hfind hopen
  have hlen : (cache s2).length = 1 := by
    rw [k3, hc1]
    rfl
  refine ⟨hi.2.2.2.2.2 (List.ne_nil_of_mem he),
    ⟨s1, s2, h1, hc1, hf1, hin1, ho1, k1, k4, hlen⟩, ?_⟩
  have htne : cache t ≠ [] := List.ne_nil_of_mem he2
  have hti : t.ttfInit = true := hit.2.2.2.2.2 htne
  refine ⟨hti, ?_⟩
  obtain ⟨y, _, _, hcase⟩ :=
    free_cases t t1 e2.1 hit (List.mem_map.mpr ⟨e2, he2, rfl⟩) hf
  rcases hcase with ⟨_, _, h5, _⟩ | ⟨_, _, _, _, h5⟩
  · rw [h5]; exact hti
  · rw [h5, if_neg hne]; exact hti

theorem teardown_on_empty_witness :
    (exOne 1).ttfInit = true ∧
    (∃ s1 s2, jive_font_free (exOne 1) 1 = Except.ok ((), s1) ∧ cache s1 = [] ∧
      s1.fonts = NULL ∧ s1.ttfInit = false ∧ s1.ttfOpen = [] ∧
      jive_font_load (exEnv 1 112) s1 "Arial.ttf" 12 =
        Except.ok ((exEnv 1 112).calloc, s2) ∧
      s2.ttfInit = true ∧ (cache s2).length = 1) ∧
    exTwo.ttfInit = true ∧ (exOne 1).ttfInit = true :=
  teardown_on_empty (exOne 1) (1, exFont 12 1 112 0) (exEnv 1 112) "Arial.ttf" 12
    "/fonts/Arial.ttf" exTwo (exOne 1) (2, exFont 14 1 114 0)
    (Reachable_Inv _ exOne_reachable) (exOne_cache 1) rfl
    (by
      intro s1 h
      rw [exOne_free] at h
      injection h with h
      injection h with _ h
      rw [← h]
      exact exEnv_alloc_init)
    rfl (by rfl) (by decide) (Reachable_Inv _ exTwo_reachable) exTwo_mem_two
    exTwo_free_two (by rw [exOne_cache]; exact List.cons_ne_nil _ _)

theorem exOne_two_list : ∃ xs, IsList (exOne 2).heap (exOne 2).fonts xs :=
  ⟨[(1, exFont 12 2 112 0)], by decide, rfl, rfl, rfl⟩

theorem exTwo_list : ∃ xs, IsList exTwo.heap exTwo.fonts xs :=
  (Reachable_Inv _ exTwo_reachable).1

theorem map_decr_eq (l : List (Ptr × JiveFont)) (hn : (l.map Prod.fst).Nodup)
    (e : Ptr × JiveFont) (he : e ∈ l) (hrc : 0 < e.2.refcount) :
    l.map (onHandle e.1 (JiveFont.mapRefcount decr32)) =
      l.map (fun x => if x.1 = e.1
        then (x.1, { x.2 with refcount := x.2.refcount - 1 }) else x) := by
  apply List.map_congr_left
  intro x hx
  by_cases h : x.1 = e.1
  · have hxe : x = e := fst_inj l hn x e hx he h
    simp only [onHandle, h, if_true]
    rw [hxe]
    exact congrArg (Prod.mk e.1) (decr_eq e.2 hrc)
  · simp only [onHandle, h, if_false]

/-- C9: two keys that differ in name or in size and both load get two different
handles, both in the cache; and for two cached handles `a` and `b` with
different keys, a hit of `jive_font_load` on the key of `a`, `jive_font_ref`
on `a` or `jive_font_free` on `a` leaves `b` in the cache with the same
contents, its reference count included. -/
theorem distinct_keys_independent (s : State) (env1 env2 : Env) (n1 n2 : String)
    (z1 z2 : Nat) (p1 p2 : String) (t : State) (a b : Ptr × JiveFont) (env3 : Env)
    (na : String) (sa : Nat)
    (hi : Inv s) (ha1 : AllocOK env1 s)
    (hm1 : (some n1, z1) ∉ (cache s).map key) (hm2 : (some n2, z2) ∉ (cache s).map key)
    (hd : n1 ≠ n2 ∨ z1 ≠ z2)
    (hinit : s.ttfInit = true ∨ env1.TTF_Init = true)
    (hf1 : env1.squeezeplay_find_file n1 = some p1)
    (ho1 : env1.TTF_OpenFont p1 z1 ≠ NULL)
    (ha2 : ∀ s1, jive_font_load env1 s n1 z1 = Except.ok (env1.calloc, s1) → AllocOK env2 s1)
    (hf2 : env2.squeezeplay_find_file n2 = some p2)
    (ho2 : env2.TTF_OpenFont p2 z2 ≠ NULL)
    (hit : Inv t) (hat : a ∈ cache t) (hbt : b ∈ cache t)
    (hka : key a = (some na, sa)) (hkab : key a ≠ key b) :
    (∃ s1 s2 f1 f2, jive_font_load env1 s n1 z1 = Except.ok (env1.calloc, s1) ∧
      jive_font_load env2 s1 n2 z2 = Except.ok (env2.calloc, s2) ∧
      env1.calloc ≠ env2.calloc ∧
      cache s2 = (env2.calloc, f2) :: (env1.calloc, f1) :: cache s ∧
      key (env1.calloc, f1) = (some n1, z1) ∧ key (env2.calloc, f2) = (some n2, z2) ∧
      f1.refcount = 1 ∧ f2.refcount = 1) ∧
    a.1 ≠ b.1 ∧
    (∃ t1, jive_font_load env3 t na sa = Except.ok (a.1, t1) ∧ b ∈ cache t1) ∧
    (∃ t1, jive_font_ref t a.1 = Except.ok (a.1, t1) ∧ b ∈ cache t1) ∧
    (∃ t1, jive_font_free t a.1 = Except.ok ((), t1) ∧ b ∈ cache t1) := by
  have hab : a.1 ≠ b.1 := by
    intro h
    apply hkab
    rw [fst_inj _ (Inv_nodup_fst t hit) a b hat hbt h]
  have hba : b.1 ≠ a.1 := fun h => hab h.symm
  refine ⟨?_, hab, ?_, ?_, ?_⟩
  · obtain ⟨s1, l1, i1, c1, t1, _⟩ :=
      load_miss_ok_inv env1 s n1 z1 p1 hi ha1 hm1 hinit hf1 ho1
    have hm : (some n2, z2) ∉ (cache s1).map key := by
      rw [c1, List.map_cons, List.mem_cons]
      intro h
      rcases h with h | h
      · have h2 : (some n2, z2) = (some n1, z1) := h
        injection h2 with h3 h4
        injection h3 with h3
        rcases hd with hd | hd
        · exact hd h3.symm
        · exact hd h4.symm
      · exact hm2 h
    obtain ⟨s2, l2, i2, c2, _, _⟩ :=
      load_miss_ok_inv env2 s1 n2 z2 p2 i1 (ha2 s1 l1) hm (Or.inl t1) hf2 ho2
    have hnd := Inv_nodup_fst s2 i2
    rw [c2, c1] at hnd
    have hne : env1.calloc ≠ env2.calloc := by
      intro h
      apply (List.nodup_cons.mp hnd).1
      rw [List.map_cons]
      exact List.mem_cons.mpr (Or.inl h.symm)
    refine ⟨s1, s2, (view (env1.calloc, newFont env1 p1 n1 z1 s.fonts)).2,
      (view (env2.calloc, newFont env2 p2 n2 z2 s1.fonts)).2, l1, l2, hne, ?_,
      rfl, rfl, rfl, rfl⟩
    rw [c2, c1]
    rfl
  · obtain ⟨t1, h1, _, h3, _⟩ := load_hit_step env3 t na sa a hit hat hka
    exact ⟨t1, h1, by rw [h3]; exact onHandle_ne _ _ _ b hbt hba⟩
  · obtain ⟨t1, h1, _, h3, _⟩ := ref_step t a hit hat
    exact ⟨t1, h1, by rw [h3]; exact onHandle_ne _ _ _ b hbt hba⟩
  · by_cases hrc : decr32 a.2.refcount > 0
    · obtain ⟨t1, h1, _, h3, _⟩ := free_keep_step t a hit hat hrc
      exact ⟨t1, h1, by rw [h3]; exact onHandle_ne _ _ _ b hbt hba⟩
    · obtain ⟨t1, h1, _, h3, _⟩ :=
        free_drop_step t a hit hat (Nat.eq_zero_of_not_pos hrc)
      refine ⟨t1, h1, ?_⟩
      rw [h3]
      exact List.mem_filter.mpr ⟨hbt, by simpa using hba⟩

theorem distinct_keys_independent_witness :
    (∃ s1 s2 f1 f2,
      jive_font_load (exEnv 1 112) State.init "Arial.ttf" 12 =
        Except.ok ((exEnv 1 112).calloc, s1) ∧
      jive_font_load (exEnv 2 114) s1 "Arial.ttf" 14 =
        Except.ok ((exEnv 2 114).calloc, s2) ∧
      (exEnv 1 112).calloc ≠ (exEnv 2 114).calloc ∧
      cache s2 = ((exEnv 2 114).calloc, f2) :: ((exEnv 1 112).calloc, f1) ::
        cache State.init ∧
      key ((exEnv 1 112).calloc, f1) = (some "Arial.ttf", 12) ∧
      key ((exEnv 2 114).calloc, f2) = (some "Arial.ttf", 14) ∧
      f1.refcount = 1 ∧ f2.refcount = 1) ∧
    (1 : Ptr) ≠ 2 ∧
    (∃ t1, jive_font_load (exEnv 3 116) exTwo "Arial.ttf" 12 = Except.ok (1, t1) ∧
      (2, exFont 14 1 114 0) ∈ cache t1) ∧
    (∃ t1, jive_font_ref exTwo 1 = Except.ok (1, t1) ∧ (2, exFont 14 1 114 0) ∈ cache t1) ∧
    (∃ t1, jive_font_free exTwo 1 = Except.ok ((), t1) ∧
      (2, exFont 14 1 114 0) ∈ cache t1) :=
  distinct_keys_independent State.init (exEnv 1 112) (exEnv 2 114) "Arial.ttf" "Arial.ttf"
    12 14 "/fonts/Arial.ttf" "/fonts/Arial.ttf" exTwo (1, exFont 12 1 112 0)
    (2, exFont 14 1 114 0) (exEnv 3 116) "Arial.ttf" 12
    Inv_init exEnv_alloc_init (not_mem_nil_key _) (not_mem_nil_key _) (Or.inr (by decide))
    (Or.inr rfl) (by rfl) (by decide)
    (by
      intro s1 h
      rw [exOne_load] at h
      injection h with h
      injection h with _ h
      rw [← h]
      exact exEnv_alloc_one)
    (by rfl) (by decide) (Reachable_Inv _ exTwo_reachable) exTwo_mem_one exTwo_mem_two rfl
    (by decide)

/-- C10: for a well-formed cache list (a chain from `fonts` to `NULL`, hence
without a handle twice) and a valid handle `h` in it: if the reference count of
`h` is above 1, `jive_font_free(h)` only takes one from that count and leaves
the list, the other handles, `fonts` and SDL_ttf as they were; if it is 1, the
list afterwards is the list before without `h`, in the same order and with the
same contents, and the `TTF_Font` of `h` is closed and `h` freed.  In both
cases the list afterwards is again a chain of allocated handles from `fonts`
to `NULL`: no handle is left pointing at the freed block. -/
theorem release_frame (s : State) (e : Ptr × JiveFont)
    (hl : ∃ xs, IsList s.heap s.fonts xs) (he : e ∈ cache s) (hv : Valid e.2) :
    (1 < e.2.refcount →
      ∃ s1, jive_font_free s e.1 = Except.ok ((), s1) ∧
        (∃ ys, IsList s1.heap s1.fonts ys ∧ ys.map view = cache s1) ∧
        cache s1 = (cache s).map (fun x => if x.1 = e.1
          then (x.1, { x.2 with refcount := x.2.refcount - 1 }) else x) ∧
        s1.fonts = s.fonts ∧ s1.ttfInit = s.ttfInit ∧ s1.ttfOpen = s.ttfOpen) ∧
    (e.2.refcount = 1 →
      ∃ s1, jive_font_free s e.1 = Except.ok ((), s1) ∧
        (∃ ys, IsList s1.heap s1.fonts ys ∧ ys.map view = cache s1) ∧
        cache s1 = (cache s).filter (fun x => decide (x.1 ≠ e.1)) ∧
        e.1 ∉ (cache s1).map Prod.fst ∧
        (∀ x ∈ cache s, x.1 ≠ e.1 → x ∈ cache s1) ∧
        s1.ttfOpen = s.ttfOpen.erase e.2.ttf ∧ hread s1.heap e.1 = none) := by
  obtain ⟨xs, hx⟩ := hl
  obtain ⟨x, hxm, hxe, hr, h0⟩ := mem_cache s xs hx e he
  have hx1 : x.1 = e.1 := by rw [← hxe]; rfl
  have hrcx : x.2.refcount = e.2.refcount := by rw [← hxe]; rfl
  have hmx : x.2.magic = JIVE_FONT_MAGIC := by
    have : x.2.magic = e.2.magic := by rw [← hxe]; rfl
    rw [this]; exact hv.2.1
  have hdx : x.2.destroy = FnPtr.destroy_ttf_font := by
    have : x.2.destroy = e.2.destroy := by rw [← hxe]; rfl
    rw [this]; exact hv.2.2.2.2.2
  have htx : x.2.ttf = e.2.ttf := by rw [← hxe]; rfl
  constructor
  · intro hrc
    have hpos : 0 < x.2.refcount := by rw [hrcx]; omega
    have hk : x.2.decr.refcount > 0 := by
      show decr32 x.2.refcount > 0
      rw [decr32_pos _ hpos, hrcx]
      omega
    have hfree := free_keep s e.1 x.2 h0 hr hmx hk
    have hup := cache_update s e.1 x.2 decr32 xs hx hr
    refine ⟨_, hfree, ⟨_, hup.1, ?_⟩, ?_, rfl, rfl, rfl⟩
    · exact (cache_eq { s with heap := hwrite s.heap e.1 (x.2.mapRefcount decr32) } _
        hup.1).symm
    · exact hup.2.trans
        (map_decr_eq (cache s) (cache_nodup_fst s xs hx) e he (by omega))
  · intro hrc
    have hz : x.2.decr.refcount = 0 := by
      show decr32 x.2.refcount = 0
      rw [hrcx, hrc]
      rfl
    have hmem : (e.1, x.2) ∈ xs := by
      rw [← hx1]
      exact hxm
    obtain ⟨s1, ys, h1, h2, h3, h4, h5, _⟩ :=
      free_drop s e.1 x.2 xs hx hmem hmx hdx (by rw [htx]; exact hv.2.2.1) hz
    have hc : cache s1 = (cache s).filter (fun x => decide (x.1 ≠ e.1)) := by
      rw [cache_eq s1 ys h2, h3, filter_map_view, ← cache_eq s xs hx]
    refine ⟨s1, h1, ⟨ys, h2, (cache_eq s1 ys h2).symm⟩, hc, ?_, ?_, ?_, h4⟩
    · rw [hc]
      intro hm
      obtain ⟨y, hy, hy1⟩ := List.mem_map.mp hm
      have := (List.mem_filter.mp hy).2
      simp [hy1] at this
    · intro y hy hne
      rw [hc]
      exact List.mem_filter.mpr ⟨hy, by simpa using hne⟩
    · rw [h5, htx]

theorem release_frame_witness :
    (∃ s1, jive_font_free (exOne 2) 1 = Except.ok ((), s1) ∧
        (∃ ys, IsList s1.heap s1.fonts ys ∧ ys.map view = cache s1) ∧
        cache s1 = (cache (exOne 2)).map (fun x => if x.1 = 1
          then (x.1, { x.2 with refcount := x.2.refcount - 1 }) else x) ∧
        s1.fonts = (exOne 2).fonts ∧ s1.ttfInit = (exOne 2).ttfInit ∧
        s1.ttfOpen = (exOne 2).ttfOpen) ∧
    (∃ s1, jive_font_free exTwo 1 = Except.ok ((), s1) ∧
        (∃ ys, IsList s1.heap s1.fonts ys ∧ ys.map view = cache s1) ∧
        cache s1 = (cache exTwo).filter (fun x => decide (x.1 ≠ 1)) ∧
        1 ∉ (cache s1).map Prod.fst ∧
        (∀ x ∈ cache exTwo, x.1 ≠ 1 → x ∈ cache s1) ∧
        s1.ttfOpen = exTwo.ttfOpen.erase (exFont 12 1 112 0).ttf ∧
        hread s1.heap 1 = none) :=
  ⟨(release_frame (exOne 2) (1, exFont 12 2 112 0) exOne_two_list
      (by rw [exOne_cache]; exact List.mem_singleton.mpr rfl) (by decide)).1 (by decide),
    (release_frame exTwo (1, exFont 12 1 112 0) exTwo_list exTwo_mem_one
      (by decide)).2 rfl⟩

end JiveFontModel
